import Mathlib

/-!
# SV39 page-table layer of xv6-qemu (`code/kernel/vm.c`)

A shallow embedding of the page-table walker (`vm_map`, `vm_inverse_of_map`,
`vm_unmap`), of the user page-table lifecycle (`vm_shallow_copy`,
`vm_init_upgtbl`, `vm_recursive_cleanup`, `vm_delete_upgtbl`) and of the
macros they use, followed by theorems about them.

Conventions of the embedding.

* A machine word is a natural number; every expression of the C code that
  computes a new word carries an explicit `% 2 ^ 64`.
* Memory is a function from addresses to 64-bit words.  `pgtbl[i]` is the
  cell at address `pgtbl + 8 * i`; the code only ever touches cells of this
  form, with `pgtbl` the base of a page-sized table.
* Pointers are addresses in the kernel window; `NULL` is `0`.
* `kalloc` and `kfree` live outside `vm.c`.  `kalloc` is a script of the
  values it is going to return, `kfree` a log of the pointers it was given.
* `V_P_DIFF` (from `memlayout.h`) is a parameter `D` of every definition
  that uses `P2V`, `V2P` or the kernel split index.
-/

namespace Xv6

/-! ## Constants and macros -/

/-- Modelled from the spec: `mmu.h` is not among the sources; the page size
is 4096 bytes. -/
def PGSIZE : Nat := 4096

/-- Modelled from the spec: `mmu.h` is not among the sources; the page shift
is 12. -/
def PGSHIFT : Nat := 12

/-- Modelled from the spec: `riscv.h` is not among the sources; the flag bits
are, from bit 0 upwards, `V`, `R`, `W`, `X`, `U`. -/
def PTE_V : Nat := 1

/-- Modelled from the spec: bit 1 of an entry, see `PTE_V`. -/
def PTE_R : Nat := 2

/-- Modelled from the spec: bit 2 of an entry, see `PTE_V`. -/
def PTE_W : Nat := 4

/-- Modelled from the spec: bit 3 of an entry, see `PTE_V`. -/
def PTE_X : Nat := 8

/-- Modelled from the spec: bit 4 of an entry, see `PTE_V`. -/
def PTE_U : Nat := 16

/-- The null pointer. -/
def NULL : Nat := 0

/-- `#define PA2PTE(pa) ((((uint64)pa) >> 12) << 10)` -/
def PA2PTE (pa : Nat) : Nat := ((pa >>> 12) <<< 10) % 2 ^ 64

/-- `#define PTE2PA(pte) (((pte) >> 10) << 12)` -/
def PTE2PA (pte : Nat) : Nat := ((pte >>> 10) <<< 12) % 2 ^ 64

/-- `#define PTE_FLAGS(pte) ((pte) & 0x3FF)` -/
def PTE_FLAGS (pte : Nat) : Nat := pte &&& 0x3FF

/-- `#define PXMASK 0x1FF` -/
def PXMASK : Nat := 0x1FF

/-- `#define PXSHIFT(level) (PGSHIFT+(9*(level)))` -/
def PXSHIFT (level : Nat) : Nat := PGSHIFT + 9 * level

/-- `#define PX(level, va) ((((uint64) (va)) >> PXSHIFT(level)) & PXMASK)` -/
def PX (level va : Nat) : Nat := (va >>> PXSHIFT level) &&& PXMASK

/-- Modelled from the spec: `memlayout.h` is not among the sources;
`P2V(pa) = pa + V_P_DIFF`, computed on 64 bits. -/
def P2V (D a : Nat) : Nat := (a + D) % 2 ^ 64

/-- Modelled from the spec: `memlayout.h` is not among the sources; `V2P` is
the inverse of `P2V`, that is `va - V_P_DIFF` computed on 64 bits. -/
def V2P (D a : Nat) : Nat := (a + (2 ^ 64 - D % 2 ^ 64)) % 2 ^ 64

/-! ## Machine state -/

/-- Memory: the 64-bit word stored at each address. -/
abbrev Mem := Nat → Nat

/-- The state the functions of `vm.c` act on. -/
structure KState where
  /-- The memory seen through the kernel window. -/
  mem : Mem
  /-- The global `pgtbl_t kernel_pgtbl`. -/
  kernel_pgtbl : Nat
  /-- The values `kalloc` returns on its next calls, in order. -/
  pending : List Nat
  /-- The pointers handed to `kfree` so far, oldest first. -/
  freed : List Nat

/-- A 64-bit store `*a = v`. -/
def store (m : Mem) (a v : Nat) : Mem := fun x => if x = a then v else m x

/-- The call `memset(p, 0, n)`: every cell inside `[p, p + n)` becomes zero. -/
def memset_zero (m : Mem) (p n : Nat) : Mem := fun x => if p ≤ x ∧ x < p + n then 0 else m x

/-- The external `kalloc()`: returns the next scripted pointer, `NULL` once
the script is exhausted. -/
def kalloc (s : KState) : Nat × KState :=
  match s.pending with
  | [] => (NULL, s)
  | p :: rest => (p, { s with pending := rest })

/-- The external `kfree(p)`: recorded in the log. -/
def kfree (s : KState) (p : Nat) : KState := { s with freed := s.freed ++ [p] }

/-! ## The walker: `vm_map`, `vm_inverse_of_map`, `vm_unmap` -/

/-- The loop `for (level = 2; level > 0; level--)` of `vm_map` (lines 34-48),
started at `level` with the current table `pgtbl`.  The result is the table
reached at level 0, or `none` when `kalloc` returned `NULL`. -/
def vm_map_walk (D : Nat) : Nat → KState → Nat → Nat → Option Nat × KState
  | 0, s, pgtbl, _ => (some pgtbl, s)
  | level + 1, s, pgtbl, va =>
    let pte := pgtbl + 8 * PX (level + 1) va
    if s.mem pte &&& PTE_V ≠ 0 then
      vm_map_walk D level s (P2V D (PTE2PA (s.mem pte))) va
    else
      let r := kalloc s
      if r.1 = NULL then (none, r.2)
      else
        let m1 := memset_zero r.2.mem r.1 PGSIZE
        let m2 := store m1 pte ((PA2PTE (V2P D r.1) ||| PTE_V) % 2 ^ 64)
        vm_map_walk D level { r.2 with mem := m2 } r.1 va

/-- `int vm_map(pgtbl_t pgtbl, uptr_t va, uptr_t pa, int perm)`; `perm` is
the argument as the 64-bit word it is converted to. -/
def vm_map (D : Nat) (s : KState) (pgtbl va pa perm : Nat) : Int × KState :=
  match vm_map_walk D 2 s pgtbl va with
  | (none, s1) => (-1, s1)
  | (some t, s1) =>
    let pte := t + 8 * PX 0 va
    if s1.mem pte &&& PTE_V ≠ 0 then (-1, s1)
    else (0, { s1 with mem := store s1.mem pte ((PA2PTE pa ||| PTE_V ||| perm) % 2 ^ 64) })

/-- The loop `for (level = 2; level > 0; level--)` shared, word for word, by
`vm_inverse_of_map` (lines 68-76) and `vm_unmap` (lines 89-97): the table
reached at level 0, or `none` when an entry on the way has `V` clear. -/
def descend (D : Nat) : Nat → Mem → Nat → Nat → Option Nat
  | 0, _, pgtbl, _ => some pgtbl
  | level + 1, m, pgtbl, va =>
    let pte := pgtbl + 8 * PX (level + 1) va
    if m pte &&& PTE_V ≠ 0 then descend D level m (P2V D (PTE2PA (m pte))) va
    else none

/-- `void * vm_inverse_of_map(pgtbl_t pgtbl, uptr_t va)` -/
def vm_inverse_of_map (D : Nat) (m : Mem) (pgtbl va : Nat) : Nat :=
  match descend D 2 m pgtbl va with
  | none => NULL
  | some t => PTE2PA (m (t + 8 * PX 0 va))

/-- `int vm_unmap(pgtbl_t pgtbl, uptr_t va)` -/
def vm_unmap (D : Nat) (s : KState) (pgtbl va : Nat) : Int × KState :=
  match descend D 2 s.mem pgtbl va with
  | none => (-1, s)
  | some t =>
    let pte := t + 8 * PX 0 va
    if s.mem pte &&& PTE_V = 0 then (-1, s)
    else
      let s1 := kfree s (P2V D (PTE2PA (s.mem pte)))
      (0, { s1 with mem := store s1.mem pte 0 })

/-! ## User page tables -/

/-- `void vm_shallow_copy(pgtbl_t upgtbl)`: the loop
`for (i = PX(2, V_P_DIFF); i < 512; i++) upgtbl[i] = kernel_pgtbl[i];`. -/
def vm_shallow_copy (D : Nat) (s : KState) (upgtbl : Nat) : KState :=
  (List.range' (PX 2 D) (512 - PX 2 D)).foldl
    (fun st i => { st with mem := store st.mem (upgtbl + 8 * i) (st.mem (st.kernel_pgtbl + 8 * i)) })
    s

/-- `pgtbl_t vm_init_upgtbl(void)` -/
def vm_init_upgtbl (D : Nat) (s : KState) : Nat × KState :=
  let r := kalloc s
  if r.1 = NULL then (NULL, r.2)
  else (r.1, vm_shallow_copy D r.2 r.1)

/-- `void vm_recursive_cleanup(pte_t * pte)`.  The C function recurses along
the pointers it finds in memory; `fuel` bounds the nesting depth and the
result is `none` when that bound is hit. -/
def vm_recursive_cleanup (D : Nat) : Nat → KState → Nat → Option KState
  | 0, _, _ => none
  | fuel + 1, s, pte =>
    if s.mem pte &&& PTE_V = 0 then some s
    else if s.mem pte &&& (PTE_X ||| PTE_R ||| PTE_W) = 0 then
      let pgtbl := P2V D (PTE2PA (s.mem pte))
      match (List.range 512).foldlM (fun st i => vm_recursive_cleanup D fuel st (pgtbl + 8 * i)) s with
      | none => none
      | some s1 => some (kfree s1 pgtbl)
    else some (kfree s (P2V D (PTE2PA (s.mem pte))))

/-- `void vm_delete_upgtbl(pgtbl_t upgtbl)`, with the nesting bound `fuel` of
`vm_recursive_cleanup`. -/
def vm_delete_upgtbl (D : Nat) (fuel : Nat) (s : KState) (upgtbl : Nat) : Option KState :=
  (List.range (PX 2 D)).foldlM (fun st i => vm_recursive_cleanup D fuel st (upgtbl + 8 * i)) s

/-! ## Shape of a page table -/

/-- The level-1 table the root entry `i` points to. -/
def table1 (D : Nat) (m : Mem) (root i : Nat) : Nat := P2V D (PTE2PA (m (root + 8 * i)))

/-- The level-0 table reached through root entry `i` and level-1 entry `j`. -/
def table0 (D : Nat) (m : Mem) (root i j : Nat) : Nat :=
  P2V D (PTE2PA (m (table1 D m root i + 8 * j)))

/-- Address `p` is the base of a table of the tree under `root`: the root
itself, or a table reached from it through entries that have `V` set. -/
def IsTable (D : Nat) (m : Mem) (root p : Nat) : Prop :=
  p = root ∨
  (∃ i, i < 512 ∧ m (root + 8 * i) &&& PTE_V ≠ 0 ∧ p = table1 D m root i) ∨
  (∃ i j, i < 512 ∧ j < 512 ∧ m (root + 8 * i) &&& PTE_V ≠ 0 ∧
    m (table1 D m root i + 8 * j) &&& PTE_V ≠ 0 ∧ p = table0 D m root i j)

/-- A well-formed three-level page table: the root is a page-aligned frame
and no frame serves as a table at two different levels (the walk from the
root never comes back to a table of a higher level). -/
structure WellFormed (D : Nat) (m : Mem) (root : Nat) : Prop where
  root_aligned : root % PGSIZE = 0
  table1_ne_root : ∀ i, i < 512 → m (root + 8 * i) &&& PTE_V ≠ 0 → table1 D m root i ≠ root
  table0_ne_root : ∀ i j, i < 512 → j < 512 → m (root + 8 * i) &&& PTE_V ≠ 0 →
    m (table1 D m root i + 8 * j) &&& PTE_V ≠ 0 → table0 D m root i j ≠ root
  table0_ne_table1 : ∀ i j k, i < 512 → j < 512 → k < 512 → m (root + 8 * i) &&& PTE_V ≠ 0 →
    m (table1 D m root i + 8 * j) &&& PTE_V ≠ 0 → m (root + 8 * k) &&& PTE_V ≠ 0 →
    table0 D m root i j ≠ table1 D m root k

/-- The allocator hands out fresh frames: every pointer `kalloc` is going to
return is either `NULL` or a page-aligned 64-bit address that is not a table
of the tree under `root`, and no frame is handed out twice. -/
structure FreshFrames (D : Nat) (m : Mem) (root : Nat) (script : List Nat) : Prop where
  aligned : ∀ p, p ∈ script → p % PGSIZE = 0
  in_range : ∀ p, p ∈ script → p < 2 ^ 64
  not_table : ∀ p, p ∈ script → p ≠ NULL → ¬ IsTable D m root p
  distinct : script.Pairwise (fun p q => p ≠ NULL → p ≠ q)

/-- In memory `m` the walk of `va` from `root` passes through valid entries
into the level-1 table `t1` and the level-0 table `t0`, and the level-0 cell
of `va` is neither of the two interior cells it passed through. -/
structure PathTo (D : Nat) (m : Mem) (root va t1 t0 : Nat) : Prop where
  valid2 : m (root + 8 * PX 2 va) &&& PTE_V ≠ 0
  child2 : P2V D (PTE2PA (m (root + 8 * PX 2 va))) = t1
  valid1 : m (t1 + 8 * PX 1 va) &&& PTE_V ≠ 0
  child1 : P2V D (PTE2PA (m (t1 + 8 * PX 1 va))) = t0
  sep2 : t0 + 8 * PX 0 va ≠ root + 8 * PX 2 va
  sep1 : t0 + 8 * PX 0 va ≠ t1 + 8 * PX 1 va

/-- State `t` comes from state `s` by calls of `kfree` alone: same memory,
same `kernel_pgtbl`, same allocator script, and a log of freed pointers that
extends the one of `s`. -/
def FreesOnly (s t : KState) : Prop :=
  t.mem = s.mem ∧ t.kernel_pgtbl = s.kernel_pgtbl ∧ t.pending = s.pending ∧
    ∃ l, t.freed = s.freed ++ l

/-! ## Concrete scenarios -/

/-- A value of `V_P_DIFF` for the scenarios: the offset at which `entrypgdir`
of `main.c` makes the RAM at `0x80000000` visible at `0xFFFFFFFFC0000000`. -/
def D0 : Nat := 0xFFFFFFFF40000000

/-- The root table of the scenarios, a frame in the kernel window. -/
def root0 : Nat := 0xFFFFFFFFC0800000

/-- First frame the scripted allocator hands out. -/
def frameA : Nat := 0xFFFFFFFFC0801000

/-- Second frame the scripted allocator hands out. -/
def frameB : Nat := 0xFFFFFFFFC0802000

/-- Third frame the scripted allocator hands out. -/
def frameC : Nat := 0xFFFFFFFFC0803000

/-- The permissions `R|W|U` of the scenarios. -/
def RWU : Nat := PTE_R ||| PTE_W ||| PTE_U

/-- All memory zero (so every root is empty), `kalloc` scripted with `script`. -/
def empty_state (script : List Nat) : KState :=
  { mem := fun _ => 0, kernel_pgtbl := 0, pending := script, freed := [] }

/-- Scenario 1 after its first call: `map(root, 0x1000, 0x80400000, R|W|U)` on
an empty root. -/
def mapped_state : KState :=
  (vm_map D0 (empty_state [frameA, frameB]) root0 0x1000 0x80400000 RWU).2

/-- The boot table `entrypgdir` of `main.c`, placed at `root0`: slots 2 and
511 hold the gigabyte leaf `(0x80000 << 10) | 0xcf` (flags `V|R|W|X|A|D`),
every other slot is zero.  The allocator is scripted with two frames. -/
def entrypgdir_state : KState :=
  { mem := fun a => if a = root0 + 8 * 2 ∨ a = root0 + 8 * 511 then (0x80000 <<< 10) ||| 0xcf else 0,
    kernel_pgtbl := 0, pending := [frameA, frameB], freed := [] }

/-- The state of scenario 1 after its map, with the `V` bit of the level-0
entry of `0x1000` cleared by hand: the entry keeps its frame number and its
`R|W|U` bits. -/
def stale_state : KState :=
  { mapped_state with
    mem := store mapped_state.mem (frameB + 8 * PX 0 0x1000) (PA2PTE 0x80400000 ||| RWU) }

/-- Scenario 3: an empty root and an allocator scripted to succeed once and
then return `NULL`. -/
def oom_state : KState := empty_state [frameA, NULL]

/-- Level-1 table of the kernel half in the scenarios. -/
def kernelL1 : Nat := 0xFFFFFFFFC0810000

/-- Level-0 table of the kernel half in the scenarios. -/
def kernelL0 : Nat := 0xFFFFFFFFC0811000

/-- A kernel page table at `root0`: slot 511 of the root leads through
`kernelL1` and `kernelL0` to a leaf mapping `0xFFFFFFFFC0000000` to
`0x80000000` with `V|R|W|X`; every other word of memory is zero. -/
def kernel_mem : Mem := fun a =>
  if a = root0 + 8 * 511 then (PA2PTE (V2P D0 kernelL1) ||| PTE_V) % 2 ^ 64
  else if a = kernelL1 + 8 * 0 then (PA2PTE (V2P D0 kernelL0) ||| PTE_V) % 2 ^ 64
  else if a = kernelL0 + 8 * 0 then
    (PA2PTE 0x80000000 ||| PTE_V ||| (PTE_R ||| PTE_W ||| PTE_X)) % 2 ^ 64
  else 0

/-- The kernel page table of `kernel_mem` installed as `kernel_pgtbl`, with
`kalloc` scripted with `script`. -/
def kernel_state (script : List Nat) : KState :=
  { mem := kernel_mem, kernel_pgtbl := root0, pending := script, freed := [] }

/-- As `kernel_state [frameA]`, but the frame `kalloc` is about to return still
holds the bytes `0x01` a previous owner left in it. -/
def junk_state : KState :=
  { mem := fun a => if frameA ≤ a ∧ a < frameA + PGSIZE then 0x0101010101010101 else kernel_mem a,
    kernel_pgtbl := root0, pending := [frameA], freed := [] }

/-- Scenario 4, step 1: a user root from `vm_init_upgtbl`; it is `frameA`. -/
def user_state : KState := (vm_init_upgtbl D0 (kernel_state [frameA, frameB, frameC])).2

/-- Scenario 4, step 2: the user pages `0x1000` and `0x2000` mapped to the
frames at `0x80804000` and `0x80805000`. -/
def two_pages_state : KState :=
  (vm_map D0 (vm_map D0 user_state frameA 0x1000 0x80804000 RWU).2 frameA 0x2000 0x80805000 RWU).2

/-! ## SATP -/

/-- `#define SATP_SV39 (8L << 60)`, as the 64-bit word it is. -/
def SATP_SV39 : Nat := (8 <<< 60) % 2 ^ 64

/-- `#define LOAD_SATP(pagetable) (SATP_SV39 | (((uint64)pagetable) >> 12))` -/
def LOAD_SATP (pagetable : Nat) : Nat := SATP_SV39 ||| ((pagetable % 2 ^ 64) >>> 12)

/-- What the privileged helpers of `riscv.h` do to the hart, as events. -/
inductive HartEvent where
  /-- `w_satp(v)`: the value `v` is written to the SATP register. -/
  | w_satp (v : Nat)
  /-- `sfence_vma()`: the global TLB fence. -/
  | sfence_vma
  deriving DecidableEq

/-- `void vm_2_kpgtbl(void)`: the events it adds to those the hart has seen. -/
def vm_2_kpgtbl (D : Nat) (s : KState) (events : List HartEvent) : List HartEvent :=
  (events ++ [HartEvent.w_satp (LOAD_SATP (V2P D s.kernel_pgtbl))]) ++ [HartEvent.sfence_vma]

/-- An empty root, and a data page at `0x80400000` whose first word holds
bytes that read as a valid leaf entry for the frame of `root0`. -/
def data_page_state : KState :=
  { mem := fun a => if a = 0xFFFFFFFFC0400000 then PA2PTE 0x80800000 ||| PTE_V ||| PTE_R else 0,
    kernel_pgtbl := 0, pending := [frameA, frameB], freed := [] }

/-- The data page of `data_page_state` mapped at `0x1000` with `perm = U`
alone. -/
def user_only_state : KState :=
  (vm_map D0 data_page_state root0 0x1000 0x80400000 PTE_U).2

/-- As `kernel_state [frameA]`, but the frame `kalloc` is about to return holds
in its slots 0 and 1 a stale copy of slot 511 of the kernel root. -/
def stale_root_state : KState :=
  { mem := fun a =>
      if a = frameA + 8 * 0 ∨ a = frameA + 8 * 1 then kernel_mem (root0 + 8 * 511) else kernel_mem a,
    kernel_pgtbl := root0, pending := [frameA], freed := [] }

/-- As `kernel_state [frameA]`, but the frame `kalloc` is about to return holds
in its slot 0 a word that reads as an interior entry pointing at the frame
itself. -/
def loop_root_state : KState :=
  { mem := fun a =>
      if a = frameA + 8 * 0 then (PA2PTE (V2P D0 frameA) ||| PTE_V) % 2 ^ 64 else kernel_mem a,
    kernel_pgtbl := root0, pending := [frameA], freed := [] }

/-! ## Invariants of the page-table tree -/

/-- Lines 45-46 of `vm_map`: the frame `p` is zeroed, then published in the
entry at address `cell` with flags `V`. -/
def install_table (D : Nat) (m : Mem) (cell p : Nat) : Mem :=
  store (memset_zero m p PGSIZE) cell ((PA2PTE (V2P D p) ||| PTE_V) % 2 ^ 64)

/-- The level-0 entry the walk of `va` ends at; 0 when the walk stops at an
interior entry with `V` clear. -/
def pte_of (D : Nat) (m : Mem) (root va : Nat) : Nat :=
  match descend D 2 m root va with
  | none => 0
  | some t => m (t + 8 * PX 0 va)

/-- A tree-shaped page table: well-formed, and no table is reached along two
different paths from the root. -/
structure TreeShaped (D : Nat) (m : Mem) (root : Nat) : Prop where
  wf : WellFormed D m root
  table1_inj : ∀ i k, i < 512 → k < 512 → m (root + 8 * i) &&& PTE_V ≠ 0 →
    m (root + 8 * k) &&& PTE_V ≠ 0 → table1 D m root i = table1 D m root k → i = k
  table0_inj : ∀ i j k l, i < 512 → j < 512 → k < 512 → l < 512 →
    m (root + 8 * i) &&& PTE_V ≠ 0 → m (table1 D m root i + 8 * j) &&& PTE_V ≠ 0 →
    m (root + 8 * k) &&& PTE_V ≠ 0 → m (table1 D m root k + 8 * l) &&& PTE_V ≠ 0 →
    table0 D m root i j = table0 D m root k l → i = k ∧ j = l

/-- A frame the allocator may hand out: page-aligned, a 64-bit address, and
not a table of the tree under `root`. -/
structure FreshFrame (D : Nat) (m : Mem) (root p : Nat) : Prop where
  aligned : p % PGSIZE = 0
  in_range : p < 2 ^ 64
  not_table : ¬ IsTable D m root p

/-- The standing assumptions about a state: `V_P_DIFF` is page-aligned, the
table under `root` is tree-shaped, and the allocator hands out fresh frames. -/
structure PtInv (D root : Nat) (s : KState) : Prop where
  diff_aligned : D % PGSIZE = 0
  tree : TreeShaped D s.mem root
  fresh : FreshFrames D s.mem root s.pending

/-- Memory `m1` agrees with `m` on the interior of the tree under `root`: on
the 512 entries of the root and of every level-1 table. -/
structure SameInterior (D : Nat) (m m1 : Mem) (root : Nat) : Prop where
  root_cells : ∀ i, i < 512 → m1 (root + 8 * i) = m (root + 8 * i)
  l1_cells : ∀ i j, i < 512 → j < 512 → m (root + 8 * i) &&& PTE_V ≠ 0 →
    m1 (table1 D m root i + 8 * j) = m (table1 D m root i + 8 * j)

/-! ## `vm_map`, one level at a time -/

/-- Lines 50-58 of `vm_map`, entered with the level-0 table `t0`. -/
def vm_map_leaf (s : KState) (t0 va pa perm : Nat) : Int × KState :=
  if s.mem (t0 + 8 * PX 0 va) &&& PTE_V ≠ 0 then (-1, s)
  else (0, { s with mem := store s.mem (t0 + 8 * PX 0 va) ((PA2PTE pa ||| PTE_V ||| perm) % 2 ^ 64) })

/-- The last iteration of the loop of `vm_map` (level 1), entered with the
level-1 table `t1`, followed by lines 50-58. -/
def vm_map_level1 (D : Nat) (s : KState) (t1 va pa perm : Nat) : Int × KState :=
  match vm_map_walk D 1 s t1 va with
  | (none, s1) => (-1, s1)
  | (some t0, s1) => vm_map_leaf s1 t0 va pa perm

/-- The flag discipline of a tree built by `vm_map` from the frames of the
script `S0`: interior entries carry none of `R|W|X` and point at frames of
`S0` other than `NULL`, valid level-0 entries carry at least one of `R|W|X`. -/
structure FlagInv (D root : Nat) (S0 : List Nat) (m : Mem) : Prop where
  level2 : ∀ i, i < 512 → m (root + 8 * i) &&& PTE_V ≠ 0 →
    m (root + 8 * i) &&& (PTE_R ||| PTE_W ||| PTE_X) = 0 ∧ table1 D m root i ∈ S0 ∧
      table1 D m root i ≠ NULL
  level1 : ∀ i j, i < 512 → j < 512 → m (root + 8 * i) &&& PTE_V ≠ 0 →
    m (table1 D m root i + 8 * j) &&& PTE_V ≠ 0 →
    m (table1 D m root i + 8 * j) &&& (PTE_R ||| PTE_W ||| PTE_X) = 0 ∧
      table0 D m root i j ∈ S0 ∧ table0 D m root i j ≠ NULL
  level0 : ∀ i j k, i < 512 → j < 512 → k < 512 → m (root + 8 * i) &&& PTE_V ≠ 0 →
    m (table1 D m root i + 8 * j) &&& PTE_V ≠ 0 →
    m (table0 D m root i j + 8 * k) &&& PTE_V ≠ 0 →
    m (table0 D m root i j + 8 * k) &&& (PTE_R ||| PTE_W ||| PTE_X) ≠ 0

/-- What a call `vm_map(root, va, pa, perm)` started in state `s` with result
`r` (return value and final state) does, when it calls `kalloc` at most `n`
times. -/
structure MapEffect (D root va pa perm n : Nat) (s : KState) (r : Int × KState) : Prop where
  inv : PtInv D root r.2
  freed_eq : r.2.freed = s.freed
  kernel_eq : r.2.kernel_pgtbl = s.kernel_pgtbl
  script : ∃ k, k ≤ n ∧ r.2.pending = s.pending.drop k
  others : ∀ va2, ¬ (PX 2 va2 = PX 2 va ∧ PX 1 va2 = PX 1 va ∧ PX 0 va2 = PX 0 va) →
    pte_of D r.2.mem root va2 = pte_of D s.mem root va2
  ret : r.1 = 0 ∨ r.1 = -1
  ok : r.1 = 0 → pte_of D s.mem root va &&& PTE_V = 0 ∧
    pte_of D r.2.mem root va = (PA2PTE pa ||| PTE_V ||| perm) % 2 ^ 64
  fail : r.1 = -1 → pte_of D r.2.mem root va = pte_of D s.mem root va
  succeeds : pte_of D s.mem root va &&& PTE_V = 0 → n ≤ s.pending.length →
    (∀ p, p ∈ s.pending.take n → p ≠ NULL) → r.1 = 0
  flags : ∀ S0, perm &&& (PTE_R ||| PTE_W ||| PTE_X) ≠ 0 → (∃ k, s.pending = S0.drop k) →
    FlagInv D root S0 s.mem → FlagInv D root S0 r.2.mem

/-! ## Sequences of calls -/

/-- A call of one of the two mutators of the walker. -/
inductive PtOp where
  /-- `vm_map(root, va, pa, perm)` -/
  | map (va pa perm : Nat)
  /-- `vm_unmap(root, va)` -/
  | unmap (va : Nat)

/-- The state after one call on the table `root`. -/
def run_op (D root : Nat) (s : KState) : PtOp → KState
  | PtOp.map va pa perm => (vm_map D s root va pa perm).2
  | PtOp.unmap va => (vm_unmap D s root va).2

/-- The state after a sequence of calls on the table `root`. -/
def run_ops (D root : Nat) (s : KState) (ops : List PtOp) : KState :=
  ops.foldl (run_op D root) s

/-- The precondition of `vm_map` on `perm`: at least one of `R|W|X`. -/
def PermOk : PtOp → Prop
  | PtOp.map _ _ perm => perm &&& (PTE_R ||| PTE_W ||| PTE_X) ≠ 0
  | PtOp.unmap _ => True

/-- A sequence of calls for the scenarios: map two pages, unmap the first. -/
def scenario_ops : List PtOp :=
  [PtOp.map 0x1000 0x80400000 RWU, PtOp.map 0x2000 0x80500000 RWU, PtOp.unmap 0x1000]

/-! ## The kernel window: `kvmmap` -/

/-- Modelled from the spec: `mmu.h` is not among the sources; `PGROUNDDOWN(x)`
clears the low 12 bits. -/
def PGROUNDDOWN (a : Nat) : Nat := a - a % PGSIZE

/-- Modelled from the spec: `memlayout.h` is not among the sources; `P2V_WO`
is the same mapping as `P2V`, `pa + V_P_DIFF` computed on 64 bits. -/
def P2V_WO (D a : Nat) : Nat := (a + D) % 2 ^ 64

/-- The loop `while (1)` of `kvmmap` (lines 126-137): call `vm_map` on the
global `kernel_pgtbl`, return -1 when it fails, stop with 0 when
`pstart == pend`, else advance `pstart` and `va` by one page (on 64 bits).
`fuel` bounds the number of iterations; `none` when it runs out. -/
def kvmmap_loop (D : Nat) : Nat → KState → Nat → Nat → Nat → Nat → Option (Int × KState)
  | 0, _, _, _, _, _ => none
  | fuel + 1, s, pstart, pend, va, perm =>
    let r := vm_map D s s.kernel_pgtbl va pstart perm
    if r.1 ≠ 0 then some (-1, r.2)
    else if pstart = pend then some (0, r.2)
    else kvmmap_loop D fuel r.2 ((pstart + PGSIZE) % 2 ^ 64) pend ((va + PGSIZE) % 2 ^ 64) perm

/-- `int kvmmap(uptr_t pa, uint64 sz, int perm)`; `pa + sz - 1` is computed on
64 bits. -/
def kvmmap (D fuel : Nat) (s : KState) (pa sz perm : Nat) : Option (Int × KState) :=
  kvmmap_loop D fuel s (PGROUNDDOWN pa) (PGROUNDDOWN ((pa + sz + (2 ^ 64 - 1)) % 2 ^ 64))
    (P2V_WO D (PGROUNDDOWN pa)) perm

/-- The calls the spec lists for `kmap`: `n` successive calls of `map`, the
first of page `pa` at `va`, each next one a page further (on 64 bits). -/
def kmap_calls (va pa perm : Nat) : Nat → List PtOp
  | 0 => []
  | n + 1 => PtOp.map va pa perm :: kmap_calls ((va + PGSIZE) % 2 ^ 64) ((pa + PGSIZE) % 2 ^ 64) perm n

/-- The frames `base + 4096`, ..., `base + 4096 * n`. -/
def frames_from (base n : Nat) : List Nat := (List.range n).map (fun i => base + PGSIZE * (i + 1))

/-- A kernel root at `root0` with every entry clear (as `kvminit` leaves it),
`kalloc` scripted with `script`. -/
def kmap_state (script : List Nat) : KState :=
  { mem := fun _ => 0, kernel_pgtbl := root0, pending := script, freed := [] }

/-- What `c` successive iterations of the loop of `kvmmap`, started in state
`s` at `pstart` and `va`, have done when they leave state `t`. -/
structure KmapEffect (D root perm c : Nat) (s : KState) (pstart va : Nat) (t : KState) : Prop where
  inv : PtInv D root t
  kernel_eq : t.kernel_pgtbl = root
  freed_eq : t.freed = s.freed
  script : ∃ k, k ≤ 2 * c ∧ t.pending = s.pending.drop k
  calls_ok : ∀ i, i < c →
    (vm_map D (run_ops D root s (kmap_calls va pstart perm i)) root ((va + i * PGSIZE) % 2 ^ 64)
      ((pstart + i * PGSIZE) % 2 ^ 64) perm).1 = 0
  entries : ∀ i, i < c → pte_of D t.mem root ((va + i * PGSIZE) % 2 ^ 64)
    = (PA2PTE ((pstart + i * PGSIZE) % 2 ^ 64) ||| PTE_V ||| perm) % 2 ^ 64
  others : ∀ va2, (∀ i, i < c → ¬ (PX 2 va2 = PX 2 ((va + i * PGSIZE) % 2 ^ 64) ∧
      PX 1 va2 = PX 1 ((va + i * PGSIZE) % 2 ^ 64) ∧
      PX 0 va2 = PX 0 ((va + i * PGSIZE) % 2 ^ 64))) →
    pte_of D t.mem root va2 = pte_of D s.mem root va2

/-! ## Sequences of public calls on the kernel page table -/

theorem PX_lt (level va : Nat) : PX level va < 512 := by
  unfold PX PXMASK
  exact Nat.lt_of_le_of_lt Nat.and_le_right (by norm_num)

theorem PTE2PA_eq (e : Nat) : PTE2PA e = ((e / 1024) * 4096) % 2 ^ 64 := by
  unfold PTE2PA
  rw [Nat.shiftLeft_eq, Nat.shiftRight_eq_div_pow]

theorem PA2PTE_eq (pa : Nat) (h : pa < 2 ^ 64) : PA2PTE pa = (pa / 4096) * 1024 := by
  unfold PA2PTE
  rw [Nat.shiftLeft_eq, Nat.shiftRight_eq_div_pow]
  omega

theorem PTE2PA_aligned (e : Nat) : PTE2PA e % 4096 = 0 := by
  rw [PTE2PA_eq]; omega

theorem P2V_aligned (D a : Nat) (hD : D % 4096 = 0) (ha : a % 4096 = 0) :
    P2V D a % 4096 = 0 := by
  unfold P2V; omega

theorem P2V_V2P (D p : Nat) (hp : p < 2 ^ 64) : P2V D (V2P D p) = p := by
  unfold P2V V2P; omega

theorem V2P_aligned (D p : Nat) (hD : D % 4096 = 0) (hp : p % 4096 = 0) :
    V2P D p % 4096 = 0 := by
  unfold V2P; omega

theorem V2P_lt (D p : Nat) : V2P D p < 2 ^ 64 := by
  unfold V2P; omega

theorem mul_or_flags (x f : Nat) (hf : f < 1024) : (x * 1024 ||| f) = x * 1024 + f := by
  have h := Nat.mul_add_lt_is_or (i := 10) (b := f) (by simpa using hf) x
  norm_num at h
  rw [Nat.mul_comm] at h
  exact h.symm

theorem PA2PTE_or (pa f : Nat) (h : pa < 2 ^ 64) (hf : f < 1024) :
    PA2PTE pa ||| f = (pa / 4096) * 1024 + f := by
  rw [PA2PTE_eq pa h, mul_or_flags _ _ hf]

theorem one_or_mod_two (f : Nat) : (1 ||| f) % 2 = 1 := by
  have h : (1 ||| f).testBit 0 = true := by simp
  rw [Nat.testBit_zero] at h
  exact of_decide_eq_true h

theorem one_or_lt (f : Nat) (hf : f < 1024) : 1 ||| f < 1024 :=
  Nat.or_lt_two_pow (n := 10) (by norm_num) (by simpa using hf)

/-- The entry `vm_map` writes at level 0 has `V` set. -/
theorem leaf_valid (pa perm : Nat) :
    ((PA2PTE pa ||| PTE_V ||| perm) % 2 ^ 64) &&& PTE_V ≠ 0 := by
  have h : (PA2PTE pa ||| PTE_V ||| perm).testBit 0 = true := by simp [PTE_V]
  rw [Nat.testBit_zero] at h
  have h1 := of_decide_eq_true h
  simp only [PTE_V] at h1 ⊢
  rw [Nat.and_one_is_mod]
  omega

/-- The entry `vm_map` writes at level 0 decodes to the page it was given. -/
theorem leaf_pa (pa perm : Nat) (h : pa < 2 ^ 64) (ha : pa % 4096 = 0) (hf : perm < 1024) :
    PTE2PA ((PA2PTE pa ||| PTE_V ||| perm) % 2 ^ 64) = pa := by
  have h2 := one_or_lt perm hf
  rw [Nat.or_assoc, PTE_V, PA2PTE_or pa _ h h2, PTE2PA_eq]
  omega

/-- The entry `vm_map` publishes for a new interior table has `V` set. -/
theorem link_valid (p : Nat) (h : p < 2 ^ 64) :
    ((PA2PTE p ||| PTE_V) % 2 ^ 64) &&& PTE_V ≠ 0 := by
  rw [PTE_V, PA2PTE_or p 1 h (by norm_num), Nat.and_one_is_mod]
  omega

/-- The entry `vm_map` publishes for a new interior table decodes to it. -/
theorem link_pa (p : Nat) (h : p < 2 ^ 64) (ha : p % 4096 = 0) :
    PTE2PA ((PA2PTE p ||| PTE_V) % 2 ^ 64) = p := by
  rw [PTE_V, PA2PTE_or p 1 h (by norm_num), PTE2PA_eq]
  omega

/-- The table a published interior entry leads to is the allocated frame. -/
theorem link_child (D p : Nat) (hD : D % 4096 = 0) (h : p < 2 ^ 64) (ha : p % 4096 = 0) :
    P2V D (PTE2PA ((PA2PTE (V2P D p) ||| PTE_V) % 2 ^ 64)) = p := by
  rw [link_pa _ (V2P_lt D p) (V2P_aligned D p hD ha), P2V_V2P D p h]

/-- Every table below the root is page-aligned when `V_P_DIFF` is. -/
theorem child_aligned (D e : Nat) (hD : D % 4096 = 0) : P2V D (PTE2PA e) % 4096 = 0 :=
  P2V_aligned D _ hD (PTE2PA_aligned e)

/-! ## Memory lemmas -/

theorem store_same (m : Mem) (a v : Nat) : store m a v a = v := by
  simp [store]

theorem store_other (m : Mem) (a v x : Nat) (h : x ≠ a) : store m a v x = m x := by
  simp [store, h]

theorem memset_zero_in (m : Mem) (p n x : Nat) (h1 : p ≤ x) (h2 : x < p + n) :
    memset_zero m p n x = 0 := by
  simp [memset_zero, h1, h2]

theorem memset_zero_out (m : Mem) (p n x : Nat) (h : x < p ∨ p + n ≤ x) :
    memset_zero m p n x = m x := by
  unfold memset_zero
  rw [if_neg]
  omega

/-! ## One step of the loops -/

theorem vm_map_walk_zero (D : Nat) (s : KState) (pgtbl va : Nat) :
    vm_map_walk D 0 s pgtbl va = (some pgtbl, s) := rfl

theorem vm_map_walk_valid (D level : Nat) (s : KState) (pgtbl va : Nat)
    (h : s.mem (pgtbl + 8 * PX (level + 1) va) &&& PTE_V ≠ 0) :
    vm_map_walk D (level + 1) s pgtbl va
      = vm_map_walk D level s (P2V D (PTE2PA (s.mem (pgtbl + 8 * PX (level + 1) va)))) va := by
  simp only [vm_map_walk]
  rw [if_pos h]

theorem vm_map_walk_oom (D level : Nat) (s : KState) (pgtbl va : Nat)
    (h : ¬ s.mem (pgtbl + 8 * PX (level + 1) va) &&& PTE_V ≠ 0) (hk : (kalloc s).1 = NULL) :
    vm_map_walk D (level + 1) s pgtbl va = (none, (kalloc s).2) := by
  simp only [vm_map_walk]
  rw [if_neg h, if_pos hk]

theorem vm_map_walk_alloc (D level : Nat) (s : KState) (pgtbl va : Nat)
    (h : ¬ s.mem (pgtbl + 8 * PX (level + 1) va) &&& PTE_V ≠ 0) (hk : (kalloc s).1 ≠ NULL) :
    vm_map_walk D (level + 1) s pgtbl va
      = vm_map_walk D level
          { (kalloc s).2 with
            mem := store (memset_zero (kalloc s).2.mem (kalloc s).1 PGSIZE)
              (pgtbl + 8 * PX (level + 1) va) ((PA2PTE (V2P D (kalloc s).1) ||| PTE_V) % 2 ^ 64) }
          (kalloc s).1 va := by
  simp only [vm_map_walk]
  rw [if_neg h, if_neg hk]

theorem descend_zero (D : Nat) (m : Mem) (pgtbl va : Nat) :
    descend D 0 m pgtbl va = some pgtbl := rfl

theorem descend_valid (D level : Nat) (m : Mem) (pgtbl va : Nat)
    (h : m (pgtbl + 8 * PX (level + 1) va) &&& PTE_V ≠ 0) :
    descend D (level + 1) m pgtbl va
      = descend D level m (P2V D (PTE2PA (m (pgtbl + 8 * PX (level + 1) va)))) va := by
  simp only [descend]
  rw [if_pos h]

theorem descend_invalid (D level : Nat) (m : Mem) (pgtbl va : Nat)
    (h : ¬ m (pgtbl + 8 * PX (level + 1) va) &&& PTE_V ≠ 0) :
    descend D (level + 1) m pgtbl va = none := by
  simp only [descend]
  rw [if_neg h]

theorem kalloc_nil (s : KState) (h : s.pending = []) : kalloc s = (NULL, s) := by
  simp [kalloc, h]

theorem kalloc_cons (s : KState) (p : Nat) (rest : List Nat) (h : s.pending = p :: rest) :
    kalloc s = (p, { s with pending := rest }) := by
  simp [kalloc, h]

theorem vm_map_of_walk_none (D : Nat) (s s1 : KState) (pgtbl va pa perm : Nat)
    (h : vm_map_walk D 2 s pgtbl va = (none, s1)) :
    vm_map D s pgtbl va pa perm = (-1, s1) := by
  unfold vm_map; rw [h]

theorem vm_map_of_walk_some (D : Nat) (s s1 : KState) (pgtbl va pa perm t : Nat)
    (h : vm_map_walk D 2 s pgtbl va = (some t, s1)) :
    vm_map D s pgtbl va pa perm =
      if s1.mem (t + 8 * PX 0 va) &&& PTE_V ≠ 0 then (-1, s1)
      else (0, { s1 with
        mem := store s1.mem (t + 8 * PX 0 va) ((PA2PTE pa ||| PTE_V ||| perm) % 2 ^ 64) }) := by
  unfold vm_map; rw [h]

/-! ## What `vm_map` does, case by case -/

/-- Both interior entries on the path are valid: `vm_map` allocates nothing
and only looks at the level-0 entry. -/
theorem vm_map_valid_valid (D : Nat) (s : KState) (root va pa perm : Nat)
    (hv2 : s.mem (root + 8 * PX 2 va) &&& PTE_V ≠ 0)
    (hv1 : s.mem (table1 D s.mem root (PX 2 va) + 8 * PX 1 va) &&& PTE_V ≠ 0) :
    vm_map D s root va pa perm =
      if s.mem (table0 D s.mem root (PX 2 va) (PX 1 va) + 8 * PX 0 va) &&& PTE_V ≠ 0 then (-1, s)
      else (0, { s with
        mem := store s.mem (table0 D s.mem root (PX 2 va) (PX 1 va) + 8 * PX 0 va)
          ((PA2PTE pa ||| PTE_V ||| perm) % 2 ^ 64) }) := by
  have e2 : vm_map_walk D 2 s root va = vm_map_walk D 1 s (table1 D s.mem root (PX 2 va)) va :=
    vm_map_walk_valid D 1 s root va hv2
  have e1 : vm_map_walk D 1 s (table1 D s.mem root (PX 2 va)) va
      = vm_map_walk D 0 s (table0 D s.mem root (PX 2 va) (PX 1 va)) va :=
    vm_map_walk_valid D 0 s _ va hv1
  exact vm_map_of_walk_some D s s root va pa perm _ (by rw [e2, e1, vm_map_walk_zero])

/-- The level-2 entry is valid, the level-1 entry is not, and `kalloc`
returns `p`: the new level-0 table is `p`. -/
theorem vm_map_walk_valid_alloc (D : Nat) (s : KState) (root va p : Nat) (rest : List Nat)
    (hv2 : s.mem (root + 8 * PX 2 va) &&& PTE_V ≠ 0)
    (hv1 : ¬ s.mem (table1 D s.mem root (PX 2 va) + 8 * PX 1 va) &&& PTE_V ≠ 0)
    (hp : s.pending = p :: rest) (hp0 : p ≠ NULL) :
    vm_map_walk D 2 s root va =
      (some p, { s with
        pending := rest,
        mem := store (memset_zero s.mem p PGSIZE) (table1 D s.mem root (PX 2 va) + 8 * PX 1 va)
          ((PA2PTE (V2P D p) ||| PTE_V) % 2 ^ 64) }) := by
  have e2 : vm_map_walk D 2 s root va = vm_map_walk D 1 s (table1 D s.mem root (PX 2 va)) va :=
    vm_map_walk_valid D 1 s root va hv2
  have hk : (kalloc s).1 ≠ NULL := by rw [kalloc_cons s p rest hp]; exact hp0
  have e1 := vm_map_walk_alloc D 0 s (table1 D s.mem root (PX 2 va)) va hv1 hk
  rw [e2]
  refine e1.trans ?_
  rw [kalloc_cons s p rest hp, vm_map_walk_zero]

/-- The level-2 entry is not valid and `kalloc` returns `p`: the walk goes
on at level 1 in the zeroed table `p`. -/
theorem vm_map_walk_alloc_top (D : Nat) (s : KState) (root va p : Nat) (rest : List Nat)
    (hv2 : ¬ s.mem (root + 8 * PX 2 va) &&& PTE_V ≠ 0)
    (hp : s.pending = p :: rest) (hp0 : p ≠ NULL) :
    vm_map_walk D 2 s root va =
      vm_map_walk D 1 { s with
        pending := rest,
        mem := store (memset_zero s.mem p PGSIZE) (root + 8 * PX 2 va)
          ((PA2PTE (V2P D p) ||| PTE_V) % 2 ^ 64) } p va := by
  have hk : (kalloc s).1 ≠ NULL := by rw [kalloc_cons s p rest hp]; exact hp0
  have e2 := vm_map_walk_alloc D 1 s root va hv2 hk
  refine e2.trans ?_
  rw [kalloc_cons s p rest hp]

/-- The level-1 entry in table `t` is not valid and `kalloc` returns `q`: the
new level-0 table is `q`. -/
theorem vm_map_walk_alloc_low (D : Nat) (s : KState) (t va q : Nat) (rest : List Nat)
    (hv1 : ¬ s.mem (t + 8 * PX 1 va) &&& PTE_V ≠ 0)
    (hq : s.pending = q :: rest) (hq0 : q ≠ NULL) :
    vm_map_walk D 1 s t va =
      (some q, { s with
        pending := rest,
        mem := store (memset_zero s.mem q PGSIZE) (t + 8 * PX 1 va)
          ((PA2PTE (V2P D q) ||| PTE_V) % 2 ^ 64) }) := by
  have hk : (kalloc s).1 ≠ NULL := by rw [kalloc_cons s q rest hq]; exact hq0
  have e1 := vm_map_walk_alloc D 0 s t va hv1 hk
  refine e1.trans ?_
  rw [kalloc_cons s q rest hq, vm_map_walk_zero]

/-- A call of `kalloc` changes nothing but its own script. -/
theorem kalloc_frame (s : KState) :
    (kalloc s).2.mem = s.mem ∧ (kalloc s).2.freed = s.freed ∧
      (kalloc s).2.kernel_pgtbl = s.kernel_pgtbl := by
  unfold kalloc
  cases s.pending <;> simp

theorem kalloc_ne_null (s : KState) (h : (kalloc s).1 ≠ NULL) :
    ∃ p rest, s.pending = p :: rest ∧ p ≠ NULL := by
  unfold kalloc at h
  cases hp : s.pending with
  | nil => rw [hp] at h; exact absurd rfl h
  | cons p rest => rw [hp] at h; exact ⟨p, rest, rfl, h⟩

theorem kalloc_fst_congr (s t : KState) (h : s.pending = t.pending) :
    (kalloc s).1 = (kalloc t).1 := by
  unfold kalloc
  rw [h]
  cases t.pending <;> rfl

theorem descend_valid_valid (D : Nat) (m : Mem) (root va : Nat)
    (hv2 : m (root + 8 * PX 2 va) &&& PTE_V ≠ 0)
    (hv1 : m (table1 D m root (PX 2 va) + 8 * PX 1 va) &&& PTE_V ≠ 0) :
    descend D 2 m root va = some (table0 D m root (PX 2 va) (PX 1 va)) := by
  have e2 : descend D 2 m root va = descend D 1 m (table1 D m root (PX 2 va)) va :=
    descend_valid D 1 m root va hv2
  have e1 : descend D 1 m (table1 D m root (PX 2 va)) va
      = descend D 0 m (table0 D m root (PX 2 va) (PX 1 va)) va :=
    descend_valid D 0 m _ va hv1
  rw [e2, e1, descend_zero]

theorem descend_valid_invalid (D : Nat) (m : Mem) (root va : Nat)
    (hv2 : m (root + 8 * PX 2 va) &&& PTE_V ≠ 0)
    (hv1 : ¬ m (table1 D m root (PX 2 va) + 8 * PX 1 va) &&& PTE_V ≠ 0) :
    descend D 2 m root va = none := by
  have e2 : descend D 2 m root va = descend D 1 m (table1 D m root (PX 2 va)) va :=
    descend_valid D 1 m root va hv2
  rw [e2]
  exact descend_invalid D 0 m _ va hv1

/-- The flags of the entry `vm_map` publishes for a new table are `V` alone. -/
theorem link_flags (p : Nat) (h : p < 2 ^ 64) :
    PTE_FLAGS ((PA2PTE p ||| PTE_V) % 2 ^ 64) = PTE_V := by
  have e : (0x3FF : Nat) = 2 ^ 10 - 1 := by norm_num
  unfold PTE_FLAGS
  rw [e, Nat.and_pow_two_sub_one_eq_mod, PTE_V, PA2PTE_or p 1 h (by norm_num)]
  omega

/-! ## The path of a virtual address -/

theorem PathTo.descend_eq {D : Nat} {m : Mem} {root va t1 t0 : Nat}
    (h : PathTo D m root va t1 t0) : descend D 2 m root va = some t0 := by
  have e2 : descend D 2 m root va = descend D 1 m t1 va := by
    have e := descend_valid D 1 m root va h.valid2
    rw [h.child2] at e
    exact e
  have e1 : descend D 1 m t1 va = descend D 0 m t0 va := by
    have e := descend_valid D 0 m t1 va h.valid1
    rw [h.child1] at e
    exact e
  rw [e2, e1, descend_zero]

/-- A store into the level-0 cell of `va` leaves the path of `va` in place. -/
theorem PathTo.store_leaf {D : Nat} {m : Mem} {root va t1 t0 : Nat}
    (h : PathTo D m root va t1 t0) (v : Nat) :
    PathTo D (store m (t0 + 8 * PX 0 va) v) root va t1 t0 := by
  have r2 : store m (t0 + 8 * PX 0 va) v (root + 8 * PX 2 va) = m (root + 8 * PX 2 va) :=
    store_other _ _ _ _ (Ne.symm h.sep2)
  have r1 : store m (t0 + 8 * PX 0 va) v (t1 + 8 * PX 1 va) = m (t1 + 8 * PX 1 va) :=
    store_other _ _ _ _ (Ne.symm h.sep1)
  exact ⟨by rw [r2]; exact h.valid2, by rw [r2]; exact h.child2,
    by rw [r1]; exact h.valid1, by rw [r1]; exact h.child1, h.sep2, h.sep1⟩

/-- The path a successful `vm_map` leaves behind.  With a well-formed table
and fresh frames from the allocator, after `vm_map` returned 0 the walk of
`va` reaches a level-0 table whose entry for `va` is the one just written;
nothing was freed and `kernel_pgtbl` was not assigned. -/
theorem vm_map_ok_path (D : Nat) (s s1 : KState) (root va pa perm : Nat)
    (hD : D % PGSIZE = 0) (hwf : WellFormed D s.mem root)
    (hfresh : FreshFrames D s.mem root s.pending)
    (hmap : vm_map D s root va pa perm = (0, s1)) :
    ∃ t1 t0, PathTo D s1.mem root va t1 t0 ∧
      s1.mem (t0 + 8 * PX 0 va) = (PA2PTE pa ||| PTE_V ||| perm) % 2 ^ 64 ∧
      s1.freed = s.freed ∧ s1.kernel_pgtbl = s.kernel_pgtbl := by
  have h2 := PX_lt 2 va
  have h1 := PX_lt 1 va
  have h0 := PX_lt 0 va
  have hr := hwf.root_aligned
  simp only [PGSIZE] at hD hr
  by_cases hv2 : s.mem (root + 8 * PX 2 va) &&& PTE_V ≠ 0
  · have ht1 : table1 D s.mem root (PX 2 va) % 4096 = 0 := child_aligned D _ hD
    have n1 := hwf.table1_ne_root _ h2 hv2
    by_cases hv1 : s.mem (table1 D s.mem root (PX 2 va) + 8 * PX 1 va) &&& PTE_V ≠ 0
    · -- no allocation at all
      have ht0 : table0 D s.mem root (PX 2 va) (PX 1 va) % 4096 = 0 := child_aligned D _ hD
      have n0 := hwf.table0_ne_root _ _ h2 h1 hv2 hv1
      have n01 := hwf.table0_ne_table1 _ _ _ h2 h1 h2 hv2 hv1 hv2
      rw [vm_map_valid_valid D s root va pa perm hv2 hv1] at hmap
      split_ifs at hmap with hv0
      · simp at hmap
      · have hs : s1 = _ := ((Prod.mk.injEq _ _ _ _).mp hmap).2.symm
        subst hs
        have base : PathTo D s.mem root va (table1 D s.mem root (PX 2 va))
            (table0 D s.mem root (PX 2 va) (PX 1 va)) :=
          ⟨hv2, rfl, hv1, rfl, by omega, by omega⟩
        exact ⟨_, _, base.store_leaf _, store_same _ _ _, rfl, rfl⟩
    · -- the level-0 table is allocated
      by_cases hk : (kalloc s).1 = NULL
      · have e2 := vm_map_walk_valid D 1 s root va hv2
        have e1 := vm_map_walk_oom D 0 s (table1 D s.mem root (PX 2 va)) va hv1 hk
        rw [vm_map_of_walk_none D s _ root va pa perm (e2.trans e1)] at hmap
        simp at hmap
      · obtain ⟨p, rest, hp, hp0⟩ := kalloc_ne_null s hk
        have hmem : p ∈ s.pending := by rw [hp]; simp
        have pal := hfresh.aligned p hmem
        have plt := hfresh.in_range p hmem
        have pnt := hfresh.not_table p hmem hp0
        have pr : p ≠ root := fun e => pnt (Or.inl e)
        have pt1 : p ≠ table1 D s.mem root (PX 2 va) :=
          fun e => pnt (Or.inr (Or.inl ⟨PX 2 va, h2, hv2, e⟩))
        simp only [PGSIZE] at pal
        have hw := vm_map_walk_valid_alloc D s root va p rest hv2 hv1 hp hp0
        rw [vm_map_of_walk_some D s _ root va pa perm p hw] at hmap
        simp only at hmap
        have z : store (memset_zero s.mem p PGSIZE)
            (table1 D s.mem root (PX 2 va) + 8 * PX 1 va) ((PA2PTE (V2P D p) ||| PTE_V) % 2 ^ 64)
            (p + 8 * PX 0 va) = 0 := by
          rw [store_other _ _ _ _ (by omega),
            memset_zero_in _ _ _ _ (by omega) (by simp only [PGSIZE]; omega)]
        rw [z] at hmap
        simp only [Nat.zero_and, ne_eq, not_true_eq_false, if_false] at hmap
        have hs : s1 = _ := ((Prod.mk.injEq _ _ _ _).mp hmap).2.symm
        subst hs
        have base : PathTo D (store (memset_zero s.mem p PGSIZE)
            (table1 D s.mem root (PX 2 va) + 8 * PX 1 va) ((PA2PTE (V2P D p) ||| PTE_V) % 2 ^ 64))
            root va (table1 D s.mem root (PX 2 va)) p := by
          have r2 : store (memset_zero s.mem p PGSIZE)
              (table1 D s.mem root (PX 2 va) + 8 * PX 1 va) ((PA2PTE (V2P D p) ||| PTE_V) % 2 ^ 64)
              (root + 8 * PX 2 va) = s.mem (root + 8 * PX 2 va) := by
            rw [store_other _ _ _ _ (by omega),
              memset_zero_out _ _ _ _ (by simp only [PGSIZE]; omega)]
          refine ⟨by rw [r2]; exact hv2, by rw [r2]; rfl, ?_, ?_, by omega, by omega⟩
          · rw [store_same]; exact link_valid _ (V2P_lt D p)
          · rw [store_same]; exact link_child D p hD plt pal
        exact ⟨_, _, base.store_leaf _, store_same _ _ _, rfl, rfl⟩
  · -- both tables are allocated
    by_cases hk : (kalloc s).1 = NULL
    · rw [vm_map_of_walk_none D s _ root va pa perm (vm_map_walk_oom D 1 s root va hv2 hk)] at hmap
      simp at hmap
    · obtain ⟨p, rest, hp, hp0⟩ := kalloc_ne_null s hk
      have hmem : p ∈ s.pending := by rw [hp]; simp
      have pal := hfresh.aligned p hmem
      have plt := hfresh.in_range p hmem
      have pr : p ≠ root := fun e => hfresh.not_table p hmem hp0 (Or.inl e)
      simp only [PGSIZE] at pal
      have hw2 := vm_map_walk_alloc_top D s root va p rest hv2 hp hp0
      have z1 : store (memset_zero s.mem p PGSIZE) (root + 8 * PX 2 va)
          ((PA2PTE (V2P D p) ||| PTE_V) % 2 ^ 64) (p + 8 * PX 1 va) = 0 := by
        rw [store_other _ _ _ _ (by omega),
          memset_zero_in _ _ _ _ (by omega) (by simp only [PGSIZE]; omega)]
      have hv1 : ¬ (store (memset_zero s.mem p PGSIZE) (root + 8 * PX 2 va)
          ((PA2PTE (V2P D p) ||| PTE_V) % 2 ^ 64) (p + 8 * PX 1 va)) &&& PTE_V ≠ 0 := by
        rw [z1]; simp
      by_cases hk2 : (kalloc { s with
          pending := rest,
          mem := store (memset_zero s.mem p PGSIZE) (root + 8 * PX 2 va)
            ((PA2PTE (V2P D p) ||| PTE_V) % 2 ^ 64) }).1 = NULL
      · have e1 := vm_map_walk_oom D 0 _ p va hv1 hk2
        rw [vm_map_of_walk_none D s _ root va pa perm (hw2.trans e1)] at hmap
        simp at hmap
      · obtain ⟨q, rest2, hq, hq0⟩ := kalloc_ne_null _ hk2
        simp only at hq
        have hmemq : q ∈ s.pending := by rw [hp, hq]; simp
        have qal := hfresh.aligned q hmemq
        have qlt := hfresh.in_range q hmemq
        have qr : q ≠ root := fun e => hfresh.not_table q hmemq hq0 (Or.inl e)
        have pq : p ≠ q := by
          have hd := hfresh.distinct
          rw [hp, hq, List.pairwise_cons] at hd
          exact hd.1 q (by simp) hp0
        simp only [PGSIZE] at qal
        have hw1 := vm_map_walk_alloc_low D { s with
          pending := rest,
          mem := store (memset_zero s.mem p PGSIZE) (root + 8 * PX 2 va)
            ((PA2PTE (V2P D p) ||| PTE_V) % 2 ^ 64) } p va q rest2 hv1 hq hq0
        rw [vm_map_of_walk_some D s _ root va pa perm q (hw2.trans hw1)] at hmap
        simp only at hmap
        have z0 : store (memset_zero (store (memset_zero s.mem p PGSIZE) (root + 8 * PX 2 va)
            ((PA2PTE (V2P D p) ||| PTE_V) % 2 ^ 64)) q PGSIZE) (p + 8 * PX 1 va)
            ((PA2PTE (V2P D q) ||| PTE_V) % 2 ^ 64) (q + 8 * PX 0 va) = 0 := by
          rw [store_other _ _ _ _ (by omega),
            memset_zero_in _ _ _ _ (by omega) (by simp only [PGSIZE]; omega)]
        rw [z0] at hmap
        simp only [Nat.zero_and, ne_eq, not_true_eq_false, if_false] at hmap
        have hs : s1 = _ := ((Prod.mk.injEq _ _ _ _).mp hmap).2.symm
        subst hs
        have base : PathTo D (store (memset_zero (store (memset_zero s.mem p PGSIZE)
            (root + 8 * PX 2 va) ((PA2PTE (V2P D p) ||| PTE_V) % 2 ^ 64)) q PGSIZE) (p + 8 * PX 1 va)
            ((PA2PTE (V2P D q) ||| PTE_V) % 2 ^ 64)) root va p q := by
          have r2 : store (memset_zero (store (memset_zero s.mem p PGSIZE)
              (root + 8 * PX 2 va) ((PA2PTE (V2P D p) ||| PTE_V) % 2 ^ 64)) q PGSIZE) (p + 8 * PX 1 va)
              ((PA2PTE (V2P D q) ||| PTE_V) % 2 ^ 64) (root + 8 * PX 2 va)
              = (PA2PTE (V2P D p) ||| PTE_V) % 2 ^ 64 := by
            rw [store_other _ _ _ _ (by omega),
              memset_zero_out _ _ _ _ (by simp only [PGSIZE]; omega), store_same]
          refine ⟨?_, ?_, ?_, ?_, by omega, by omega⟩
          · rw [r2]; exact link_valid _ (V2P_lt D p)
          · rw [r2]; exact link_child D p hD plt pal
          · rw [store_same]; exact link_valid _ (V2P_lt D q)
          · rw [store_same]; exact link_child D q hD qlt qal
        exact ⟨_, _, base.store_leaf _, store_same _ _ _, rfl, rfl⟩

/-! ## The copy loop of `vm_shallow_copy` -/

/-- The loop `upgtbl[i] = kernel_pgtbl[i]` run over the indices `l`, for
page-aligned tables `k = kernel_pgtbl` and `u = upgtbl`: the kernel table keeps
its contents, every slot of `l` receives the kernel entry of the same index,
and no other cell is written. -/
theorem shallow_copy_loop (k u : Nat) (hk : k % 4096 = 0) (hu : u % 4096 = 0) (l : List Nat)
    (hl : ∀ i, i ∈ l → i < 512) (st : KState) (hst : st.kernel_pgtbl = k) :
    (l.foldl (fun st i =>
        { st with mem := store st.mem (u + 8 * i) (st.mem (st.kernel_pgtbl + 8 * i)) })
      st).kernel_pgtbl = k ∧
    (∀ j, j < 512 → (l.foldl (fun st i =>
        { st with mem := store st.mem (u + 8 * i) (st.mem (st.kernel_pgtbl + 8 * i)) })
      st).mem (k + 8 * j) = st.mem (k + 8 * j)) ∧
    (∀ i, i ∈ l → (l.foldl (fun st i =>
        { st with mem := store st.mem (u + 8 * i) (st.mem (st.kernel_pgtbl + 8 * i)) })
      st).mem (u + 8 * i) = st.mem (k + 8 * i)) ∧
    (∀ x, (∀ i, i ∈ l → x ≠ u + 8 * i) → (l.foldl (fun st i =>
        { st with mem := store st.mem (u + 8 * i) (st.mem (st.kernel_pgtbl + 8 * i)) })
      st).mem x = st.mem x) := by
  induction l generalizing st with
  | nil => exact ⟨hst, fun _ _ => rfl, fun _ h => absurd h (List.not_mem_nil _), fun _ _ => rfl⟩
  | cons a l ih =>
    have ha : a < 512 := hl a (List.mem_cons_self a l)
    have hl2 : ∀ i, i ∈ l → i < 512 := fun i hi => hl i (List.mem_cons_of_mem a hi)
    obtain ⟨ih1, ih2, ih3, ih4⟩ := ih hl2
      { st with mem := store st.mem (u + 8 * a) (st.mem (st.kernel_pgtbl + 8 * a)) } hst
    simp only [List.foldl_cons]
    -- the first store does not change the kernel table
    have hkeep : ∀ j, j < 512 →
        store st.mem (u + 8 * a) (st.mem (st.kernel_pgtbl + 8 * a)) (k + 8 * j)
          = st.mem (k + 8 * j) := by
      intro j hj
      by_cases e : k + 8 * j = u + 8 * a
      · have eu : u = k := by omega
        rw [e, store_same, hst, eu]
      · exact store_other _ _ _ _ e
    refine ⟨ih1, fun j hj => (ih2 j hj).trans (hkeep j hj), ?_, ?_⟩
    · intro i hi
      by_cases hil : i ∈ l
      · exact (ih3 i hil).trans (hkeep i (hl2 i hil))
      · have hia : i = a := by
          rcases List.mem_cons.mp hi with h | h
          · exact h
          · exact absurd h hil
        subst hia
        rw [ih4 (u + 8 * i) (fun i2 hi2 e => hil (by
          have : i = i2 := by omega
          rw [this]; exact hi2))]
        show store st.mem (u + 8 * i) (st.mem (st.kernel_pgtbl + 8 * i)) (u + 8 * i) = _
        rw [store_same, hst]
    · intro x hx
      rw [ih4 x (fun i hi => hx i (List.mem_cons_of_mem a hi))]
      exact store_other _ _ _ _ (hx a (List.mem_cons_self a l))

theorem vm_shallow_copy_frame (D : Nat) (s : KState) (u : Nat) :
    (vm_shallow_copy D s u).pending = s.pending ∧ (vm_shallow_copy D s u).freed = s.freed := by
  unfold vm_shallow_copy
  generalize List.range' (PX 2 D) (512 - PX 2 D) = l
  induction l generalizing s with
  | nil => exact ⟨rfl, rfl⟩
  | cons a l ih => simp only [List.foldl_cons]; exact ih _

/-! ## Effects of the recursive cleanup -/

theorem FreesOnly.refl (s : KState) : FreesOnly s s :=
  ⟨rfl, rfl, rfl, [], (List.append_nil _).symm⟩

theorem FreesOnly.trans {s t u : KState} (h1 : FreesOnly s t) (h2 : FreesOnly t u) :
    FreesOnly s u := by
  obtain ⟨a1, b1, c1, l1, d1⟩ := h1
  obtain ⟨a2, b2, c2, l2, d2⟩ := h2
  exact ⟨a2.trans a1, b2.trans b1, c2.trans c1, l1 ++ l2, by rw [d2, d1, List.append_assoc]⟩

theorem FreesOnly.kfree (s : KState) (p : Nat) : FreesOnly s (kfree s p) :=
  ⟨rfl, rfl, rfl, [p], rfl⟩

/-- A loop whose body only frees only frees. -/
theorem foldlM_freesOnly (f : KState → Nat → Option KState)
    (hf : ∀ st a st1, f st a = some st1 → FreesOnly st st1) (l : List Nat) (s s1 : KState)
    (h : l.foldlM f s = some s1) : FreesOnly s s1 := by
  induction l generalizing s with
  | nil =>
    simp only [List.foldlM_nil] at h
    cases h
    exact FreesOnly.refl _
  | cons a l ih =>
    simp only [List.foldlM_cons] at h
    cases hfa : f s a with
    | none => rw [hfa] at h; cases h
    | some s2 =>
      rw [hfa] at h
      exact (hf s a s2 hfa).trans (ih s2 h)

theorem vm_recursive_cleanup_succ (D fuel : Nat) (s : KState) (pte : Nat) :
    vm_recursive_cleanup D (fuel + 1) s pte =
      if s.mem pte &&& PTE_V = 0 then some s
      else if s.mem pte &&& (PTE_X ||| PTE_R ||| PTE_W) = 0 then
        match (List.range 512).foldlM
          (fun st i => vm_recursive_cleanup D fuel st (P2V D (PTE2PA (s.mem pte)) + 8 * i)) s with
        | none => none
        | some s1 => some (kfree s1 (P2V D (PTE2PA (s.mem pte))))
      else some (kfree s (P2V D (PTE2PA (s.mem pte)))) := by
  rw [vm_recursive_cleanup]

/-- `vm_recursive_cleanup` writes no memory and calls nothing but `kfree`. -/
theorem vm_recursive_cleanup_freesOnly (D fuel : Nat) (s s1 : KState) (pte : Nat)
    (h : vm_recursive_cleanup D fuel s pte = some s1) : FreesOnly s s1 := by
  induction fuel generalizing s s1 pte with
  | zero => cases h
  | succ fuel ih =>
    rw [vm_recursive_cleanup_succ] at h
    split_ifs at h with hv hl
    · cases h
      exact FreesOnly.refl _
    · cases hloop : (List.range 512).foldlM
          (fun st i => vm_recursive_cleanup D fuel st (P2V D (PTE2PA (s.mem pte)) + 8 * i)) s with
      | none => rw [hloop] at h; cases h
      | some s2 =>
        rw [hloop] at h
        cases h
        exact (foldlM_freesOnly _ (fun st a st1 hst => ih st st1 _ hst) _ s s2 hloop).trans
          (FreesOnly.kfree s2 _)
    · cases h
      exact FreesOnly.kfree s _

/-- In a loop of cleanups over the slots `l` of a table, the cleanup of every
slot of `l` takes place: it starts in a state that differs from the initial
one by frees only, and the final state differs from its result by frees
only. -/
theorem foldlM_cleanup_runs (D fuel root : Nat) (l : List Nat) (a : Nat) (ha : a ∈ l)
    (s s1 : KState)
    (h : l.foldlM (fun st i => vm_recursive_cleanup D fuel st (root + 8 * i)) s = some s1) :
    ∃ si sj, FreesOnly s si ∧ vm_recursive_cleanup D fuel si (root + 8 * a) = some sj ∧
      FreesOnly sj s1 := by
  induction l generalizing s with
  | nil => exact absurd ha (List.not_mem_nil a)
  | cons b l ih =>
    simp only [List.foldlM_cons] at h
    cases hfb : vm_recursive_cleanup D fuel s (root + 8 * b) with
    | none => rw [hfb] at h; cases h
    | some s2 =>
      rw [hfb] at h
      have hrest : FreesOnly s2 s1 :=
        foldlM_freesOnly _ (fun st i st1 hst => vm_recursive_cleanup_freesOnly D fuel st st1 _ hst)
          l s2 s1 h
      by_cases hab : a = b
      · subst hab
        exact ⟨s, s2, FreesOnly.refl s, hfb, hrest⟩
      · have hal : a ∈ l := by
          rcases List.mem_cons.mp ha with e | e
          · exact absurd e hab
          · exact e
        obtain ⟨si, sj, h1, h2, h3⟩ := ih hal s2 h
        exact ⟨si, sj, (vm_recursive_cleanup_freesOnly D fuel s s2 _ hfb).trans h1, h2, h3⟩

/-! ## Facts about the scenarios -/

theorem empty_state_invalid (script : List Nat) (a : Nat) :
    ¬ (empty_state script).mem a &&& PTE_V ≠ 0 := by
  simp [empty_state]

theorem empty_state_wellFormed (script : List Nat) :
    WellFormed D0 (empty_state script).mem root0 :=
  ⟨by decide, fun _ _ h => absurd h (empty_state_invalid _ _),
    fun _ _ _ _ h => absurd h (empty_state_invalid _ _),
    fun _ _ _ _ _ _ h => absurd h (empty_state_invalid _ _)⟩

theorem empty_state_not_table (script : List Nat) (p : Nat) (h : p ≠ root0) :
    ¬ IsTable D0 (empty_state script).mem root0 p := by
  rintro (e | ⟨i, _, hv, _⟩ | ⟨i, j, _, _, hv, _⟩)
  · exact h e
  · exact empty_state_invalid _ _ hv
  · exact empty_state_invalid _ _ hv

theorem empty_state_fresh :
    FreshFrames D0 (empty_state [frameA, frameB]).mem root0 (empty_state [frameA, frameB]).pending := by
  refine ⟨?_, ?_, ?_, ?_⟩
  · intro p hp
    simp only [empty_state, List.mem_cons, List.mem_singleton, List.not_mem_nil, or_false] at hp
    rcases hp with rfl | rfl <;> decide
  · intro p hp
    simp only [empty_state, List.mem_cons, List.mem_singleton, List.not_mem_nil, or_false] at hp
    rcases hp with rfl | rfl <;> decide
  · intro p hp _
    simp only [empty_state, List.mem_cons, List.mem_singleton, List.not_mem_nil, or_false] at hp
    rcases hp with rfl | rfl <;> exact empty_state_not_table _ _ (by decide)
  · simp only [empty_state]
    decide

/-! ## Claims -/

/-- C1. Round trip map -> lookup: on a well-formed page table, with an
allocator that hands out fresh frames, if `vm_map(root, va, pa, perm)` returns
0 for a page-aligned `pa` (any 64-bit one, in particular below `2 ^ 56`) and
a `perm` within the ten flag bits, then `vm_inverse_of_map(root, va)` on the
resulting memory returns exactly `pa`.  (`P2V` and `V2P` are inverse to each
other by `P2V_V2P`; `va` need not even be page-aligned.) -/
theorem vm_map_then_lookup (D : Nat) (s s1 : KState) (root va pa perm : Nat)
    (hD : D % PGSIZE = 0) (hwf : WellFormed D s.mem root)
    (hfresh : FreshFrames D s.mem root s.pending)
    (hpa : pa % PGSIZE = 0) (hpa64 : pa < 2 ^ 64) (hperm : perm < 2 ^ 10)
    (hmap : vm_map D s root va pa perm = (0, s1)) :
    vm_inverse_of_map D s1.mem root va = pa := by
  obtain ⟨t1, t0, hpath, hleaf, _, _⟩ := vm_map_ok_path D s s1 root va pa perm hD hwf hfresh hmap
  unfold vm_inverse_of_map
  rw [hpath.descend_eq]
  simp only
  rw [hleaf]
  exact leaf_pa pa perm hpa64 hpa hperm

/-- Witness of C1 (scenario 1): on a fresh root, `map(root, 0x1000,
0x80400000, R|W|U)` returns 0 and `lookup(root, 0x1000)` is `0x80400000`. -/
theorem vm_map_then_lookup_witness :
    (vm_map D0 (empty_state [frameA, frameB]) root0 0x1000 0x80400000 RWU).1 = 0 ∧
      vm_inverse_of_map D0 mapped_state.mem root0 0x1000 = 0x80400000 :=
  ⟨by decide,
    vm_map_then_lookup D0 (empty_state [frameA, frameB]) mapped_state root0 0x1000 0x80400000 RWU
      (by decide) (empty_state_wellFormed _) empty_state_fresh (by decide) (by decide) (by decide)
      (Prod.ext (by decide) rfl)⟩

/-- C2. map then unmap erases the mapping: on a well-formed page table, with
an allocator that hands out fresh frames, if `vm_map(root, va, pa, perm)`
returned 0 then `vm_unmap(root, va)` returns 0 and afterwards
`vm_inverse_of_map(root, va)` returns `NULL`. -/
theorem vm_map_then_unmap (D : Nat) (s s1 : KState) (root va pa perm : Nat)
    (hD : D % PGSIZE = 0) (hwf : WellFormed D s.mem root)
    (hfresh : FreshFrames D s.mem root s.pending)
    (hmap : vm_map D s root va pa perm = (0, s1)) :
    (vm_unmap D s1 root va).1 = 0 ∧
      vm_inverse_of_map D (vm_unmap D s1 root va).2.mem root va = NULL := by
  obtain ⟨t1, t0, hpath, hleaf, _, _⟩ := vm_map_ok_path D s s1 root va pa perm hD hwf hfresh hmap
  have hv0 : ¬ s1.mem (t0 + 8 * PX 0 va) &&& PTE_V = 0 := by
    rw [hleaf]; exact leaf_valid pa perm
  have hu : vm_unmap D s1 root va = (0, { kfree s1 (P2V D (PTE2PA (s1.mem (t0 + 8 * PX 0 va)))) with
      mem := store s1.mem (t0 + 8 * PX 0 va) 0 }) := by
    unfold vm_unmap
    rw [hpath.descend_eq]
    simp only
    rw [if_neg hv0]
    rfl
  rw [hu]
  refine ⟨rfl, ?_⟩
  unfold vm_inverse_of_map
  simp only
  rw [(hpath.store_leaf 0).descend_eq]
  simp only
  rw [store_same]
  rfl

/-- Witness of C2 (scenario 1): after the map of `0x1000` on a fresh root,
`unmap(root, 0x1000)` returns 0 and `lookup(root, 0x1000)` is `NULL`. -/
theorem vm_map_then_unmap_witness :
    (vm_unmap D0 mapped_state root0 0x1000).1 = 0 ∧
      vm_inverse_of_map D0 (vm_unmap D0 mapped_state root0 0x1000).2.mem root0 0x1000 = NULL :=
  vm_map_then_unmap D0 (empty_state [frameA, frameB]) mapped_state root0 0x1000 0x80400000 RWU
    (by decide) (empty_state_wellFormed _) empty_state_fresh (Prod.ext (by decide) rfl)

/-- C3. Remap rejection is atomic: when the walk of `va` goes through valid
entries at levels 2 and 1 and the level-0 entry for `va` already has `V` set,
`vm_map(root, va, pa2, perm)` returns -1 and leaves the whole state as it
was (no call of `kalloc`, no entry written), so `vm_inverse_of_map(root, va)`
still returns the physical address of the entry that was there. -/
theorem vm_map_remap_rejected (D : Nat) (s : KState) (root va pa2 perm : Nat)
    (hv2 : s.mem (root + 8 * PX 2 va) &&& PTE_V ≠ 0)
    (hv1 : s.mem (table1 D s.mem root (PX 2 va) + 8 * PX 1 va) &&& PTE_V ≠ 0)
    (hv0 : s.mem (table0 D s.mem root (PX 2 va) (PX 1 va) + 8 * PX 0 va) &&& PTE_V ≠ 0) :
    vm_map D s root va pa2 perm = (-1, s) ∧
      vm_inverse_of_map D (vm_map D s root va pa2 perm).2.mem root va
        = PTE2PA (s.mem (table0 D s.mem root (PX 2 va) (PX 1 va) + 8 * PX 0 va)) := by
  have hm : vm_map D s root va pa2 perm = (-1, s) := by
    rw [vm_map_valid_valid D s root va pa2 perm hv2 hv1, if_pos hv0]
  refine ⟨hm, ?_⟩
  rw [hm]
  have e2 : descend D 2 s.mem root va = descend D 1 s.mem (table1 D s.mem root (PX 2 va)) va :=
    descend_valid D 1 s.mem root va hv2
  have e1 : descend D 1 s.mem (table1 D s.mem root (PX 2 va)) va
      = descend D 0 s.mem (table0 D s.mem root (PX 2 va) (PX 1 va)) va :=
    descend_valid D 0 s.mem _ va hv1
  unfold vm_inverse_of_map
  rw [e2, e1, descend_zero]

/-- Witness of C3 (scenario 2): after the map of `0x1000` to `0x80400000`, a
second `map(root, 0x1000, 0x80500000, R|W|U)` returns -1 and
`lookup(root, 0x1000)` is still `0x80400000`. -/
theorem vm_map_remap_rejected_witness :
    vm_map D0 mapped_state root0 0x1000 0x80500000 RWU = (-1, mapped_state) ∧
      vm_inverse_of_map D0 (vm_map D0 mapped_state root0 0x1000 0x80500000 RWU).2.mem root0 0x1000
        = 0x80400000 :=
  have h := vm_map_remap_rejected D0 mapped_state root0 0x1000 0x80500000 RWU
    (by decide) (by decide) (by decide)
  ⟨h.1, h.2.trans (by decide)⟩

/-- C4, refuted as stated.  `entrypgdir` of `main.c` holds at slot 2 a valid
entry with `R|W|X` set (a gigabyte leaf).  `vm_map(entrypgdir, 0x80001000,
0x80400000, R|W|U)` does not return -1: it returns 0, after descending
through that entry, calling `kalloc` once and writing a page-table entry into
the page the leaf maps. -/
theorem vm_map_huge_not_rejected :
    entrypgdir_state.mem (root0 + 8 * PX 2 0x80001000) &&& PTE_V ≠ 0 ∧
      entrypgdir_state.mem (root0 + 8 * PX 2 0x80001000) &&& (PTE_R ||| PTE_W ||| PTE_X) ≠ 0 ∧
      (vm_map D0 entrypgdir_state root0 0x80001000 0x80400000 RWU).1 = 0 ∧
      (vm_map D0 entrypgdir_state root0 0x80001000 0x80400000 RWU).2.pending = [frameB] ∧
      (vm_map D0 entrypgdir_state root0 0x80001000 0x80400000 RWU).2.mem
          (table1 D0 entrypgdir_state.mem root0 (PX 2 0x80001000) + 8 * PX 1 0x80001000)
        ≠ entrypgdir_state.mem
          (table1 D0 entrypgdir_state.mem root0 (PX 2 0x80001000) + 8 * PX 1 0x80001000) := by
  decide

/-- C4, amended.  `vm_map` looks at the `V` bit of an interior entry only.
When the level-2 entry of `va` has `V` set, whatever its `R|W|X` bits, the
walk goes on at level 1 in the table `P2V(PTE2PA(entry))`; when the level-1
entry found there has `V` set as well, whatever its `R|W|X` bits, `vm_map`
never calls `kalloc`, returns -1 with the state unchanged if the level-0
entry reached that way has `V` set, and otherwise writes
`PA2PTE(pa) | PTE_V | perm` into it and returns 0. -/
theorem vm_map_descends_through_valid (D : Nat) (s : KState) (root va pa perm : Nat)
    (hv2 : s.mem (root + 8 * PX 2 va) &&& PTE_V ≠ 0) :
    vm_map_walk D 2 s root va = vm_map_walk D 1 s (table1 D s.mem root (PX 2 va)) va ∧
      (s.mem (table1 D s.mem root (PX 2 va) + 8 * PX 1 va) &&& PTE_V ≠ 0 →
        vm_map D s root va pa perm =
          if s.mem (table0 D s.mem root (PX 2 va) (PX 1 va) + 8 * PX 0 va) &&& PTE_V ≠ 0
          then (-1, s)
          else (0, { s with
            mem := store s.mem (table0 D s.mem root (PX 2 va) (PX 1 va) + 8 * PX 0 va)
              ((PA2PTE pa ||| PTE_V ||| perm) % 2 ^ 64) })) :=
  ⟨vm_map_walk_valid D 1 s root va hv2, fun hv1 => vm_map_valid_valid D s root va pa perm hv2 hv1⟩

/-- Witness of C4 (amended): on `entrypgdir`, whose slot 2 is a gigabyte leaf,
the walk of `0x80001000` goes on at level 1 inside the page that leaf maps. -/
theorem vm_map_descends_through_valid_witness :
    entrypgdir_state.mem (root0 + 8 * PX 2 0x80001000) &&& (PTE_R ||| PTE_W ||| PTE_X) ≠ 0 ∧
      vm_map_walk D0 2 entrypgdir_state root0 0x80001000
        = vm_map_walk D0 1 entrypgdir_state 0xFFFFFFFFC0000000 0x80001000 :=
  ⟨by decide,
    (vm_map_descends_through_valid D0 entrypgdir_state root0 0x80001000 0x80400000 RWU
      (by decide)).1⟩

/-- C5, the code at the failing input.  In `stale_state` the level-2 and
level-1 entries of `0x1000` are valid and the level-0 entry has `V` clear
but a non-zero frame number; `vm_inverse_of_map` returns that frame's
address `0x80400000`, not `NULL`. -/
theorem vm_inverse_of_map_stale_entry :
    stale_state.mem (root0 + 8 * PX 2 0x1000) &&& PTE_V ≠ 0 ∧
      stale_state.mem (table1 D0 stale_state.mem root0 (PX 2 0x1000) + 8 * PX 1 0x1000)
        &&& PTE_V ≠ 0 ∧
      stale_state.mem (table0 D0 stale_state.mem root0 (PX 2 0x1000) (PX 1 0x1000)
        + 8 * PX 0 0x1000) &&& PTE_V = 0 ∧
      vm_inverse_of_map D0 stale_state.mem root0 0x1000 = 0x80400000 ∧
      vm_inverse_of_map D0 stale_state.mem root0 0x1000 ≠ NULL := by
  decide

/-- C6. `vm_unmap` fails exactly when the page is not mapped, and failure is
atomic: `vm_unmap(root, va)` returns -1 if and only if the level-2 entry, the
level-1 entry or the level-0 entry on the path of `va` has `V` clear; when it
returns -1 the state is unchanged (nothing handed to `kfree`, no entry
written); otherwise it returns 0. -/
theorem vm_unmap_fails_iff (D : Nat) (s : KState) (root va : Nat) :
    ((vm_unmap D s root va).1 = -1 ↔
      (s.mem (root + 8 * PX 2 va) &&& PTE_V = 0 ∨
        s.mem (table1 D s.mem root (PX 2 va) + 8 * PX 1 va) &&& PTE_V = 0 ∨
        s.mem (table0 D s.mem root (PX 2 va) (PX 1 va) + 8 * PX 0 va) &&& PTE_V = 0)) ∧
      (((vm_unmap D s root va).1 = -1 ∧ (vm_unmap D s root va).2 = s) ∨
        (vm_unmap D s root va).1 = 0) := by
  by_cases hv2 : s.mem (root + 8 * PX 2 va) &&& PTE_V ≠ 0
  · by_cases hv1 : s.mem (table1 D s.mem root (PX 2 va) + 8 * PX 1 va) &&& PTE_V ≠ 0
    · by_cases hv0 : s.mem (table0 D s.mem root (PX 2 va) (PX 1 va) + 8 * PX 0 va) &&& PTE_V = 0
      · have hu : vm_unmap D s root va = (-1, s) := by
          unfold vm_unmap
          rw [descend_valid_valid D s.mem root va hv2 hv1]
          simp only
          rw [if_pos hv0]
        rw [hu]
        exact ⟨⟨fun _ => Or.inr (Or.inr hv0), fun _ => rfl⟩, Or.inl ⟨rfl, rfl⟩⟩
      · have hu : (vm_unmap D s root va).1 = 0 := by
          unfold vm_unmap
          rw [descend_valid_valid D s.mem root va hv2 hv1]
          simp only
          rw [if_neg hv0]
        rw [hu]
        refine ⟨⟨fun h => absurd h (by decide), ?_⟩, Or.inr rfl⟩
        rintro (h | h | h)
        · exact absurd h hv2
        · exact absurd h hv1
        · exact absurd h hv0
    · have hu : vm_unmap D s root va = (-1, s) := by
        unfold vm_unmap
        rw [descend_valid_invalid D s.mem root va hv2 hv1]
      rw [hu]
      exact ⟨⟨fun _ => Or.inr (Or.inl (not_not.mp hv1)), fun _ => rfl⟩, Or.inl ⟨rfl, rfl⟩⟩
  · have hu : vm_unmap D s root va = (-1, s) := by
      unfold vm_unmap
      rw [descend_invalid D 1 s.mem root va hv2]
    rw [hu]
    exact ⟨⟨fun _ => Or.inl (not_not.mp hv2), fun _ => rfl⟩, Or.inl ⟨rfl, rfl⟩⟩

/-- C7. Out of memory in the middle of a descent.  Let the level-2 entry of
`va` be empty (`V` clear) in a page-aligned root, and let the frame `kalloc`
hands out first, if any, be a page-aligned 64-bit address other than the
root.  If `kalloc` returns `NULL` on the first call, `vm_map` returns -1 and
memory is unchanged.  If the first call succeeds and the second returns
`NULL`, `vm_map` returns -1 and afterwards the level-2 entry of `va` is valid
with flags exactly `V`, points at the frame of the first call, all 512
entries of that frame are zero, no other root entry has changed, and
`vm_inverse_of_map(root, va)` returns `NULL`. -/
theorem vm_map_oom_mid_descent (D : Nat) (s : KState) (root va pa perm : Nat)
    (hD : D % PGSIZE = 0) (hroot : root % PGSIZE = 0)
    (hv2 : s.mem (root + 8 * PX 2 va) &&& PTE_V = 0)
    (hfresh : (kalloc s).1 ≠ NULL →
      (kalloc s).1 % PGSIZE = 0 ∧ (kalloc s).1 < 2 ^ 64 ∧ (kalloc s).1 ≠ root) :
    ((kalloc s).1 = NULL →
      (vm_map D s root va pa perm).1 = -1 ∧ (vm_map D s root va pa perm).2.mem = s.mem) ∧
    ((kalloc s).1 ≠ NULL → (kalloc (kalloc s).2).1 = NULL →
      (vm_map D s root va pa perm).1 = -1 ∧
      (vm_map D s root va pa perm).2.mem (root + 8 * PX 2 va) &&& PTE_V ≠ 0 ∧
      PTE_FLAGS ((vm_map D s root va pa perm).2.mem (root + 8 * PX 2 va)) = PTE_V ∧
      P2V D (PTE2PA ((vm_map D s root va pa perm).2.mem (root + 8 * PX 2 va))) = (kalloc s).1 ∧
      (∀ i, i < 512 → (vm_map D s root va pa perm).2.mem ((kalloc s).1 + 8 * i) = 0) ∧
      (∀ i, i < 512 → i ≠ PX 2 va →
        (vm_map D s root va pa perm).2.mem (root + 8 * i) = s.mem (root + 8 * i)) ∧
      vm_inverse_of_map D (vm_map D s root va pa perm).2.mem root va = NULL) := by
  have h2 := PX_lt 2 va
  have h1 := PX_lt 1 va
  have hv2n : ¬ s.mem (root + 8 * PX 2 va) &&& PTE_V ≠ 0 := not_not.mpr hv2
  simp only [PGSIZE] at hD hroot
  constructor
  · intro hk
    rw [vm_map_of_walk_none D s _ root va pa perm (vm_map_walk_oom D 1 s root va hv2n hk)]
    exact ⟨rfl, (kalloc_frame s).1⟩
  · intro hk hk2
    obtain ⟨pal, plt, pr⟩ := hfresh hk
    obtain ⟨p, rest, hp, hp0⟩ := kalloc_ne_null s hk
    have hkp : (kalloc s).1 = p := by rw [kalloc_cons s p rest hp]
    rw [hkp] at pal plt pr ⊢
    simp only [PGSIZE] at pal
    have hw2 := vm_map_walk_alloc_top D s root va p rest hv2n hp hp0
    have z1 : store (memset_zero s.mem p PGSIZE) (root + 8 * PX 2 va)
        ((PA2PTE (V2P D p) ||| PTE_V) % 2 ^ 64) (p + 8 * PX 1 va) = 0 := by
      rw [store_other _ _ _ _ (by omega),
        memset_zero_in _ _ _ _ (by omega) (by simp only [PGSIZE]; omega)]
    have hv1 : ¬ (store (memset_zero s.mem p PGSIZE) (root + 8 * PX 2 va)
        ((PA2PTE (V2P D p) ||| PTE_V) % 2 ^ 64) (p + 8 * PX 1 va)) &&& PTE_V ≠ 0 := by
      rw [z1]; simp
    have hk2a : (kalloc { s with
        pending := rest,
        mem := store (memset_zero s.mem p PGSIZE) (root + 8 * PX 2 va)
          ((PA2PTE (V2P D p) ||| PTE_V) % 2 ^ 64) }).1 = NULL := by
      rw [← hk2]
      apply kalloc_fst_congr
      rw [kalloc_cons s p rest hp]
    have e1 := vm_map_walk_oom D 0 _ p va hv1 hk2a
    rw [vm_map_of_walk_none D s _ root va pa perm (hw2.trans e1)]
    simp only
    rw [(kalloc_frame _).1]
    simp only
    have r2 : store (memset_zero s.mem p PGSIZE) (root + 8 * PX 2 va)
        ((PA2PTE (V2P D p) ||| PTE_V) % 2 ^ 64) (root + 8 * PX 2 va)
        = (PA2PTE (V2P D p) ||| PTE_V) % 2 ^ 64 := store_same _ _ _
    have hval := link_valid (V2P D p) (V2P_lt D p)
    have hchild := link_child D p hD plt pal
    refine ⟨trivial, ?_, ?_, ?_, ?_, ?_, ?_⟩
    · rw [r2]; exact hval
    · rw [r2]; exact link_flags _ (V2P_lt D p)
    · rw [r2]; exact hchild
    · intro i hi
      rw [store_other _ _ _ _ (by omega),
        memset_zero_in _ _ _ _ (by omega) (by simp only [PGSIZE]; omega)]
    · intro i hi hne
      rw [store_other _ _ _ _ (by omega),
        memset_zero_out _ _ _ _ (by simp only [PGSIZE]; omega)]
    · unfold vm_inverse_of_map
      have e2 := descend_valid D 1 _ root va (r2.symm ▸ hval)
      rw [r2, hchild] at e2
      have e1 := descend_invalid D 0 _ p va hv1
      have e : descend D 2 (store (memset_zero s.mem p PGSIZE) (root + 8 * PX 2 va)
          ((PA2PTE (V2P D p) ||| PTE_V) % 2 ^ 64)) root va = none := e2.trans e1
      rw [e]

/-- Witness of C7 (scenario 3): with the allocator failing on its second
call, `map(root, 0x200000, 0x81000000, R|W|U)` on an empty root returns -1,
leaves the level-2 entry valid and pointing at a zeroed table, and
`lookup(root, 0x200000)` is `NULL`. -/
theorem vm_map_oom_mid_descent_witness :
    (vm_map D0 oom_state root0 0x200000 0x81000000 RWU).1 = -1 ∧
      (vm_map D0 oom_state root0 0x200000 0x81000000 RWU).2.mem (root0 + 8 * PX 2 0x200000)
        &&& PTE_V ≠ 0 ∧
      (∀ i, i < 512 →
        (vm_map D0 oom_state root0 0x200000 0x81000000 RWU).2.mem (frameA + 8 * i) = 0) ∧
      vm_inverse_of_map D0 (vm_map D0 oom_state root0 0x200000 0x81000000 RWU).2.mem
        root0 0x200000 = NULL :=
  have h := (vm_map_oom_mid_descent D0 oom_state root0 0x200000 0x81000000 RWU
    (by decide) (by decide) (by decide) (fun _ => by decide)).2 (by decide) (by decide)
  ⟨h.1, h.2.1, h.2.2.2.2.1, h.2.2.2.2.2.2⟩

/-- C8, the code at the failing input.  The frame `kalloc` returns holds
non-zero bytes; `vm_init_upgtbl` returns it as the new root without zeroing
it, and slot 0 of the root, which lies in the user half, has `V` set. -/
theorem vm_init_upgtbl_keeps_junk :
    (vm_init_upgtbl D0 junk_state).1 = frameA ∧ 0 < PX 2 D0 ∧
      (vm_init_upgtbl D0 junk_state).2.mem ((vm_init_upgtbl D0 junk_state).1 + 8 * 0)
        &&& PTE_V ≠ 0 := by
  decide

/-- C9. `vm_init_upgtbl` shares the kernel half.  Let `kernel_pgtbl` and the
frame `kalloc` returns be page-aligned frames.  When `kalloc` succeeds,
`vm_init_upgtbl` returns that frame as the root `r`, with `r[i] =
kernel_pgtbl[i]` for every `i` in `[PX(2, V_P_DIFF), 512)`, and `kernel_pgtbl`
(the variable and the 512 entries of the table) is unchanged.  When `kalloc`
returns `NULL`, `vm_init_upgtbl` returns `NULL` and memory is unchanged. -/
theorem vm_init_upgtbl_shares_kernel_half (D : Nat) (s : KState)
    (hk : s.kernel_pgtbl % PGSIZE = 0) (hp : (kalloc s).1 % PGSIZE = 0) :
    ((kalloc s).1 ≠ NULL →
      (vm_init_upgtbl D s).1 = (kalloc s).1 ∧
      (∀ i, PX 2 D ≤ i → i < 512 →
        (vm_init_upgtbl D s).2.mem ((vm_init_upgtbl D s).1 + 8 * i)
          = (vm_init_upgtbl D s).2.mem ((vm_init_upgtbl D s).2.kernel_pgtbl + 8 * i)) ∧
      (∀ i, i < 512 →
        (vm_init_upgtbl D s).2.mem (s.kernel_pgtbl + 8 * i) = s.mem (s.kernel_pgtbl + 8 * i)) ∧
      (vm_init_upgtbl D s).2.kernel_pgtbl = s.kernel_pgtbl) ∧
    ((kalloc s).1 = NULL →
      (vm_init_upgtbl D s).1 = NULL ∧ (vm_init_upgtbl D s).2.mem = s.mem ∧
      (vm_init_upgtbl D s).2.kernel_pgtbl = s.kernel_pgtbl) := by
  simp only [PGSIZE] at hk hp
  obtain ⟨km, _, kk⟩ := kalloc_frame s
  constructor
  · intro hne
    have hr : vm_init_upgtbl D s = ((kalloc s).1, vm_shallow_copy D (kalloc s).2 (kalloc s).1) := by
      unfold vm_init_upgtbl
      simp only
      rw [if_neg hne]
    have hl : ∀ i, i ∈ List.range' (PX 2 D) (512 - PX 2 D) → i < 512 := by
      intro i hi
      have := List.mem_range'_1.mp hi
      omega
    obtain ⟨c1, c2, c3, _⟩ := shallow_copy_loop s.kernel_pgtbl (kalloc s).1 hk hp
      (List.range' (PX 2 D) (512 - PX 2 D)) hl (kalloc s).2 kk
    rw [km] at c2 c3
    rw [hr]
    refine ⟨rfl, ?_, c2, c1⟩
    intro i hlo hhi
    have hmem : i ∈ List.range' (PX 2 D) (512 - PX 2 D) := by
      apply List.mem_range'_1.mpr
      omega
    show (vm_shallow_copy D (kalloc s).2 (kalloc s).1).mem ((kalloc s).1 + 8 * i)
      = (vm_shallow_copy D (kalloc s).2 (kalloc s).1).mem
          ((vm_shallow_copy D (kalloc s).2 (kalloc s).1).kernel_pgtbl + 8 * i)
    unfold vm_shallow_copy
    rw [c1, c2 i hhi]
    exact c3 i hmem
  · intro hnull
    have hr : vm_init_upgtbl D s = (NULL, (kalloc s).2) := by
      unfold vm_init_upgtbl
      simp only
      rw [if_pos hnull]
    rw [hr]
    exact ⟨rfl, km, kk⟩

/-- Witness of C9: from the kernel table of the scenarios, `vm_init_upgtbl`
returns `frameA`, whose slot 511 holds the kernel root's slot 511. -/
theorem vm_init_upgtbl_shares_kernel_half_witness :
    (vm_init_upgtbl D0 (kernel_state [frameA, frameB, frameC])).1 = frameA ∧
      user_state.mem (frameA + 8 * 511) = kernel_mem (root0 + 8 * 511) :=
  have h := (vm_init_upgtbl_shares_kernel_half D0 (kernel_state [frameA, frameB, frameC])
    (by decide) (by decide)).1 (by decide)
  ⟨h.1, (h.2.1 511 (by decide) (by decide)).trans (h.2.2.1 511 (by decide))⟩

set_option maxRecDepth 100000 in
/-- C10, refuted as stated (scenario 4).  The user root `frameA` comes from
`vm_init_upgtbl`; the pages `0x1000` and `0x2000` are mapped to two frames.
`vm_delete_upgtbl` hands four pointers to `kfree`: the two leaves, the level-0
table `frameC` and the level-1 table `frameB` (two interior tables, not
one), and the root `frameA` is not among them. -/
theorem vm_delete_upgtbl_scenario_four :
    (vm_init_upgtbl D0 (kernel_state [frameA, frameB, frameC])).1 = frameA ∧
      (vm_delete_upgtbl D0 3 two_pages_state frameA).map KState.freed
        = some [0xFFFFFFFFC0804000, 0xFFFFFFFFC0805000, frameC, frameB] ∧
      frameA ∉ [0xFFFFFFFFC0804000, 0xFFFFFFFFC0805000, frameC, frameB] := by
  decide

/-- C10, amended.  `vm_delete_upgtbl(root)` runs the recursive cleanup on
every root slot `i` in `[0, PX(2, V_P_DIFF))`: when it returns, memory is as
before, and for each such slot its run contains a complete run of
`vm_recursive_cleanup(&root[i])`, started after and followed by nothing but
calls of `kfree`. -/
theorem vm_delete_upgtbl_runs_cleanups (D fuel : Nat) (s s1 : KState) (root i : Nat)
    (hi : i < PX 2 D) (h : vm_delete_upgtbl D fuel s root = some s1) :
    s1.mem = s.mem ∧
      ∃ si sj, FreesOnly s si ∧ vm_recursive_cleanup D fuel si (root + 8 * i) = some sj ∧
        FreesOnly sj s1 := by
  unfold vm_delete_upgtbl at h
  refine ⟨?_, foldlM_cleanup_runs D fuel root _ i (List.mem_range.mpr hi) s s1 h⟩
  exact (foldlM_freesOnly _
    (fun st a st1 hst => vm_recursive_cleanup_freesOnly D fuel st st1 _ hst) _ s s1 h).1

set_option maxRecDepth 100000 in
/-- Witness of C10 (amended), scenario 4: `vm_delete_upgtbl` returns, its run
contains the cleanup of slot 0 of the user root, and each of the two leaf
frames and of the two interior tables is handed to `kfree` exactly once. -/
theorem vm_delete_upgtbl_runs_cleanups_witness :
    ∃ s1, vm_delete_upgtbl D0 3 two_pages_state frameA = some s1 ∧
      s1.mem = two_pages_state.mem ∧
      (∃ si sj, FreesOnly two_pages_state si ∧
        vm_recursive_cleanup D0 3 si (frameA + 8 * 0) = some sj ∧ FreesOnly sj s1) ∧
      s1.freed.count 0xFFFFFFFFC0804000 = 1 ∧ s1.freed.count 0xFFFFFFFFC0805000 = 1 ∧
      s1.freed.count frameC = 1 ∧ s1.freed.count frameB = 1 := by
  have hf : (vm_delete_upgtbl D0 3 two_pages_state frameA).map KState.freed
      = some [0xFFFFFFFFC0804000, 0xFFFFFFFFC0805000, frameC, frameB] := by decide
  cases h : vm_delete_upgtbl D0 3 two_pages_state frameA with
  | none => rw [h] at hf; cases hf
  | some s1 =>
    rw [h] at hf
    have hfreed : s1.freed = [0xFFFFFFFFC0804000, 0xFFFFFFFFC0805000, frameC, frameB] :=
      Option.some.inj hf
    have hw := vm_delete_upgtbl_runs_cleanups D0 3 two_pages_state s1 frameA 0 (by decide) h
    refine ⟨s1, rfl, hw.1, hw.2, ?_⟩
    rw [hfreed]
    decide

/-- C15. `PTE2PA` inverts `PA2PTE` and ignores the flag bits: for every 64-bit
physical address `pa` and every flag word `f < 2 ^ 10`,
`PTE2PA(PA2PTE(pa) | f)` is `pa` with its low 12 bits cleared (so `pa` itself
when `pa` is page-aligned), the shifts do not overflow 64 bits, and
`PTE_FLAGS(PA2PTE(pa) | f) = f`. -/
theorem PTE2PA_PA2PTE_flags (pa f : Nat) (hpa : pa < 2 ^ 64) (hf : f < 2 ^ 10) :
    PTE2PA (PA2PTE pa ||| f) = pa - pa % PGSIZE ∧
      (pa % PGSIZE = 0 → PTE2PA (PA2PTE pa ||| f) = pa) ∧
      (pa >>> 12) <<< 10 < 2 ^ 64 ∧
      ((PA2PTE pa ||| f) >>> 10) <<< 12 < 2 ^ 64 ∧
      PTE_FLAGS (PA2PTE pa ||| f) = f := by
  have hf2 : f < 1024 := by simpa using hf
  have e : (0x3FF : Nat) = 2 ^ 10 - 1 := by norm_num
  have hor := PA2PTE_or pa f hpa hf2
  refine ⟨?_, ?_, ?_, ?_, ?_⟩
  · rw [hor, PTE2PA_eq]; simp only [PGSIZE]; omega
  · intro ha; rw [hor, PTE2PA_eq]; simp only [PGSIZE] at ha; omega
  · rw [Nat.shiftLeft_eq, Nat.shiftRight_eq_div_pow]; omega
  · rw [hor, Nat.shiftLeft_eq, Nat.shiftRight_eq_div_pow]; omega
  · unfold PTE_FLAGS
    rw [e, Nat.and_pow_two_sub_one_eq_mod, hor]
    omega

/-- Witness of C15: an unaligned address and the flags `V|R|W|U`. -/
theorem PTE2PA_PA2PTE_flags_witness :
    PTE2PA (PA2PTE 0x80400123 ||| 0x17) = 0x80400000 ∧ PTE_FLAGS (PA2PTE 0x80400123 ||| 0x17) = 0x17 :=
  have h := PTE2PA_PA2PTE_flags 0x80400123 0x17 (by decide) (by decide)
  ⟨h.1.trans (by decide), h.2.2.2.2⟩

theorem SATP_SV39_eq : SATP_SV39 = 2 ^ 63 * 1 := by decide

/-- C16. The SATP value is bit-exact: for every root physical address
`root_pa < 2 ^ 56` (page-aligned or not), `LOAD_SATP(root_pa)` is a 64-bit
word equal to `8 * 2 ^ 60 + root_pa / 4096`; its bits 60..63 hold the mode 8,
its bits 0..43 the root frame number, its bits 44..59 are zero.
`vm_2_kpgtbl` writes `LOAD_SATP(V2P(kernel_pgtbl))` to SATP and then issues
`sfence_vma`, and nothing else. -/
theorem LOAD_SATP_exact (D : Nat) (s : KState) (events : List HartEvent) (root_pa : Nat)
    (h : root_pa < 2 ^ 56) :
    LOAD_SATP root_pa = 8 * 2 ^ 60 + root_pa / 4096 ∧ LOAD_SATP root_pa < 2 ^ 64 ∧
      LOAD_SATP root_pa / 2 ^ 60 = 8 ∧ LOAD_SATP root_pa % 2 ^ 44 = root_pa / 4096 ∧
      LOAD_SATP root_pa / 2 ^ 44 % 2 ^ 16 = 0 ∧
      vm_2_kpgtbl D s events
        = events ++ [HartEvent.w_satp (LOAD_SATP (V2P D s.kernel_pgtbl)), HartEvent.sfence_vma] := by
  have e : LOAD_SATP root_pa = 8 * 2 ^ 60 + root_pa / 4096 := by
    unfold LOAD_SATP
    rw [SATP_SV39_eq, ← Nat.mul_add_lt_is_or, Nat.shiftRight_eq_div_pow]
    · omega
    · rw [Nat.shiftRight_eq_div_pow]; omega
  refine ⟨e, ?_, ?_, ?_, ?_, ?_⟩
  · rw [e]; omega
  · rw [e]; omega
  · rw [e]; omega
  · rw [e]; omega
  · simp [vm_2_kpgtbl]

/-- Witness of C16: the kernel root of the scenarios, at physical address
`0x80800000`. -/
theorem LOAD_SATP_exact_witness :
    LOAD_SATP 0x80800000 = 0x8000000000080800 ∧
      vm_2_kpgtbl D0 (kernel_state []) []
        = [HartEvent.w_satp 0x8000000000080800, HartEvent.sfence_vma] :=
  have h := LOAD_SATP_exact D0 (kernel_state []) [] 0x80800000 (by decide)
  ⟨h.1.trans (by decide), h.2.2.2.2.2.trans (by decide)⟩

/-! ## Flag bits of the entries `vm_map` writes -/

theorem testBit_fourteen (i : Nat) (h : (14 : Nat).testBit i = true) : i = 1 ∨ i = 2 ∨ i = 3 := by
  by_cases h4 : i < 4
  · interval_cases i
    · simp at h
    · exact Or.inl rfl
    · exact Or.inr (Or.inl rfl)
    · exact Or.inr (Or.inr rfl)
  · have : (14 : Nat) < 2 ^ i := by
      calc (14 : Nat) < 2 ^ 4 := by norm_num
        _ ≤ 2 ^ i := Nat.pow_le_pow_right (by norm_num) (by omega)
    rw [Nat.testBit_lt_two_pow this] at h
    cases h

/-- The `R|W|X` bits of the level-0 entry `vm_map` writes are those of `perm`. -/
theorem leaf_rwx (pa perm : Nat) :
    ((PA2PTE pa ||| PTE_V ||| perm) % 2 ^ 64) &&& 14 = perm &&& 14 := by
  apply Nat.eq_of_testBit_eq
  intro i
  simp only [Nat.testBit_and, Nat.testBit_mod_two_pow, Nat.testBit_or, PA2PTE, PTE_V,
    Nat.testBit_shiftLeft]
  cases h : (14 : Nat).testBit i with
  | false => simp
  | true =>
    rcases testBit_fourteen i h with rfl | rfl | rfl <;>
      simp [show Nat.testBit 1 1 = false by decide, show Nat.testBit 1 2 = false by decide,
        show Nat.testBit 1 3 = false by decide]

/-- The entry `vm_map` publishes for a new table has none of `R|W|X`. -/
theorem link_rwx (p : Nat) : ((PA2PTE p ||| PTE_V) % 2 ^ 64) &&& 14 = 0 := by
  apply Nat.eq_of_testBit_eq
  intro i
  simp only [Nat.testBit_and, Nat.testBit_mod_two_pow, Nat.testBit_or, PA2PTE, PTE_V,
    Nat.testBit_shiftLeft, Nat.zero_testBit]
  cases h : (14 : Nat).testBit i with
  | false => simp
  | true =>
    rcases testBit_fourteen i h with rfl | rfl | rfl <;>
      simp [show Nat.testBit 1 1 = false by decide, show Nat.testBit 1 2 = false by decide,
        show Nat.testBit 1 3 = false by decide]

theorem link_valid_any (p : Nat) : ((PA2PTE p ||| PTE_V) % 2 ^ 64) &&& PTE_V ≠ 0 := by
  have h := leaf_valid p 0
  simpa using h

/-- With the path of `va` in place, `vm_map` only looks at the level-0 entry. -/
theorem vm_map_of_path (D : Nat) (s : KState) (root va pa perm t1 t0 : Nat)
    (h : PathTo D s.mem root va t1 t0) :
    vm_map D s root va pa perm =
      if s.mem (t0 + 8 * PX 0 va) &&& PTE_V ≠ 0 then (-1, s)
      else (0, { s with
        mem := store s.mem (t0 + 8 * PX 0 va) ((PA2PTE pa ||| PTE_V ||| perm) % 2 ^ 64) }) := by
  have e1 : table1 D s.mem root (PX 2 va) = t1 := h.child2
  have hv1 : s.mem (table1 D s.mem root (PX 2 va) + 8 * PX 1 va) &&& PTE_V ≠ 0 := by
    rw [e1]; exact h.valid1
  have e0 : table0 D s.mem root (PX 2 va) (PX 1 va) = t0 := by
    unfold table0; rw [e1]; exact h.child1
  rw [vm_map_valid_valid D s root va pa perm h.valid2 hv1, e0]

/-- The path of a mapped `va` in a well-formed table. -/
theorem path_of_valid (D : Nat) (m : Mem) (root va : Nat) (hD : D % PGSIZE = 0)
    (hwf : WellFormed D m root)
    (hv2 : m (root + 8 * PX 2 va) &&& PTE_V ≠ 0)
    (hv1 : m (table1 D m root (PX 2 va) + 8 * PX 1 va) &&& PTE_V ≠ 0) :
    PathTo D m root va (table1 D m root (PX 2 va)) (table0 D m root (PX 2 va) (PX 1 va)) := by
  have h2 := PX_lt 2 va
  have h1 := PX_lt 1 va
  have h0 := PX_lt 0 va
  have hr := hwf.root_aligned
  simp only [PGSIZE] at hD hr
  have ht1 : table1 D m root (PX 2 va) % 4096 = 0 := child_aligned D _ hD
  have ht0 : table0 D m root (PX 2 va) (PX 1 va) % 4096 = 0 := child_aligned D _ hD
  have n0 := hwf.table0_ne_root _ _ h2 h1 hv2 hv1
  have n01 := hwf.table0_ne_table1 _ _ _ h2 h1 h2 hv2 hv1 hv2
  exact ⟨hv2, rfl, hv1, rfl, by omega, by omega⟩

/-- C17. A successful unmap touches one entry and one frame only: in a
well-formed table with `va` mapped, `vm_unmap(root, va)` returns 0, hands to
`kfree` the one pointer `P2V(PTE2PA(e))` of the old level-0 entry `e`, sets
that entry to 0 and changes no other memory cell; the level-2 and level-1
entries of `va` stay valid (no pruning), and a following `vm_map` on the same
`va` returns 0 without calling `kalloc`. -/
theorem vm_unmap_one_entry (D : Nat) (s : KState) (root va : Nat) (hD : D % PGSIZE = 0)
    (hwf : WellFormed D s.mem root)
    (hv2 : s.mem (root + 8 * PX 2 va) &&& PTE_V ≠ 0)
    (hv1 : s.mem (table1 D s.mem root (PX 2 va) + 8 * PX 1 va) &&& PTE_V ≠ 0)
    (hv0 : s.mem (table0 D s.mem root (PX 2 va) (PX 1 va) + 8 * PX 0 va) &&& PTE_V ≠ 0) :
    vm_unmap D s root va = (0, { s with
        freed := s.freed ++
          [P2V D (PTE2PA (s.mem (table0 D s.mem root (PX 2 va) (PX 1 va) + 8 * PX 0 va)))],
        mem := store s.mem (table0 D s.mem root (PX 2 va) (PX 1 va) + 8 * PX 0 va) 0 }) ∧
      (vm_unmap D s root va).2.mem (table0 D s.mem root (PX 2 va) (PX 1 va) + 8 * PX 0 va) = 0 ∧
      (∀ x, x ≠ table0 D s.mem root (PX 2 va) (PX 1 va) + 8 * PX 0 va →
        (vm_unmap D s root va).2.mem x = s.mem x) ∧
      (vm_unmap D s root va).2.mem (root + 8 * PX 2 va) &&& PTE_V ≠ 0 ∧
      (vm_unmap D s root va).2.mem (table1 D s.mem root (PX 2 va) + 8 * PX 1 va) &&& PTE_V ≠ 0 ∧
      (∀ pa perm, (vm_map D (vm_unmap D s root va).2 root va pa perm).1 = 0 ∧
        (vm_map D (vm_unmap D s root va).2 root va pa perm).2.pending = s.pending) := by
  have hu : vm_unmap D s root va = (0, { s with
      freed := s.freed ++
        [P2V D (PTE2PA (s.mem (table0 D s.mem root (PX 2 va) (PX 1 va) + 8 * PX 0 va)))],
      mem := store s.mem (table0 D s.mem root (PX 2 va) (PX 1 va) + 8 * PX 0 va) 0 }) := by
    unfold vm_unmap
    rw [descend_valid_valid D s.mem root va hv2 hv1]
    simp only
    rw [if_neg hv0]
    rfl
  have hp := (path_of_valid D s.mem root va hD hwf hv2 hv1).store_leaf 0
  rw [hu]
  refine ⟨rfl, store_same _ _ _, fun x hx => store_other _ _ _ _ hx, hp.valid2, hp.valid1, ?_⟩
  intro pa perm
  rw [vm_map_of_path D _ root va pa perm _ _ hp]
  simp only
  rw [store_same]
  simp

/-! ## Installing a table in a root slot -/

theorem isTable_table1 (D : Nat) (m : Mem) (root i : Nat) (hi : i < 512)
    (hv : m (root + 8 * i) &&& PTE_V ≠ 0) : IsTable D m root (table1 D m root i) :=
  Or.inr (Or.inl ⟨i, hi, hv, rfl⟩)

theorem isTable_table0 (D : Nat) (m : Mem) (root i j : Nat) (hi : i < 512) (hj : j < 512)
    (hv : m (root + 8 * i) &&& PTE_V ≠ 0) (hv1 : m (table1 D m root i + 8 * j) &&& PTE_V ≠ 0) :
    IsTable D m root (table0 D m root i j) :=
  Or.inr (Or.inr ⟨i, j, hi, hj, hv, hv1, rfl⟩)

theorem table1_aligned (D : Nat) (m : Mem) (root i : Nat) (hD : D % 4096 = 0) :
    table1 D m root i % 4096 = 0 := child_aligned D _ hD

theorem table0_aligned (D : Nat) (m : Mem) (root i j : Nat) (hD : D % 4096 = 0) :
    table0 D m root i j % 4096 = 0 := child_aligned D _ hD

theorem zero_not_valid : ¬ (0 : Nat) &&& PTE_V ≠ 0 := by simp

theorem install_table_cell (D : Nat) (m : Mem) (cell p : Nat) :
    install_table D m cell p cell = (PA2PTE (V2P D p) ||| PTE_V) % 2 ^ 64 :=
  store_same _ _ _

theorem install_table_frame (D : Nat) (m : Mem) (cell p x : Nat) (hx : x ≠ cell)
    (h1 : p ≤ x) (h2 : x < p + 4096) : install_table D m cell p x = 0 := by
  unfold install_table
  rw [store_other _ _ _ _ hx, memset_zero_in _ _ _ _ h1 (by simp only [PGSIZE]; exact h2)]

theorem install_table_other (D : Nat) (m : Mem) (cell p x : Nat) (hx : x ≠ cell)
    (h : x < p ∨ p + 4096 ≤ x) : install_table D m cell p x = m x := by
  unfold install_table
  rw [store_other _ _ _ _ hx, memset_zero_out _ _ _ _ (by simp only [PGSIZE]; exact h)]

theorem root_install_cell {D : Nat} {m : Mem} {root i2 p : Nat} (hr : root % 4096 = 0) (hi2 : i2 < 512) (hp : FreshFrame D m root p)
    (i : Nat) (hi : i < 512) :
    install_table D m (root + 8 * i2) p (root + 8 * i)
      = if i = i2 then (PA2PTE (V2P D p) ||| PTE_V) % 2 ^ 64 else m (root + 8 * i) := by
  have pa := hp.aligned
  have pr : p ≠ root := fun e => hp.not_table (Or.inl e)
  simp only [PGSIZE] at pa
  by_cases e : i = i2
  · rw [if_pos e, e]; exact install_table_cell _ _ _ _
  · rw [if_neg e]; exact install_table_other _ _ _ _ _ (by omega) (by omega)

theorem root_install_valid {D : Nat} {m : Mem} {root i2 p : Nat} (hr : root % 4096 = 0)
    (hi2 : i2 < 512) (hp : FreshFrame D m root p) (i : Nat) (hi : i < 512) :
    install_table D m (root + 8 * i2) p (root + 8 * i) &&& PTE_V ≠ 0
      ↔ (i = i2 ∨ m (root + 8 * i) &&& PTE_V ≠ 0) := by
  rw [root_install_cell hr hi2 hp i hi]
  by_cases e : i = i2
  · rw [if_pos e]
    exact ⟨fun _ => Or.inl e, fun _ => link_valid_any _⟩
  · rw [if_neg e]
    exact ⟨fun h => Or.inr h, fun h => h.resolve_left e⟩

theorem root_install_table1 {D : Nat} {m : Mem} {root i2 p : Nat} (hD : D % 4096 = 0) (hr : root % 4096 = 0) (hi2 : i2 < 512)
    (hp : FreshFrame D m root p) (i : Nat) (hi : i < 512) :
    table1 D (install_table D m (root + 8 * i2) p) root i
      = if i = i2 then p else table1 D m root i := by
  unfold table1
  rw [root_install_cell hr hi2 hp i hi]
  by_cases e : i = i2
  · rw [if_pos e, if_pos e]
    exact link_child D p hD hp.in_range (by have := hp.aligned; simpa [PGSIZE] using this)
  · rw [if_neg e, if_neg e]

/-- After the install in root slot `i2`, the new table is empty. -/
theorem root_install_new {D : Nat} {m : Mem} {root i2 p : Nat} (hr : root % 4096 = 0)
    (hi2 : i2 < 512) (hp : FreshFrame D m root p) (j : Nat) (hj : j < 512) :
    install_table D m (root + 8 * i2) p (p + 8 * j) = 0 := by
  have pa := hp.aligned
  have pr : p ≠ root := fun e => hp.not_table (Or.inl e)
  simp only [PGSIZE] at pa
  exact install_table_frame _ _ _ _ _ (by omega) (by omega) (by omega)

/-- After the install in root slot `i2`, the cells of every other table of
the tree are as before. -/
theorem root_install_keeps {D : Nat} {m : Mem} {root i2 p : Nat} (hD : D % 4096 = 0)
    (ht : TreeShaped D m root) (hi2 : i2 < 512) (hp : FreshFrame D m root p)
    (t : Nat) (htab : IsTable D m root t) (htr : t ≠ root) (j : Nat) (hj : j < 512) :
    install_table D m (root + 8 * i2) p (t + 8 * j) = m (t + 8 * j) := by
  have pa := hp.aligned
  have hr := ht.wf.root_aligned
  simp only [PGSIZE] at pa hr
  have tp : t ≠ p := fun e => hp.not_table (e ▸ htab)
  have ta : t % 4096 = 0 := by
    rcases htab with e | ⟨i, _, _, e⟩ | ⟨i, k, _, _, _, _, e⟩
    · exact absurd e htr
    · rw [e]; exact table1_aligned D m root i hD
    · rw [e]; exact table0_aligned D m root i k hD
  exact install_table_other _ _ _ _ _ (by omega) (by omega)

/-- After the install in root slot `i2`, the level-0 tables are as before. -/
theorem root_install_table0 {D : Nat} {m : Mem} {root i2 p : Nat} (hD : D % 4096 = 0)
    (ht : TreeShaped D m root) (hi2 : i2 < 512) (hp : FreshFrame D m root p)
    (i j : Nat) (hi : i < 512) (hj : j < 512) (hne : i ≠ i2)
    (hv : m (root + 8 * i) &&& PTE_V ≠ 0) :
    install_table D m (root + 8 * i2) p
        (table1 D (install_table D m (root + 8 * i2) p) root i + 8 * j)
      = m (table1 D m root i + 8 * j) ∧
    table0 D (install_table D m (root + 8 * i2) p) root i j = table0 D m root i j := by
  have hr := ht.wf.root_aligned
  simp only [PGSIZE] at hr
  have e1 := root_install_table1 (m := m) hD hr hi2 hp i hi
  rw [if_neg hne] at e1
  have ec : install_table D m (root + 8 * i2) p
      (table1 D (install_table D m (root + 8 * i2) p) root i + 8 * j)
      = m (table1 D m root i + 8 * j) := by
    rw [e1]
    exact root_install_keeps hD ht hi2 hp _ (isTable_table1 D m root i hi hv)
      (ht.wf.table1_ne_root i hi hv) j hj
  refine ⟨ec, ?_⟩
  unfold table0
  rw [ec]

/-- After the install in root slot `i2`, slot `i2` has no valid entry below. -/
theorem root_install_new_invalid {D : Nat} {m : Mem} {root i2 p : Nat} (hD : D % 4096 = 0)
    (hr : root % 4096 = 0) (hi2 : i2 < 512) (hp : FreshFrame D m root p) (j : Nat) (hj : j < 512) :
    ¬ install_table D m (root + 8 * i2) p
      (table1 D (install_table D m (root + 8 * i2) p) root i2 + 8 * j) &&& PTE_V ≠ 0 := by
  have e1 := root_install_table1 (m := m) hD hr hi2 hp i2 hi2
  rw [if_pos rfl] at e1
  rw [e1, root_install_new hr hi2 hp j hj]
  exact zero_not_valid

/-- After the install in an empty root slot, a valid root entry other than
the new one was valid before. -/
theorem root_install_old_valid {D : Nat} {m : Mem} {root i2 p : Nat}
    (hr : root % 4096 = 0) (hi2 : i2 < 512) (hp : FreshFrame D m root p) (i : Nat) (hi : i < 512)
    (hne : i ≠ i2) (hv : install_table D m (root + 8 * i2) p (root + 8 * i) &&& PTE_V ≠ 0) :
    m (root + 8 * i) &&& PTE_V ≠ 0 :=
  ((root_install_valid hr hi2 hp i hi).mp hv).resolve_left hne

/-- Installing a fresh table in an empty root slot keeps the tree a tree. -/
theorem root_install_tree {D : Nat} {m : Mem} {root i2 p : Nat} (hD : D % 4096 = 0)
    (ht : TreeShaped D m root) (hi2 : i2 < 512) (hp : FreshFrame D m root p) :
    TreeShaped D (install_table D m (root + 8 * i2) p) root := by
  have hr := ht.wf.root_aligned
  simp only [PGSIZE] at hr
  have pr : p ≠ root := fun e => hp.not_table (Or.inl e)
  have T1 := fun i hi => root_install_table1 (m := m) hD hr hi2 hp i hi
  have OV := fun i hi hne hv => root_install_old_valid (D := D) (m := m) hr hi2 hp i hi hne hv
  have NI := fun j hj => root_install_new_invalid (m := m) hD hr hi2 hp j hj
  have T0 := fun i j hi hj hne hv => root_install_table0 (m := m) hD ht hi2 hp i j hi hj hne hv
  refine ⟨⟨ht.wf.root_aligned, ?_, ?_, ?_⟩, ?_, ?_⟩
  · intro i hi hv
    by_cases e : i = i2
    · rw [T1 i hi, if_pos e]; exact pr
    · rw [T1 i hi, if_neg e]; exact ht.wf.table1_ne_root i hi (OV i hi e hv)
  · intro i j hi hj hv hv1
    by_cases e : i = i2
    · subst e; exact absurd hv1 (NI j hj)
    · have hvo := OV i hi e hv
      have h0 := T0 i j hi hj e hvo
      rw [h0.1] at hv1
      rw [h0.2]
      exact ht.wf.table0_ne_root i j hi hj hvo hv1
  · intro i j k hi hj hk hv hv1 hvk
    by_cases e : i = i2
    · subst e; exact absurd hv1 (NI j hj)
    · have hvo := OV i hi e hv
      have h0 := T0 i j hi hj e hvo
      rw [h0.1] at hv1
      rw [h0.2, T1 k hk]
      by_cases ek : k = i2
      · rw [if_pos ek]
        exact fun e2 => hp.not_table (e2 ▸ isTable_table0 D m root i j hi hj hvo hv1)
      · rw [if_neg ek]
        exact ht.wf.table0_ne_table1 i j k hi hj hk hvo hv1 (OV k hk ek hvk)
  · intro i k hi hk hv hvk
    rw [T1 i hi, T1 k hk]
    by_cases e : i = i2
    · by_cases ek : k = i2
      · intro _; rw [e, ek]
      · rw [if_pos e, if_neg ek]
        intro e2
        exact absurd (e2 ▸ isTable_table1 D m root k hk (OV k hk ek hvk)) hp.not_table
    · by_cases ek : k = i2
      · rw [if_neg e, if_pos ek]
        intro e2
        exact absurd (e2 ▸ isTable_table1 D m root i hi (OV i hi e hv)) hp.not_table
      · rw [if_neg e, if_neg ek]
        exact ht.table1_inj i k hi hk (OV i hi e hv) (OV k hk ek hvk)
  · intro i j k l hi hj hk hl hv hv1 hvk hvl
    by_cases e : i = i2
    · subst e; exact absurd hv1 (NI j hj)
    · by_cases ek : k = i2
      · subst ek; exact absurd hvl (NI l hl)
      · have hvo := OV i hi e hv
        have hko := OV k hk ek hvk
        have h0 := T0 i j hi hj e hvo
        have h1 := T0 k l hk hl ek hko
        rw [h0.1] at hv1
        rw [h1.1] at hvl
        rw [h0.2, h1.2]
        exact ht.table0_inj i j k l hi hj hk hl hvo hv1 hko hvl

/-- After the install in root slot `i2`, the tables are the old ones and `p`. -/
theorem root_install_isTable {D : Nat} {m : Mem} {root i2 p : Nat} (hD : D % 4096 = 0)
    (ht : TreeShaped D m root) (hi2 : i2 < 512) (hp : FreshFrame D m root p) (q : Nat)
    (hq : IsTable D (install_table D m (root + 8 * i2) p) root q) :
    q = p ∨ IsTable D m root q := by
  have hr := ht.wf.root_aligned
  simp only [PGSIZE] at hr
  have T1 := fun i hi => root_install_table1 (m := m) hD hr hi2 hp i hi
  have OV := fun i hi hne hv => root_install_old_valid (D := D) (m := m) hr hi2 hp i hi hne hv
  have NI := fun j hj => root_install_new_invalid (m := m) hD hr hi2 hp j hj
  have T0 := fun i j hi hj hne hv => root_install_table0 (m := m) hD ht hi2 hp i j hi hj hne hv
  rcases hq with e | ⟨i, hi, hv, e⟩ | ⟨i, j, hi, hj, hv, hv1, e⟩
  · exact Or.inr (Or.inl e)
  · rw [T1 i hi] at e
    by_cases ei : i = i2
    · rw [if_pos ei] at e; exact Or.inl e
    · rw [if_neg ei] at e
      exact Or.inr (e ▸ isTable_table1 D m root i hi (OV i hi ei hv))
  · by_cases ei : i = i2
    · subst ei; exact absurd hv1 (NI j hj)
    · have hvo := OV i hi ei hv
      have h0 := T0 i j hi hj ei hvo
      rw [h0.1] at hv1
      rw [h0.2] at e
      exact Or.inr (e ▸ isTable_table0 D m root i j hi hj hvo hv1)

theorem FreshFrames.head {D : Nat} {m : Mem} {root p : Nat} {rest : List Nat}
    (h : FreshFrames D m root (p :: rest)) (hp : p ≠ NULL) : FreshFrame D m root p :=
  ⟨h.aligned p (List.mem_cons_self p rest), h.in_range p (List.mem_cons_self p rest),
    h.not_table p (List.mem_cons_self p rest) hp⟩

/-- Dropping the first pointer of the script keeps the script fresh. -/
theorem FreshFrames.tail {D : Nat} {m : Mem} {root p : Nat} {rest : List Nat}
    (h : FreshFrames D m root (p :: rest)) : FreshFrames D m root rest :=
  ⟨fun q hq => h.aligned q (List.mem_cons_of_mem p hq),
    fun q hq => h.in_range q (List.mem_cons_of_mem p hq),
    fun q hq hq0 => h.not_table q (List.mem_cons_of_mem p hq) hq0,
    (List.pairwise_cons.mp h.distinct).2⟩

/-- After a table was installed for the head `p` of the script, the rest of
the script is fresh for the new tree, provided the only new table is `p`. -/
theorem FreshFrames.after_install {D : Nat} {m m1 : Mem} {root p : Nat} {rest : List Nat}
    (h : FreshFrames D m root (p :: rest)) (hp : p ≠ NULL)
    (hnew : ∀ q, IsTable D m1 root q → q = p ∨ IsTable D m root q) :
    FreshFrames D m1 root rest := by
  refine ⟨h.tail.aligned, h.tail.in_range, ?_, h.tail.distinct⟩
  intro q hq hq0 htab
  rcases hnew q htab with e | e
  · exact (List.pairwise_cons.mp h.distinct).1 q hq hp e.symm
  · exact h.not_table q (List.mem_cons_of_mem p hq) hq0 e

/-! ## The level-0 entry of a virtual address -/

theorem pte_of_invalid2 (D : Nat) (m : Mem) (root va : Nat)
    (hv2 : ¬ m (root + 8 * PX 2 va) &&& PTE_V ≠ 0) : pte_of D m root va = 0 := by
  unfold pte_of
  rw [descend_invalid D 1 m root va hv2]

theorem pte_of_invalid1 (D : Nat) (m : Mem) (root va : Nat)
    (hv2 : m (root + 8 * PX 2 va) &&& PTE_V ≠ 0)
    (hv1 : ¬ m (table1 D m root (PX 2 va) + 8 * PX 1 va) &&& PTE_V ≠ 0) :
    pte_of D m root va = 0 := by
  unfold pte_of
  rw [descend_valid_invalid D m root va hv2 hv1]

theorem pte_of_valid (D : Nat) (m : Mem) (root va : Nat)
    (hv2 : m (root + 8 * PX 2 va) &&& PTE_V ≠ 0)
    (hv1 : m (table1 D m root (PX 2 va) + 8 * PX 1 va) &&& PTE_V ≠ 0) :
    pte_of D m root va = m (table0 D m root (PX 2 va) (PX 1 va) + 8 * PX 0 va) := by
  unfold pte_of
  rw [descend_valid_valid D m root va hv2 hv1]

/-- `vm_inverse_of_map` decodes the level-0 entry of `va`. -/
theorem vm_inverse_of_map_eq (D : Nat) (m : Mem) (root va : Nat) :
    vm_inverse_of_map D m root va = PTE2PA (pte_of D m root va) := by
  unfold vm_inverse_of_map pte_of
  cases descend D 2 m root va with
  | none => show NULL = PTE2PA 0; decide
  | some t => rfl

/-- Installing a fresh table in an empty root slot changes the level-0 entry
of no virtual address. -/
theorem root_install_pte_of {D : Nat} {m : Mem} {root i2 p : Nat} (hD : D % 4096 = 0)
    (ht : TreeShaped D m root) (hi2 : i2 < 512) (hp : FreshFrame D m root p)
    (hv : ¬ m (root + 8 * i2) &&& PTE_V ≠ 0) (va : Nat) :
    pte_of D (install_table D m (root + 8 * i2) p) root va = pte_of D m root va := by
  have hr := ht.wf.root_aligned
  simp only [PGSIZE] at hr
  have h2 := PX_lt 2 va
  have h1 := PX_lt 1 va
  have h0 := PX_lt 0 va
  have T1 := root_install_table1 (m := m) hD hr hi2 hp (PX 2 va) h2
  by_cases e : PX 2 va = i2
  · subst e
    have hvn : install_table D m (root + 8 * PX 2 va) p (root + 8 * PX 2 va) &&& PTE_V ≠ 0 :=
      (root_install_valid hr hi2 hp _ h2).mpr (Or.inl rfl)
    have hni := root_install_new_invalid (m := m) hD hr hi2 hp (PX 1 va) h1
    rw [pte_of_invalid1 D _ root va hvn hni, pte_of_invalid2 D m root va hv]
  · by_cases hv2 : m (root + 8 * PX 2 va) &&& PTE_V ≠ 0
    · have hvn : install_table D m (root + 8 * i2) p (root + 8 * PX 2 va) &&& PTE_V ≠ 0 :=
        (root_install_valid hr hi2 hp _ h2).mpr (Or.inr hv2)
      have h0' := root_install_table0 (m := m) hD ht hi2 hp (PX 2 va) (PX 1 va) h2 h1 e hv2
      by_cases hv1 : m (table1 D m root (PX 2 va) + 8 * PX 1 va) &&& PTE_V ≠ 0
      · have hv1n := hv1
        rw [← h0'.1] at hv1n
        rw [pte_of_valid D _ root va hvn hv1n, pte_of_valid D m root va hv2 hv1, h0'.2]
        exact root_install_keeps hD ht hi2 hp _
          (isTable_table0 D m root _ _ h2 h1 hv2 hv1)
          (ht.wf.table0_ne_root _ _ h2 h1 hv2 hv1) _ h0
      · have hv1n := hv1
        rw [← h0'.1] at hv1n
        rw [pte_of_invalid1 D _ root va hvn hv1n, pte_of_invalid1 D m root va hv2 hv1]
    · have hvn : ¬ install_table D m (root + 8 * i2) p (root + 8 * PX 2 va) &&& PTE_V ≠ 0 :=
        fun h => hv2 (root_install_old_valid hr hi2 hp _ h2 e h)
      rw [pte_of_invalid2 D _ root va hvn, pte_of_invalid2 D m root va hv2]

/-! ## Installing a table in a level-1 slot -/

/-- The install in slot `i1` of the level-1 table of root slot `i2` leaves the
cells of every other table of the tree as they were. -/
theorem l1_install_keeps {D : Nat} {m : Mem} {root i2 i1 q : Nat} (hD : D % 4096 = 0)
    (ht : TreeShaped D m root) (hi1 : i1 < 512) (hq : FreshFrame D m root q)
    (t : Nat) (htab : IsTable D m root t) (hne : t ≠ table1 D m root i2) (j : Nat) (hj : j < 512) :
    install_table D m (table1 D m root i2 + 8 * i1) q (t + 8 * j) = m (t + 8 * j) := by
  have qa := hq.aligned
  have hr := ht.wf.root_aligned
  simp only [PGSIZE] at qa hr
  have tq : t ≠ q := fun e => hq.not_table (e ▸ htab)
  have t1a := table1_aligned D m root i2 hD
  have ta : t % 4096 = 0 := by
    rcases htab with e | ⟨i, _, _, e⟩ | ⟨i, k, _, _, _, _, e⟩
    · rw [e]; exact hr
    · rw [e]; exact table1_aligned D m root i hD
    · rw [e]; exact table0_aligned D m root i k hD
  exact install_table_other _ _ _ _ _ (by omega) (by omega)

theorem l1_install_table1 {D : Nat} {m : Mem} {root i2 i1 q : Nat} (hD : D % 4096 = 0)
    (ht : TreeShaped D m root) (hi2 : i2 < 512) (hi1 : i1 < 512)
    (hv2 : m (root + 8 * i2) &&& PTE_V ≠ 0) (hq : FreshFrame D m root q) (i : Nat) (hi : i < 512) :
    install_table D m (table1 D m root i2 + 8 * i1) q (root + 8 * i) = m (root + 8 * i) ∧
      table1 D (install_table D m (table1 D m root i2 + 8 * i1) q) root i = table1 D m root i := by
  have ec : install_table D m (table1 D m root i2 + 8 * i1) q (root + 8 * i) = m (root + 8 * i) :=
    l1_install_keeps hD ht hi1 hq root (Or.inl rfl) (ht.wf.table1_ne_root i2 hi2 hv2).symm i hi
  refine ⟨ec, ?_⟩
  show P2V D (PTE2PA (install_table D m (table1 D m root i2 + 8 * i1) q (root + 8 * i)))
    = P2V D (PTE2PA (m (root + 8 * i)))
  rw [ec]

theorem l1_install_cell {D : Nat} {m : Mem} {root i2 i1 q : Nat} (hD : D % 4096 = 0)
    (ht : TreeShaped D m root) (hi2 : i2 < 512) (hi1 : i1 < 512)
    (hv2 : m (root + 8 * i2) &&& PTE_V ≠ 0) (hq : FreshFrame D m root q)
    (i j : Nat) (hi : i < 512) (hj : j < 512) (hv : m (root + 8 * i) &&& PTE_V ≠ 0) :
    install_table D m (table1 D m root i2 + 8 * i1) q (table1 D m root i + 8 * j)
      = if i = i2 ∧ j = i1 then (PA2PTE (V2P D q) ||| PTE_V) % 2 ^ 64
        else m (table1 D m root i + 8 * j) := by
  by_cases e : i = i2 ∧ j = i1
  · rw [if_pos e, e.1, e.2]
    exact install_table_cell _ _ _ _
  · rw [if_neg e]
    by_cases ei : i = i2
    · subst ei
      have ej : j ≠ i1 := fun h => e ⟨rfl, h⟩
      have qa := hq.aligned
      have t1a := table1_aligned D m root i hD
      simp only [PGSIZE] at qa
      have tq : table1 D m root i ≠ q :=
        fun e2 => hq.not_table (e2 ▸ isTable_table1 D m root i hi hv)
      exact install_table_other _ _ _ _ _ (by omega) (by omega)
    · exact l1_install_keeps hD ht hi1 hq _ (isTable_table1 D m root i hi hv)
        (fun e2 => ei (ht.table1_inj i i2 hi hi2 hv hv2 e2)) j hj

/-- After the install, the new level-0 table is empty. -/
theorem l1_install_new {D : Nat} {m : Mem} {root i2 i1 q : Nat} (hD : D % 4096 = 0)
    (hi2 : i2 < 512) (hi1 : i1 < 512)
    (hv2 : m (root + 8 * i2) &&& PTE_V ≠ 0) (hq : FreshFrame D m root q) (k : Nat) (hk : k < 512) :
    install_table D m (table1 D m root i2 + 8 * i1) q (q + 8 * k) = 0 := by
  have qa := hq.aligned
  have t1a := table1_aligned D m root i2 hD
  simp only [PGSIZE] at qa
  have tq : table1 D m root i2 ≠ q :=
    fun e2 => hq.not_table (e2 ▸ isTable_table1 D m root i2 hi2 hv2)
  exact install_table_frame _ _ _ _ _ (by omega) (by omega) (by omega)

theorem l1_install_table0 {D : Nat} {m : Mem} {root i2 i1 q : Nat} (hD : D % 4096 = 0)
    (ht : TreeShaped D m root) (hi2 : i2 < 512) (hi1 : i1 < 512)
    (hv2 : m (root + 8 * i2) &&& PTE_V ≠ 0) (hq : FreshFrame D m root q)
    (i j : Nat) (hi : i < 512) (hj : j < 512) (hv : m (root + 8 * i) &&& PTE_V ≠ 0) :
    install_table D m (table1 D m root i2 + 8 * i1) q
        (table1 D (install_table D m (table1 D m root i2 + 8 * i1) q) root i + 8 * j)
      = (if i = i2 ∧ j = i1 then (PA2PTE (V2P D q) ||| PTE_V) % 2 ^ 64
        else m (table1 D m root i + 8 * j)) ∧
    table0 D (install_table D m (table1 D m root i2 + 8 * i1) q) root i j
      = if i = i2 ∧ j = i1 then q else table0 D m root i j := by
  have e1 := (l1_install_table1 hD ht hi2 hi1 hv2 hq i hi).2
  have ec := l1_install_cell hD ht hi2 hi1 hv2 hq i j hi hj hv
  have ec2 : install_table D m (table1 D m root i2 + 8 * i1) q
      (table1 D (install_table D m (table1 D m root i2 + 8 * i1) q) root i + 8 * j)
      = (if i = i2 ∧ j = i1 then (PA2PTE (V2P D q) ||| PTE_V) % 2 ^ 64
        else m (table1 D m root i + 8 * j)) := by
    rw [e1]; exact ec
  refine ⟨ec2, ?_⟩
  show P2V D (PTE2PA (install_table D m (table1 D m root i2 + 8 * i1) q
      (table1 D (install_table D m (table1 D m root i2 + 8 * i1) q) root i + 8 * j))) = _
  rw [ec2]
  by_cases e : i = i2 ∧ j = i1
  · rw [if_pos e, if_pos e]
    exact link_child D q hD hq.in_range (by have := hq.aligned; simpa [PGSIZE] using this)
  · rw [if_neg e, if_neg e]
    rfl

/-- After the install in an empty level-1 slot, the new level-0 table has no
valid entry. -/
theorem l1_install_new_invalid {D : Nat} {m : Mem} {root i2 i1 q : Nat} (hD : D % 4096 = 0)
    (ht : TreeShaped D m root) (hi2 : i2 < 512) (hi1 : i1 < 512)
    (hv2 : m (root + 8 * i2) &&& PTE_V ≠ 0) (hq : FreshFrame D m root q) (k : Nat) (hk : k < 512) :
    ¬ install_table D m (table1 D m root i2 + 8 * i1) q
      (table0 D (install_table D m (table1 D m root i2 + 8 * i1) q) root i2 i1 + 8 * k)
        &&& PTE_V ≠ 0 := by
  have e0 := (l1_install_table0 hD ht hi2 hi1 hv2 hq i2 i1 hi2 hi1 hv2).2
  rw [if_pos ⟨rfl, rfl⟩] at e0
  rw [e0, l1_install_new hD hi2 hi1 hv2 hq k hk]
  exact zero_not_valid

/-- After the install in a level-1 slot, a valid level-1 entry other than the
new one was valid before. -/
theorem l1_install_old_valid {D : Nat} {m : Mem} {root i2 i1 q : Nat} (hD : D % 4096 = 0)
    (ht : TreeShaped D m root) (hi2 : i2 < 512) (hi1 : i1 < 512)
    (hv2 : m (root + 8 * i2) &&& PTE_V ≠ 0) (hq : FreshFrame D m root q)
    (i j : Nat) (hi : i < 512) (hj : j < 512) (hv : m (root + 8 * i) &&& PTE_V ≠ 0)
    (hne : ¬ (i = i2 ∧ j = i1))
    (hv1 : install_table D m (table1 D m root i2 + 8 * i1) q
      (table1 D (install_table D m (table1 D m root i2 + 8 * i1) q) root i + 8 * j)
        &&& PTE_V ≠ 0) :
    m (table1 D m root i + 8 * j) &&& PTE_V ≠ 0 ∧
      table0 D (install_table D m (table1 D m root i2 + 8 * i1) q) root i j
        = table0 D m root i j := by
  have h0 := l1_install_table0 hD ht hi2 hi1 hv2 hq i j hi hj hv
  rw [if_neg hne, if_neg hne] at h0
  rw [h0.1] at hv1
  exact ⟨hv1, h0.2⟩

/-- Installing a fresh table in a level-1 slot keeps the tree a tree. -/
theorem l1_install_tree {D : Nat} {m : Mem} {root i2 i1 q : Nat} (hD : D % 4096 = 0)
    (ht : TreeShaped D m root) (hi2 : i2 < 512) (hi1 : i1 < 512)
    (hv2 : m (root + 8 * i2) &&& PTE_V ≠ 0) (hq : FreshFrame D m root q) :
    TreeShaped D (install_table D m (table1 D m root i2 + 8 * i1) q) root := by
  have qr : q ≠ root := fun e => hq.not_table (Or.inl e)
  have R := fun i hi => l1_install_table1 hD ht hi2 hi1 hv2 hq i hi
  have T0 := fun i j hi hj hv => l1_install_table0 hD ht hi2 hi1 hv2 hq i j hi hj hv
  have OV := fun i j hi hj hv hne hv1 =>
    l1_install_old_valid hD ht hi2 hi1 hv2 hq i j hi hj hv hne hv1
  refine ⟨⟨ht.wf.root_aligned, ?_, ?_, ?_⟩, ?_, ?_⟩
  · intro i hi hv
    rw [(R i hi).1] at hv
    rw [(R i hi).2]
    exact ht.wf.table1_ne_root i hi hv
  · intro i j hi hj hv hv1
    rw [(R i hi).1] at hv
    by_cases e : i = i2 ∧ j = i1
    · rw [(T0 i j hi hj hv).2, if_pos e]; exact qr
    · obtain ⟨ho, e0⟩ := OV i j hi hj hv e hv1
      rw [e0]
      exact ht.wf.table0_ne_root i j hi hj hv ho
  · intro i j k hi hj hk hv hv1 hvk
    rw [(R i hi).1] at hv
    rw [(R k hk).1] at hvk
    rw [(R k hk).2]
    by_cases e : i = i2 ∧ j = i1
    · rw [(T0 i j hi hj hv).2, if_pos e]
      exact fun e2 => hq.not_table (e2 ▸ isTable_table1 D m root k hk hvk)
    · obtain ⟨ho, e0⟩ := OV i j hi hj hv e hv1
      rw [e0]
      exact ht.wf.table0_ne_table1 i j k hi hj hk hv ho hvk
  · intro i k hi hk hv hvk
    rw [(R i hi).1] at hv
    rw [(R k hk).1] at hvk
    rw [(R i hi).2, (R k hk).2]
    exact ht.table1_inj i k hi hk hv hvk
  · intro i j k l hi hj hk hl hv hv1 hvk hvl
    rw [(R i hi).1] at hv
    rw [(R k hk).1] at hvk
    by_cases e : i = i2 ∧ j = i1
    · by_cases ek : k = i2 ∧ l = i1
      · intro _; exact ⟨e.1.trans ek.1.symm, e.2.trans ek.2.symm⟩
      · obtain ⟨ho, e0⟩ := OV k l hk hl hvk ek hvl
        rw [(T0 i j hi hj hv).2, if_pos e, e0]
        intro e2
        exact absurd (e2 ▸ isTable_table0 D m root k l hk hl hvk ho) hq.not_table
    · obtain ⟨ho, e0⟩ := OV i j hi hj hv e hv1
      by_cases ek : k = i2 ∧ l = i1
      · rw [e0, (T0 k l hk hl hvk).2, if_pos ek]
        intro e2
        exact absurd (e2 ▸ isTable_table0 D m root i j hi hj hv ho) hq.not_table
      · obtain ⟨hko, ek0⟩ := OV k l hk hl hvk ek hvl
        rw [e0, ek0]
        exact ht.table0_inj i j k l hi hj hk hl hv ho hvk hko

/-- After the install in a level-1 slot, the tables are the old ones and `q`. -/
theorem l1_install_isTable {D : Nat} {m : Mem} {root i2 i1 q : Nat} (hD : D % 4096 = 0)
    (ht : TreeShaped D m root) (hi2 : i2 < 512) (hi1 : i1 < 512)
    (hv2 : m (root + 8 * i2) &&& PTE_V ≠ 0) (hq : FreshFrame D m root q) (x : Nat)
    (hx : IsTable D (install_table D m (table1 D m root i2 + 8 * i1) q) root x) :
    x = q ∨ IsTable D m root x := by
  have R := fun i hi => l1_install_table1 hD ht hi2 hi1 hv2 hq i hi
  have T0 := fun i j hi hj hv => l1_install_table0 hD ht hi2 hi1 hv2 hq i j hi hj hv
  rcases hx with e | ⟨i, hi, hv, e⟩ | ⟨i, j, hi, hj, hv, hv1, e⟩
  · exact Or.inr (Or.inl e)
  · rw [(R i hi).1] at hv
    rw [(R i hi).2] at e
    exact Or.inr (e ▸ isTable_table1 D m root i hi hv)
  · rw [(R i hi).1] at hv
    by_cases ei : i = i2 ∧ j = i1
    · rw [(T0 i j hi hj hv).2, if_pos ei] at e
      exact Or.inl e
    · obtain ⟨ho, e0⟩ := l1_install_old_valid hD ht hi2 hi1 hv2 hq i j hi hj hv ei hv1
      rw [e0] at e
      exact Or.inr (e ▸ isTable_table0 D m root i j hi hj hv ho)

/-- Installing a fresh table in an empty level-1 slot changes the level-0
entry of no virtual address. -/
theorem l1_install_pte_of {D : Nat} {m : Mem} {root i2 i1 q : Nat} (hD : D % 4096 = 0)
    (ht : TreeShaped D m root) (hi2 : i2 < 512) (hi1 : i1 < 512)
    (hv2 : m (root + 8 * i2) &&& PTE_V ≠ 0)
    (hv1 : ¬ m (table1 D m root i2 + 8 * i1) &&& PTE_V ≠ 0)
    (hq : FreshFrame D m root q) (va : Nat) :
    pte_of D (install_table D m (table1 D m root i2 + 8 * i1) q) root va = pte_of D m root va := by
  have h2 := PX_lt 2 va
  have h1 := PX_lt 1 va
  have h0 := PX_lt 0 va
  have R := l1_install_table1 hD ht hi2 hi1 hv2 hq (PX 2 va) h2
  by_cases hw2 : m (root + 8 * PX 2 va) &&& PTE_V ≠ 0
  · have hw2n := hw2
    rw [← R.1] at hw2n
    have T0 := l1_install_table0 hD ht hi2 hi1 hv2 hq (PX 2 va) (PX 1 va) h2 h1 hw2
    by_cases e : PX 2 va = i2 ∧ PX 1 va = i1
    · rw [if_pos e, if_pos e] at T0
      have hw1n : install_table D m (table1 D m root i2 + 8 * i1) q
          (table1 D (install_table D m (table1 D m root i2 + 8 * i1) q) root (PX 2 va)
            + 8 * PX 1 va) &&& PTE_V ≠ 0 := by
        rw [T0.1]; exact link_valid_any _
      have hw1 : ¬ m (table1 D m root (PX 2 va) + 8 * PX 1 va) &&& PTE_V ≠ 0 := by
        rw [e.1, e.2]; exact hv1
      rw [pte_of_valid D _ root va hw2n hw1n, pte_of_invalid1 D m root va hw2 hw1, T0.2]
      exact l1_install_new hD hi2 hi1 hv2 hq _ h0
    · rw [if_neg e, if_neg e] at T0
      by_cases hw1 : m (table1 D m root (PX 2 va) + 8 * PX 1 va) &&& PTE_V ≠ 0
      · have hw1n := hw1
        rw [← T0.1] at hw1n
        rw [pte_of_valid D _ root va hw2n hw1n, pte_of_valid D m root va hw2 hw1, T0.2]
        exact l1_install_keeps hD ht hi1 hq _ (isTable_table0 D m root _ _ h2 h1 hw2 hw1)
          (ht.wf.table0_ne_table1 _ _ i2 h2 h1 hi2 hw2 hw1 hv2) _ h0
      · have hw1n := hw1
        rw [← T0.1] at hw1n
        rw [pte_of_invalid1 D _ root va hw2n hw1n, pte_of_invalid1 D m root va hw2 hw1]
  · have hw2n := hw2
    rw [← R.1] at hw2n
    rw [pte_of_invalid2 D _ root va hw2n, pte_of_invalid2 D m root va hw2]

/-! ## Writing a level-0 entry -/

theorem SameInterior.table1_eq {D : Nat} {m m1 : Mem} {root : Nat} (h : SameInterior D m m1 root)
    (i : Nat) (hi : i < 512) : table1 D m1 root i = table1 D m root i := by
  unfold table1
  rw [h.root_cells i hi]

theorem SameInterior.l1_eq {D : Nat} {m m1 : Mem} {root : Nat} (h : SameInterior D m m1 root)
    (i j : Nat) (hi : i < 512) (hj : j < 512) (hv : m (root + 8 * i) &&& PTE_V ≠ 0) :
    m1 (table1 D m1 root i + 8 * j) = m (table1 D m root i + 8 * j) := by
  rw [h.table1_eq i hi]
  exact h.l1_cells i j hi hj hv

theorem SameInterior.table0_eq {D : Nat} {m m1 : Mem} {root : Nat} (h : SameInterior D m m1 root)
    (i j : Nat) (hi : i < 512) (hj : j < 512) (hv : m (root + 8 * i) &&& PTE_V ≠ 0) :
    table0 D m1 root i j = table0 D m root i j := by
  show P2V D (PTE2PA (m1 (table1 D m1 root i + 8 * j))) = _
  rw [h.l1_eq i j hi hj hv]
  rfl

/-- A memory that agrees with a tree on its interior holds the same tree. -/
theorem SameInterior.tree {D : Nat} {m m1 : Mem} {root : Nat} (h : SameInterior D m m1 root)
    (ht : TreeShaped D m root) : TreeShaped D m1 root := by
  refine ⟨⟨ht.wf.root_aligned, ?_, ?_, ?_⟩, ?_, ?_⟩
  · intro i hi hv
    rw [h.root_cells i hi] at hv
    rw [h.table1_eq i hi]
    exact ht.wf.table1_ne_root i hi hv
  · intro i j hi hj hv hv1
    rw [h.root_cells i hi] at hv
    rw [h.l1_eq i j hi hj hv] at hv1
    rw [h.table0_eq i j hi hj hv]
    exact ht.wf.table0_ne_root i j hi hj hv hv1
  · intro i j k hi hj hk hv hv1 hvk
    rw [h.root_cells i hi] at hv
    rw [h.root_cells k hk] at hvk
    rw [h.l1_eq i j hi hj hv] at hv1
    rw [h.table0_eq i j hi hj hv, h.table1_eq k hk]
    exact ht.wf.table0_ne_table1 i j k hi hj hk hv hv1 hvk
  · intro i k hi hk hv hvk
    rw [h.root_cells i hi] at hv
    rw [h.root_cells k hk] at hvk
    rw [h.table1_eq i hi, h.table1_eq k hk]
    exact ht.table1_inj i k hi hk hv hvk
  · intro i j k l hi hj hk hl hv hv1 hvk hvl
    rw [h.root_cells i hi] at hv
    rw [h.root_cells k hk] at hvk
    rw [h.l1_eq i j hi hj hv] at hv1
    rw [h.l1_eq k l hk hl hvk] at hvl
    rw [h.table0_eq i j hi hj hv, h.table0_eq k l hk hl hvk]
    exact ht.table0_inj i j k l hi hj hk hl hv hv1 hvk hvl

theorem SameInterior.isTable {D : Nat} {m m1 : Mem} {root : Nat} (h : SameInterior D m m1 root)
    (x : Nat) (hx : IsTable D m1 root x) : IsTable D m root x := by
  rcases hx with e | ⟨i, hi, hv, e⟩ | ⟨i, j, hi, hj, hv, hv1, e⟩
  · exact Or.inl e
  · rw [h.root_cells i hi] at hv
    rw [h.table1_eq i hi] at e
    exact e ▸ isTable_table1 D m root i hi hv
  · rw [h.root_cells i hi] at hv
    rw [h.l1_eq i j hi hj hv] at hv1
    rw [h.table0_eq i j hi hj hv] at e
    exact e ▸ isTable_table0 D m root i j hi hj hv hv1

theorem SameInterior.fresh {D : Nat} {m m1 : Mem} {root : Nat} (h : SameInterior D m m1 root)
    {script : List Nat} (hf : FreshFrames D m root script) : FreshFrames D m1 root script :=
  ⟨hf.aligned, hf.in_range, fun p hp hp0 htab => hf.not_table p hp hp0 (h.isTable p htab),
    hf.distinct⟩

/-- A store into a cell of a level-0 table leaves the interior of the tree
as it was. -/
theorem leaf_store_sameInterior {D : Nat} {m : Mem} {root i2 i1 : Nat} (hD : D % 4096 = 0)
    (ht : TreeShaped D m root) (hi2 : i2 < 512) (hi1 : i1 < 512)
    (hv2 : m (root + 8 * i2) &&& PTE_V ≠ 0)
    (hv1 : m (table1 D m root i2 + 8 * i1) &&& PTE_V ≠ 0) (k v : Nat) (hk : k < 512) :
    SameInterior D m (store m (table0 D m root i2 i1 + 8 * k) v) root := by
  have hr := ht.wf.root_aligned
  simp only [PGSIZE] at hr
  have t0a := table0_aligned D m root i2 i1 hD
  have n0 := ht.wf.table0_ne_root i2 i1 hi2 hi1 hv2 hv1
  refine ⟨?_, ?_⟩
  · intro i hi
    exact store_other _ _ _ _ (by omega)
  · intro i j hi hj hv
    have t1a := table1_aligned D m root i hD
    have n1 := ht.wf.table0_ne_table1 i2 i1 i hi2 hi1 hi hv2 hv1 hv
    exact store_other _ _ _ _ (by omega)

/-- A store into cell `k` of the level-0 table at path `(i2, i1)` changes the
level-0 entry of the addresses with index triple `(i2, i1, k)` and of no
other address. -/
theorem leaf_store_pte_of {D : Nat} {m : Mem} {root i2 i1 : Nat} (hD : D % 4096 = 0)
    (ht : TreeShaped D m root) (hi2 : i2 < 512) (hi1 : i1 < 512)
    (hv2 : m (root + 8 * i2) &&& PTE_V ≠ 0)
    (hv1 : m (table1 D m root i2 + 8 * i1) &&& PTE_V ≠ 0) (k v : Nat) (hk : k < 512)
    (va : Nat) :
    pte_of D (store m (table0 D m root i2 i1 + 8 * k) v) root va
      = if PX 2 va = i2 ∧ PX 1 va = i1 ∧ PX 0 va = k then v else pte_of D m root va := by
  have h2 := PX_lt 2 va
  have h1 := PX_lt 1 va
  have h0 := PX_lt 0 va
  have hs := leaf_store_sameInterior hD ht hi2 hi1 hv2 hv1 k v hk
  by_cases hw2 : m (root + 8 * PX 2 va) &&& PTE_V ≠ 0
  · have hw2n := hw2
    rw [← hs.root_cells _ h2] at hw2n
    by_cases hw1 : m (table1 D m root (PX 2 va) + 8 * PX 1 va) &&& PTE_V ≠ 0
    · have hw1n := hw1
      rw [← hs.l1_eq _ _ h2 h1 hw2] at hw1n
      rw [pte_of_valid D _ root va hw2n hw1n, pte_of_valid D m root va hw2 hw1,
        hs.table0_eq _ _ h2 h1 hw2]
      by_cases e : PX 2 va = i2 ∧ PX 1 va = i1 ∧ PX 0 va = k
      · rw [if_pos e, e.1, e.2.1, e.2.2]
        exact store_same _ _ _
      · rw [if_neg e]
        have t0a := table0_aligned D m root i2 i1 hD
        have t0b := table0_aligned D m root (PX 2 va) (PX 1 va) hD
        apply store_other
        intro ec
        have et : table0 D m root (PX 2 va) (PX 1 va) = table0 D m root i2 i1 := by omega
        have ei := ht.table0_inj _ _ _ _ h2 h1 hi2 hi1 hw2 hw1 hv2 hv1 et
        exact e ⟨ei.1, ei.2, by omega⟩
    · have hw1n := hw1
      rw [← hs.l1_eq _ _ h2 h1 hw2] at hw1n
      rw [pte_of_invalid1 D _ root va hw2n hw1n, pte_of_invalid1 D m root va hw2 hw1, if_neg]
      rintro ⟨e2, e1, _⟩
      rw [e2, e1] at hw1
      exact hw1 hv1
  · have hw2n := hw2
    rw [← hs.root_cells _ h2] at hw2n
    rw [pte_of_invalid2 D _ root va hw2n, pte_of_invalid2 D m root va hw2, if_neg]
    rintro ⟨e2, _, _⟩
    rw [e2] at hw2
    exact hw2 hv2

/-! ## `vm_map`, one level at a time -/

theorem vm_map_eq_leaf (D : Nat) (s s1 : KState) (root va pa perm t : Nat)
    (h : vm_map_walk D 2 s root va = (some t, s1)) :
    vm_map D s root va pa perm = vm_map_leaf s1 t va pa perm :=
  vm_map_of_walk_some D s s1 root va pa perm t h

theorem vm_map_level1_of_walk (D : Nat) (s : KState) (root t1 va pa perm : Nat) (s1 : KState)
    (h : vm_map_walk D 2 s root va = vm_map_walk D 1 s1 t1 va) :
    vm_map D s root va pa perm = vm_map_level1 D s1 t1 va pa perm := by
  unfold vm_map vm_map_level1
  rw [h]
  rfl

theorem vm_map_top_valid (D : Nat) (s : KState) (root va pa perm : Nat)
    (hv2 : s.mem (root + 8 * PX 2 va) &&& PTE_V ≠ 0) :
    vm_map D s root va pa perm = vm_map_level1 D s (table1 D s.mem root (PX 2 va)) va pa perm :=
  vm_map_level1_of_walk D s root _ va pa perm s (vm_map_walk_valid D 1 s root va hv2)

theorem vm_map_top_oom (D : Nat) (s : KState) (root va pa perm : Nat)
    (hv2 : ¬ s.mem (root + 8 * PX 2 va) &&& PTE_V ≠ 0) (hk : (kalloc s).1 = NULL) :
    vm_map D s root va pa perm = (-1, (kalloc s).2) :=
  vm_map_of_walk_none D s _ root va pa perm (vm_map_walk_oom D 1 s root va hv2 hk)

theorem vm_map_top_alloc (D : Nat) (s : KState) (root va pa perm p : Nat) (rest : List Nat)
    (hv2 : ¬ s.mem (root + 8 * PX 2 va) &&& PTE_V ≠ 0)
    (hp : s.pending = p :: rest) (hp0 : p ≠ NULL) :
    vm_map D s root va pa perm = vm_map_level1 D
      { s with pending := rest, mem := install_table D s.mem (root + 8 * PX 2 va) p }
      p va pa perm :=
  vm_map_level1_of_walk D s root _ va pa perm _
    (vm_map_walk_alloc_top D s root va p rest hv2 hp hp0)

theorem vm_map_level1_valid (D : Nat) (s : KState) (t1 va pa perm : Nat)
    (hv1 : s.mem (t1 + 8 * PX 1 va) &&& PTE_V ≠ 0) :
    vm_map_level1 D s t1 va pa perm
      = vm_map_leaf s (P2V D (PTE2PA (s.mem (t1 + 8 * PX 1 va)))) va pa perm := by
  unfold vm_map_level1
  rw [vm_map_walk_valid D 0 s t1 va hv1, vm_map_walk_zero]

theorem vm_map_level1_oom (D : Nat) (s : KState) (t1 va pa perm : Nat)
    (hv1 : ¬ s.mem (t1 + 8 * PX 1 va) &&& PTE_V ≠ 0) (hk : (kalloc s).1 = NULL) :
    vm_map_level1 D s t1 va pa perm = (-1, (kalloc s).2) := by
  unfold vm_map_level1
  rw [vm_map_walk_oom D 0 s t1 va hv1 hk]

theorem vm_map_level1_alloc (D : Nat) (s : KState) (t1 va pa perm q : Nat) (rest : List Nat)
    (hv1 : ¬ s.mem (t1 + 8 * PX 1 va) &&& PTE_V ≠ 0)
    (hq : s.pending = q :: rest) (hq0 : q ≠ NULL) :
    vm_map_level1 D s t1 va pa perm = vm_map_leaf
      { s with pending := rest, mem := install_table D s.mem (t1 + 8 * PX 1 va) q }
      q va pa perm := by
  unfold vm_map_level1
  rw [vm_map_walk_alloc_low D s t1 va q rest hv1 hq hq0]
  rfl

/-! ## The flag discipline under the three writes of `vm_map` -/

theorem root_install_flags {D : Nat} {m : Mem} {root i2 p : Nat} {S0 : List Nat}
    (hD : D % 4096 = 0) (ht : TreeShaped D m root) (hi2 : i2 < 512) (hp : FreshFrame D m root p)
    (hpS : p ∈ S0) (hp0 : p ≠ NULL) (hf : FlagInv D root S0 m) :
    FlagInv D root S0 (install_table D m (root + 8 * i2) p) := by
  have hr := ht.wf.root_aligned
  simp only [PGSIZE] at hr
  have T1 := fun i hi => root_install_table1 (m := m) hD hr hi2 hp i hi
  have C := fun i hi => root_install_cell (D := D) (m := m) hr hi2 hp i hi
  have OV := fun i hi hne hv => root_install_old_valid (D := D) (m := m) hr hi2 hp i hi hne hv
  have NI := fun j hj => root_install_new_invalid (m := m) hD hr hi2 hp j hj
  have T0 := fun i j hi hj hne hv => root_install_table0 (m := m) hD ht hi2 hp i j hi hj hne hv
  refine ⟨?_, ?_, ?_⟩
  · intro i hi hv
    by_cases e : i = i2
    · rw [C i hi, T1 i hi, if_pos e, if_pos e]
      exact ⟨link_rwx _, hpS, hp0⟩
    · have hvo := OV i hi e hv
      rw [C i hi, T1 i hi, if_neg e, if_neg e]
      exact hf.level2 i hi hvo
  · intro i j hi hj hv hv1
    by_cases e : i = i2
    · subst e; exact absurd hv1 (NI j hj)
    · have hvo := OV i hi e hv
      have h0 := T0 i j hi hj e hvo
      rw [h0.1] at hv1 ⊢
      rw [h0.2]
      exact hf.level1 i j hi hj hvo hv1
  · intro i j k hi hj hk hv hv1 hv0
    by_cases e : i = i2
    · subst e; exact absurd hv1 (NI j hj)
    · have hvo := OV i hi e hv
      have h0 := T0 i j hi hj e hvo
      rw [h0.1] at hv1
      have hc := root_install_keeps hD ht hi2 hp _ (isTable_table0 D m root i j hi hj hvo hv1)
        (ht.wf.table0_ne_root i j hi hj hvo hv1) k hk
      rw [h0.2, hc] at hv0 ⊢
      exact hf.level0 i j k hi hj hk hvo hv1 hv0

theorem l1_install_flags {D : Nat} {m : Mem} {root i2 i1 q : Nat} {S0 : List Nat}
    (hD : D % 4096 = 0) (ht : TreeShaped D m root) (hi2 : i2 < 512) (hi1 : i1 < 512)
    (hv2 : m (root + 8 * i2) &&& PTE_V ≠ 0) (hq : FreshFrame D m root q)
    (hqS : q ∈ S0) (hq0 : q ≠ NULL) (hf : FlagInv D root S0 m) :
    FlagInv D root S0 (install_table D m (table1 D m root i2 + 8 * i1) q) := by
  have R := fun i hi => l1_install_table1 hD ht hi2 hi1 hv2 hq i hi
  have T0 := fun i j hi hj hv => l1_install_table0 hD ht hi2 hi1 hv2 hq i j hi hj hv
  have OV := fun i j hi hj hv hne hv1 =>
    l1_install_old_valid hD ht hi2 hi1 hv2 hq i j hi hj hv hne hv1
  refine ⟨?_, ?_, ?_⟩
  · intro i hi hv
    rw [(R i hi).1] at hv ⊢
    rw [(R i hi).2]
    exact hf.level2 i hi hv
  · intro i j hi hj hv hv1
    rw [(R i hi).1] at hv
    by_cases e : i = i2 ∧ j = i1
    · rw [(T0 i j hi hj hv).1, (T0 i j hi hj hv).2, if_pos e, if_pos e]
      exact ⟨link_rwx _, hqS, hq0⟩
    · obtain ⟨ho, e0⟩ := OV i j hi hj hv e hv1
      rw [(T0 i j hi hj hv).1, e0, if_neg e]
      exact hf.level1 i j hi hj hv ho
  · intro i j k hi hj hk hv hv1 hv0
    rw [(R i hi).1] at hv
    by_cases e : i = i2 ∧ j = i1
    · exfalso
      have hni := l1_install_new_invalid hD ht hi2 hi1 hv2 hq k hk
      rw [e.1, e.2] at hv0
      exact hni hv0
    · obtain ⟨ho, e0⟩ := OV i j hi hj hv e hv1
      have hc := l1_install_keeps hD ht hi1 hq _ (isTable_table0 D m root i j hi hj hv ho)
        (ht.wf.table0_ne_table1 i j i2 hi hj hi2 hv ho hv2) k hk
      rw [e0, hc] at hv0 ⊢
      exact hf.level0 i j k hi hj hk hv ho hv0

theorem leaf_store_flags {D : Nat} {m : Mem} {root i2 i1 : Nat} {S0 : List Nat}
    (hD : D % 4096 = 0) (ht : TreeShaped D m root) (hi2 : i2 < 512) (hi1 : i1 < 512)
    (hv2 : m (root + 8 * i2) &&& PTE_V ≠ 0)
    (hv1 : m (table1 D m root i2 + 8 * i1) &&& PTE_V ≠ 0) (k v : Nat) (hk : k < 512)
    (hv : v &&& PTE_V ≠ 0 → v &&& (PTE_R ||| PTE_W ||| PTE_X) ≠ 0)
    (hf : FlagInv D root S0 m) :
    FlagInv D root S0 (store m (table0 D m root i2 i1 + 8 * k) v) := by
  have hs := leaf_store_sameInterior hD ht hi2 hi1 hv2 hv1 k v hk
  refine ⟨?_, ?_, ?_⟩
  · intro i hi hw
    rw [hs.root_cells i hi] at hw ⊢
    rw [hs.table1_eq i hi]
    exact hf.level2 i hi hw
  · intro i j hi hj hw hw1
    rw [hs.root_cells i hi] at hw
    rw [hs.l1_eq i j hi hj hw] at hw1 ⊢
    rw [hs.table0_eq i j hi hj hw]
    exact hf.level1 i j hi hj hw hw1
  · intro i j l hi hj hl hw hw1 hw0
    rw [hs.root_cells i hi] at hw
    rw [hs.l1_eq i j hi hj hw] at hw1
    rw [hs.table0_eq i j hi hj hw] at hw0 ⊢
    by_cases ec : table0 D m root i j + 8 * l = table0 D m root i2 i1 + 8 * k
    · rw [ec, store_same] at hw0 ⊢
      exact hv hw0
    · rw [store_other _ _ _ _ ec] at hw0 ⊢
      exact hf.level0 i j l hi hj hl hw hw1 hw0

/-! ## The invariant under the three writes -/

theorem PtInv.hD {D root : Nat} {s : KState} (h : PtInv D root s) : D % 4096 = 0 :=
  h.diff_aligned

theorem PtInv.leaf_store {D root : Nat} {s : KState} (h : PtInv D root s) {i2 i1 : Nat}
    (hi2 : i2 < 512) (hi1 : i1 < 512) (hv2 : s.mem (root + 8 * i2) &&& PTE_V ≠ 0)
    (hv1 : s.mem (table1 D s.mem root i2 + 8 * i1) &&& PTE_V ≠ 0) (k v : Nat) (hk : k < 512) :
    PtInv D root { s with mem := store s.mem (table0 D s.mem root i2 i1 + 8 * k) v } :=
  have hs := leaf_store_sameInterior h.hD h.tree hi2 hi1 hv2 hv1 k v hk
  ⟨h.diff_aligned, hs.tree h.tree, hs.fresh h.fresh⟩

theorem PtInv.root_install {D root : Nat} {s : KState} (h : PtInv D root s) {i2 p : Nat}
    {rest : List Nat} (hi2 : i2 < 512) (hp : s.pending = p :: rest) (hp0 : p ≠ NULL) :
    PtInv D root { s with pending := rest, mem := install_table D s.mem (root + 8 * i2) p } := by
  have hf := h.fresh
  rw [hp] at hf
  have hpf := hf.head hp0
  exact ⟨h.diff_aligned, root_install_tree h.hD h.tree hi2 hpf,
    hf.after_install hp0 (fun q hq => root_install_isTable h.hD h.tree hi2 hpf q hq)⟩

theorem PtInv.l1_install {D root : Nat} {s : KState} (h : PtInv D root s) {i2 i1 q : Nat}
    {rest : List Nat} (hi2 : i2 < 512) (hi1 : i1 < 512)
    (hv2 : s.mem (root + 8 * i2) &&& PTE_V ≠ 0) (hq : s.pending = q :: rest) (hq0 : q ≠ NULL) :
    PtInv D root { s with
      pending := rest,
      mem := install_table D s.mem (table1 D s.mem root i2 + 8 * i1) q } := by
  have hf := h.fresh
  rw [hq] at hf
  have hqf := hf.head hq0
  exact ⟨h.diff_aligned, l1_install_tree h.hD h.tree hi2 hi1 hv2 hqf,
    hf.after_install hq0 (fun x hx => l1_install_isTable h.hD h.tree hi2 hi1 hv2 hqf x hx)⟩

theorem kalloc_null_cases (s : KState) (hk : (kalloc s).1 = NULL) :
    (kalloc s).2 = s ∨ ∃ rest, s.pending = NULL :: rest ∧ (kalloc s).2 = { s with pending := rest } := by
  unfold kalloc at hk ⊢
  cases hp : s.pending with
  | nil => exact Or.inl rfl
  | cons p rest =>
    rw [hp] at hk
    have e : p = NULL := hk
    subst e
    exact Or.inr ⟨rest, rfl, rfl⟩

theorem PtInv.kalloc_null {D root : Nat} {s : KState} (h : PtInv D root s)
    (hk : (kalloc s).1 = NULL) : PtInv D root (kalloc s).2 := by
  rcases kalloc_null_cases s hk with e | ⟨rest, hp, e⟩
  · rw [e]; exact h
  · rw [e]
    have hf := h.fresh
    rw [hp] at hf
    exact ⟨h.diff_aligned, h.tree, hf.tail⟩

/-- After a failed `kalloc` the script has lost at most its first entry. -/
theorem kalloc_null_script (s : KState) (hk : (kalloc s).1 = NULL) :
    ∃ k, k ≤ 1 ∧ (kalloc s).2.pending = s.pending.drop k := by
  rcases kalloc_null_cases s hk with e | ⟨rest, hp, e⟩
  · exact ⟨0, by omega, by rw [e]; rfl⟩
  · exact ⟨1, le_refl 1, by rw [e, hp]; rfl⟩

/-- A failed `kalloc` means the script does not start with a usable frame. -/
theorem kalloc_null_take (s : KState) (hk : (kalloc s).1 = NULL) (n : Nat) (hn : 1 ≤ n)
    (hlen : n ≤ s.pending.length) (hall : ∀ p, p ∈ s.pending.take n → p ≠ NULL) : False := by
  rcases kalloc_null_cases s hk with e | ⟨rest, hp, _⟩
  · unfold kalloc at hk e
    cases hp : s.pending with
    | nil => rw [hp] at hlen; simp at hlen; omega
    | cons p rest =>
      rw [hp] at hk
      have e0 : p = NULL := hk
      rw [hp] at hall
      obtain ⟨n', rfl⟩ : ∃ n', n = n' + 1 := ⟨n - 1, by omega⟩
      exact hall p (by simp) e0
  · rw [hp] at hall
    obtain ⟨n', rfl⟩ : ∃ n', n = n' + 1 := ⟨n - 1, by omega⟩
    exact hall NULL (by simp) rfl

/-! ## The effect of `vm_map`, level by level -/

theorem rwx_of_leaf (pa perm : Nat) (hperm : perm &&& (PTE_R ||| PTE_W ||| PTE_X) ≠ 0) :
    ((PA2PTE pa ||| PTE_V ||| perm) % 2 ^ 64) &&& (PTE_R ||| PTE_W ||| PTE_X) ≠ 0 := by
  have h := leaf_rwx pa perm
  show ((PA2PTE pa ||| PTE_V ||| perm) % 2 ^ 64) &&& 14 ≠ 0
  rw [h]
  exact hperm

/-- Lines 50-58, entered with the level-0 table of a valid path. -/
theorem vm_map_leaf_effect (D root va pa perm : Nat) (s : KState) (hinv : PtInv D root s)
    (hv2 : s.mem (root + 8 * PX 2 va) &&& PTE_V ≠ 0)
    (hv1 : s.mem (table1 D s.mem root (PX 2 va) + 8 * PX 1 va) &&& PTE_V ≠ 0) :
    MapEffect D root va pa perm 0 s
      (vm_map_leaf s (table0 D s.mem root (PX 2 va) (PX 1 va)) va pa perm) := by
  have h2 := PX_lt 2 va
  have h1 := PX_lt 1 va
  have h0 := PX_lt 0 va
  have hpte := pte_of_valid D s.mem root va hv2 hv1
  unfold vm_map_leaf
  by_cases hv0 : s.mem (table0 D s.mem root (PX 2 va) (PX 1 va) + 8 * PX 0 va) &&& PTE_V ≠ 0
  · rw [if_pos hv0]
    refine ⟨hinv, rfl, rfl, ⟨0, le_refl 0, rfl⟩, fun _ _ => rfl, Or.inr rfl, ?_, fun _ => rfl,
      ?_, fun _ _ _ hf => hf⟩
    · intro h
      have h' : (-1 : Int) = 0 := h
      exact absurd h' (by decide)
    · intro hun _ _
      rw [hpte] at hun
      exact absurd hun hv0
  · rw [if_neg hv0]
    have hstore := fun va2 => leaf_store_pte_of hinv.hD hinv.tree h2 h1 hv2 hv1 (PX 0 va)
      ((PA2PTE pa ||| PTE_V ||| perm) % 2 ^ 64) h0 va2
    refine ⟨hinv.leaf_store h2 h1 hv2 hv1 _ _ h0, rfl, rfl, ⟨0, le_refl 0, rfl⟩, ?_, Or.inl rfl,
      ?_, ?_, fun _ _ _ => rfl, ?_⟩
    · intro va2 hne
      show pte_of D (store s.mem _ _) root va2 = _
      rw [hstore va2, if_neg hne]
    · intro _
      refine ⟨?_, ?_⟩
      · rw [hpte]; exact not_not.mp hv0
      · show pte_of D (store s.mem _ _) root va = _
        rw [hstore va, if_pos ⟨rfl, rfl, rfl⟩]
    · intro h
      have h' : (0 : Int) = -1 := h
      exact absurd h' (by decide)
    · intro S0 hperm _ hf
      exact leaf_store_flags hinv.hD hinv.tree h2 h1 hv2 hv1 _ _ h0
        (fun _ => rwx_of_leaf pa perm hperm) hf

theorem MapEffect.mono {D root va pa perm n n1 : Nat} {s : KState} {r : Int × KState}
    (h : MapEffect D root va pa perm n s r) (hn : n ≤ n1) : MapEffect D root va pa perm n1 s r := by
  obtain ⟨k, hk, hscript⟩ := h.script
  refine ⟨h.inv, h.freed_eq, h.kernel_eq, ⟨k, le_trans hk hn, hscript⟩, h.others, h.ret, h.ok,
    h.fail, ?_, h.flags⟩
  intro hun hlen hall
  exact h.succeeds hun (le_trans hn hlen)
    (fun p hp => hall p (List.take_subset_take_left _ hn hp))

/-- The effect of a call that stops at a failed `kalloc`. -/
theorem MapEffect.of_oom {D root va pa perm n : Nat} {s : KState} (hinv : PtInv D root s)
    (hk : (kalloc s).1 = NULL) (hn : 1 ≤ n) :
    MapEffect D root va pa perm n s (-1, (kalloc s).2) := by
  obtain ⟨km, kf, kk⟩ := kalloc_frame s
  obtain ⟨k, hk1, hscript⟩ := kalloc_null_script s hk
  refine ⟨hinv.kalloc_null hk, kf, kk, ⟨k, le_trans hk1 hn, hscript⟩, ?_, Or.inr rfl, ?_, ?_, ?_, ?_⟩
  · intro va2 _
    show pte_of D (kalloc s).2.mem root va2 = _
    rw [km]
  · intro h
    have h' : (-1 : Int) = 0 := h
    exact absurd h' (by decide)
  · intro _
    show pte_of D (kalloc s).2.mem root va = _
    rw [km]
  · intro _ hlen hall
    exact (kalloc_null_take s hk n hn hlen hall).elim
  · intro S0 _ _ hf
    show FlagInv D root S0 (kalloc s).2.mem
    rw [km]
    exact hf

/-- The effect of a call that first installs a table for the head `p` of the
script on the path of `va`, which was missing, and then goes on from the
state `s1` with result `r`. -/
theorem MapEffect.after_table {D root va pa perm n p : Nat} {rest : List Nat}
    {s : KState} (s1 : KState) {r : Int × KState}
    (hp : s.pending = p :: rest) (hp0 : p ≠ NULL) (h1p : s1.pending = rest)
    (h1f : s1.freed = s.freed) (h1k : s1.kernel_pgtbl = s.kernel_pgtbl)
    (hpte : ∀ va2, pte_of D s1.mem root va2 = pte_of D s.mem root va2)
    (hzero : pte_of D s.mem root va = 0)
    (hflag : ∀ S0, p ∈ S0 → p ≠ NULL → FlagInv D root S0 s.mem → FlagInv D root S0 s1.mem)
    (h : MapEffect D root va pa perm n s1 r) : MapEffect D root va pa perm (n + 1) s r := by
  obtain ⟨k, hk, hscript⟩ := h.script
  refine ⟨h.inv, h.freed_eq.trans h1f, h.kernel_eq.trans h1k, ⟨k + 1, by omega, ?_⟩, ?_, h.ret,
    ?_, ?_, ?_, ?_⟩
  · rw [hscript, h1p, hp]; rfl
  · intro va2 hne
    rw [h.others va2 hne, hpte]
  · intro hr
    refine ⟨?_, (h.ok hr).2⟩
    rw [hzero]; rfl
  · intro hr
    rw [h.fail hr, hpte]
  · intro hun hlen hall
    rw [hp] at hlen hall
    apply h.succeeds
    · rw [hpte, hzero]; rfl
    · rw [h1p]; simp only [List.length_cons] at hlen; omega
    · intro x hx
      rw [h1p] at hx
      exact hall x (by rw [List.take_succ_cons]; exact List.mem_cons_of_mem p hx)
  · intro S0 hperm hS hf
    obtain ⟨k0, hk0⟩ := hS
    have hpd : p ∈ S0.drop k0 := by
      rw [← hk0, hp]
      exact List.mem_cons_self p rest
    have hpS : p ∈ S0 := List.mem_of_mem_drop hpd
    refine h.flags S0 hperm ⟨k0 + 1, ?_⟩ (hflag S0 hpS hp0 hf)
    rw [h1p]
    have e : S0.drop (k0 + 1) = (S0.drop k0).drop 1 := by rw [List.drop_drop]
    rw [e, ← hk0, hp]
    rfl

/-- The last loop iteration and lines 50-58, entered with the level-1 table
of a valid root entry. -/
theorem vm_map_level1_effect (D root va pa perm : Nat) (s : KState) (hinv : PtInv D root s)
    (hv2 : s.mem (root + 8 * PX 2 va) &&& PTE_V ≠ 0) :
    MapEffect D root va pa perm 1 s
      (vm_map_level1 D s (table1 D s.mem root (PX 2 va)) va pa perm) := by
  have h2 := PX_lt 2 va
  have h1 := PX_lt 1 va
  by_cases hv1 : s.mem (table1 D s.mem root (PX 2 va) + 8 * PX 1 va) &&& PTE_V ≠ 0
  · rw [vm_map_level1_valid D s _ va pa perm hv1]
    exact (vm_map_leaf_effect D root va pa perm s hinv hv2 hv1).mono (by omega)
  · by_cases hk : (kalloc s).1 = NULL
    · rw [vm_map_level1_oom D s _ va pa perm hv1 hk]
      exact MapEffect.of_oom hinv hk (le_refl 1)
    · obtain ⟨q, rest, hq, hq0⟩ := kalloc_ne_null s hk
      rw [vm_map_level1_alloc D s _ va pa perm q rest hv1 hq hq0]
      have hf := hinv.fresh
      rw [hq] at hf
      have hqf := hf.head hq0
      have hinv1 := hinv.l1_install h2 h1 hv2 hq hq0
      have R := l1_install_table1 hinv.hD hinv.tree h2 h1 hv2 hqf (PX 2 va) h2
      have T0 := l1_install_table0 hinv.hD hinv.tree h2 h1 hv2 hqf (PX 2 va) (PX 1 va) h2 h1 hv2
      rw [if_pos ⟨rfl, rfl⟩, if_pos ⟨rfl, rfl⟩] at T0
      have hv2n : install_table D s.mem (table1 D s.mem root (PX 2 va) + 8 * PX 1 va) q
          (root + 8 * PX 2 va) &&& PTE_V ≠ 0 := by rw [R.1]; exact hv2
      have hv1n : install_table D s.mem (table1 D s.mem root (PX 2 va) + 8 * PX 1 va) q
          (table1 D (install_table D s.mem (table1 D s.mem root (PX 2 va) + 8 * PX 1 va) q)
            root (PX 2 va) + 8 * PX 1 va) &&& PTE_V ≠ 0 := by
        rw [T0.1]; exact link_valid_any _
      have E := vm_map_leaf_effect D root va pa perm _ hinv1 hv2n hv1n
      rw [T0.2] at E
      exact MapEffect.after_table
        { s with
          pending := rest,
          mem := install_table D s.mem (table1 D s.mem root (PX 2 va) + 8 * PX 1 va) q }
        hq hq0 rfl rfl rfl
        (fun va2 => l1_install_pte_of hinv.hD hinv.tree h2 h1 hv2 hv1 hqf va2)
        (pte_of_invalid1 D s.mem root va hv2 hv1)
        (fun S0 hqS hq1 hfl => l1_install_flags hinv.hD hinv.tree h2 h1 hv2 hqf hqS hq1 hfl) E

/-- The effect of `vm_map` on a tree-shaped table with a fresh allocator. -/
theorem vm_map_effect (D root va pa perm : Nat) (s : KState) (hinv : PtInv D root s) :
    MapEffect D root va pa perm 2 s (vm_map D s root va pa perm) := by
  have h2 := PX_lt 2 va
  have hr : root % 4096 = 0 := hinv.tree.wf.root_aligned
  by_cases hv2 : s.mem (root + 8 * PX 2 va) &&& PTE_V ≠ 0
  · rw [vm_map_top_valid D s root va pa perm hv2]
    exact (vm_map_level1_effect D root va pa perm s hinv hv2).mono (by omega)
  · by_cases hk : (kalloc s).1 = NULL
    · rw [vm_map_top_oom D s root va pa perm hv2 hk]
      exact MapEffect.of_oom hinv hk (by omega)
    · obtain ⟨p, rest, hp, hp0⟩ := kalloc_ne_null s hk
      rw [vm_map_top_alloc D s root va pa perm p rest hv2 hp hp0]
      have hf := hinv.fresh
      rw [hp] at hf
      have hpf := hf.head hp0
      have hinv1 := hinv.root_install h2 hp hp0
      have T1 := root_install_table1 (m := s.mem) hinv.hD hr h2 hpf (PX 2 va) h2
      rw [if_pos rfl] at T1
      have hv2n : install_table D s.mem (root + 8 * PX 2 va) p (root + 8 * PX 2 va) &&& PTE_V ≠ 0 :=
        (root_install_valid hr h2 hpf _ h2).mpr (Or.inl rfl)
      have E := vm_map_level1_effect D root va pa perm _ hinv1 hv2n
      rw [T1] at E
      exact MapEffect.after_table
        { s with pending := rest, mem := install_table D s.mem (root + 8 * PX 2 va) p }
        hp hp0 rfl rfl rfl
        (fun va2 => root_install_pte_of hinv.hD hinv.tree h2 hpf hv2 va2)
        (pte_of_invalid2 D s.mem root va hv2)
        (fun S0 hpS hp1 hfl => root_install_flags hinv.hD hinv.tree h2 hpf hpS hp1 hfl) E

/-! ## Empty roots -/

/-- A page-aligned root without valid entries is a tree. -/
theorem tree_of_empty_root (D : Nat) (m : Mem) (root : Nat) (hroot : root % PGSIZE = 0)
    (hempty : ∀ i, i < 512 → m (root + 8 * i) &&& PTE_V = 0) : TreeShaped D m root :=
  ⟨⟨hroot, fun i hi h => absurd (hempty i hi) h, fun i _ hi _ h _ => absurd (hempty i hi) h,
      fun i _ _ hi _ _ h _ _ => absurd (hempty i hi) h⟩,
    fun i _ hi _ h _ _ => absurd (hempty i hi) h,
    fun i _ _ _ hi _ _ _ h _ _ _ _ => absurd (hempty i hi) h⟩

theorem flagInv_of_empty_root (D : Nat) (m : Mem) (root : Nat) (S0 : List Nat)
    (hempty : ∀ i, i < 512 → m (root + 8 * i) &&& PTE_V = 0) : FlagInv D root S0 m :=
  ⟨fun i hi h => absurd (hempty i hi) h, fun i _ hi _ h _ => absurd (hempty i hi) h,
    fun i _ _ hi _ _ h _ _ => absurd (hempty i hi) h⟩

theorem empty_state_inv : PtInv D0 root0 (empty_state [frameA, frameB]) :=
  ⟨by decide,
    tree_of_empty_root D0 _ root0 (by decide) (fun i _ => not_not.mp (empty_state_invalid _ _)),
    empty_state_fresh⟩

theorem mapped_state_inv : PtInv D0 root0 mapped_state :=
  (vm_map_effect D0 root0 0x1000 0x80400000 RWU _ empty_state_inv).inv

/-- C19. `vm_map` does not disturb other translations: on a tree-shaped page
table, with `V_P_DIFF` page-aligned and an allocator that hands out fresh
frames, for every `va` and every `va2` in a different page (a different
index triple `PX(2)`, `PX(1)`, `PX(0)`), `vm_inverse_of_map(root, va2)` gives
the same value before and after `vm_map(root, va, pa, perm)`, whether that
call returns 0 or -1. -/
theorem vm_map_keeps_other_pages (D : Nat) (s : KState) (root va va2 pa perm : Nat)
    (hD : D % PGSIZE = 0) (ht : TreeShaped D s.mem root)
    (hfresh : FreshFrames D s.mem root s.pending)
    (hne : ¬ (PX 2 va2 = PX 2 va ∧ PX 1 va2 = PX 1 va ∧ PX 0 va2 = PX 0 va)) :
    vm_inverse_of_map D (vm_map D s root va pa perm).2.mem root va2
      = vm_inverse_of_map D s.mem root va2 := by
  have E := vm_map_effect D root va pa perm s ⟨hD, ht, hfresh⟩
  rw [vm_inverse_of_map_eq, vm_inverse_of_map_eq, E.others va2 hne]

/-- Witness of C19: after scenario 1 has mapped `0x1000`, mapping `0x2000`
leaves the translation of `0x1000` at `0x80400000`. -/
theorem vm_map_keeps_other_pages_witness :
    vm_inverse_of_map D0 (vm_map D0 mapped_state root0 0x2000 0x80500000 RWU).2.mem root0 0x1000
      = 0x80400000 :=
  (vm_map_keeps_other_pages D0 mapped_state root0 0x2000 0x1000 0x80500000 RWU
    mapped_state_inv.diff_aligned mapped_state_inv.tree mapped_state_inv.fresh (by decide)).trans
    (by decide)

/-- Witness of C17 (scenario 1): the unmap of `0x1000` frees the one frame
`P2V(0x80400000)`, and a new map of `0x1000` needs no frame. -/
theorem vm_unmap_one_entry_witness :
    (vm_unmap D0 mapped_state root0 0x1000).2.freed = [0xFFFFFFFFC0400000] ∧
      (vm_map D0 (vm_unmap D0 mapped_state root0 0x1000).2 root0 0x1000 0x80500000 RWU).1 = 0 ∧
      (vm_map D0 (vm_unmap D0 mapped_state root0 0x1000).2 root0 0x1000 0x80500000 RWU).2.pending
        = mapped_state.pending :=
  have h := vm_unmap_one_entry D0 mapped_state root0 0x1000 (by decide)
    mapped_state_inv.tree.wf (by decide) (by decide) (by decide)
  ⟨by decide, (h.2.2.2.2.2 0x80500000 RWU).1, (h.2.2.2.2.2 0x80500000 RWU).2⟩

/-! ## The effect of `vm_unmap` -/

theorem PtInv.congr {D root : Nat} {s t : KState} (h : PtInv D root s) (hm : t.mem = s.mem)
    (hp : t.pending = s.pending) : PtInv D root t := by
  refine ⟨h.diff_aligned, ?_, ?_⟩
  · rw [hm]; exact h.tree
  · rw [hm, hp]; exact h.fresh

/-- `vm_unmap` either fails and leaves the state alone, or clears the level-0
entry of a valid path and frees the frame the entry named. -/
theorem vm_unmap_cases (D : Nat) (s : KState) (root va : Nat) :
    vm_unmap D s root va = (-1, s) ∨
      (s.mem (root + 8 * PX 2 va) &&& PTE_V ≠ 0 ∧
        s.mem (table1 D s.mem root (PX 2 va) + 8 * PX 1 va) &&& PTE_V ≠ 0 ∧
        s.mem (table0 D s.mem root (PX 2 va) (PX 1 va) + 8 * PX 0 va) &&& PTE_V ≠ 0 ∧
        vm_unmap D s root va = (0, { s with
          freed := s.freed ++
            [P2V D (PTE2PA (s.mem (table0 D s.mem root (PX 2 va) (PX 1 va) + 8 * PX 0 va)))],
          mem := store s.mem (table0 D s.mem root (PX 2 va) (PX 1 va) + 8 * PX 0 va) 0 })) := by
  by_cases hv2 : s.mem (root + 8 * PX 2 va) &&& PTE_V ≠ 0
  · by_cases hv1 : s.mem (table1 D s.mem root (PX 2 va) + 8 * PX 1 va) &&& PTE_V ≠ 0
    · by_cases hv0 : s.mem (table0 D s.mem root (PX 2 va) (PX 1 va) + 8 * PX 0 va) &&& PTE_V ≠ 0
      · refine Or.inr ⟨hv2, hv1, hv0, ?_⟩
        unfold vm_unmap
        rw [descend_valid_valid D s.mem root va hv2 hv1]
        simp only
        rw [if_neg hv0]
        rfl
      · left
        unfold vm_unmap
        rw [descend_valid_valid D s.mem root va hv2 hv1]
        simp only
        rw [if_pos (not_not.mp hv0)]
    · left
      unfold vm_unmap
      rw [descend_valid_invalid D s.mem root va hv2 hv1]
  · left
    unfold vm_unmap
    rw [descend_invalid D 1 s.mem root va hv2]

/-- `vm_unmap` keeps the invariant, the allocator script and the flag
discipline. -/
theorem vm_unmap_effect (D root va : Nat) (s : KState) (hinv : PtInv D root s) :
    PtInv D root (vm_unmap D s root va).2 ∧ (vm_unmap D s root va).2.pending = s.pending ∧
      ∀ S0, FlagInv D root S0 s.mem → FlagInv D root S0 (vm_unmap D s root va).2.mem := by
  have h2 := PX_lt 2 va
  have h1 := PX_lt 1 va
  have h0 := PX_lt 0 va
  rcases vm_unmap_cases D s root va with e | ⟨hv2, hv1, _, e⟩
  · rw [e]; exact ⟨hinv, rfl, fun _ hf => hf⟩
  · rw [e]
    refine ⟨(hinv.leaf_store h2 h1 hv2 hv1 (PX 0 va) 0 h0).congr rfl rfl, rfl, ?_⟩
    intro S0 hf
    exact leaf_store_flags hinv.hD hinv.tree h2 h1 hv2 hv1 _ 0 h0
      (fun h => absurd h zero_not_valid) hf

/-! ## Sequences of calls -/

/-- A sequence of `vm_map` and `vm_unmap` calls keeps the invariant, consumes
the allocator script from the front and keeps the flag discipline. -/
theorem run_ops_inv (D root : Nat) (S0 : List Nat) (ops : List PtOp) (s : KState)
    (hinv : PtInv D root s) (hscript : ∃ k, s.pending = S0.drop k)
    (hflags : FlagInv D root S0 s.mem) (hops : ∀ op, op ∈ ops → PermOk op) :
    PtInv D root (run_ops D root s ops) ∧ (∃ k, (run_ops D root s ops).pending = S0.drop k) ∧
      FlagInv D root S0 (run_ops D root s ops).mem := by
  induction ops generalizing s with
  | nil => exact ⟨hinv, hscript, hflags⟩
  | cons op ops ih =>
    have hrest : ∀ o, o ∈ ops → PermOk o := fun o ho => hops o (List.mem_cons_of_mem op ho)
    have hop : PermOk op := hops op (List.mem_cons_self op ops)
    show PtInv D root (run_ops D root (run_op D root s op) ops) ∧ _
    cases op with
    | map va pa perm =>
      have E := vm_map_effect D root va pa perm s hinv
      obtain ⟨k0, hk0⟩ := hscript
      obtain ⟨k, _, hk⟩ := E.script
      refine ih _ E.inv ⟨k0 + k, ?_⟩ (E.flags S0 hop ⟨k0, hk0⟩ hflags) hrest
      show (vm_map D s root va pa perm).2.pending = _
      rw [hk, hk0, List.drop_drop]
    | unmap va =>
      obtain ⟨h1, h2, h3⟩ := vm_unmap_effect D root va s hinv
      obtain ⟨k0, hk0⟩ := hscript
      exact ih _ h1 ⟨k0, h2.trans hk0⟩ (h3 S0 hflags) hrest

/-- A table of the tree that is in the script, is not `NULL` and is not going
to be handed out any more has been handed out. -/
theorem mem_take_of_table {D root : Nat} {s : KState} {S0 : List Nat} {k t : Nat}
    (hinv : PtInv D root s) (hk : s.pending = S0.drop k) (ht : IsTable D s.mem root t)
    (hS : t ∈ S0) (h0 : t ≠ NULL) : t ∈ S0.take k := by
  have hsplit : t ∈ S0.take k ++ S0.drop k := by rw [List.take_append_drop]; exact hS
  rcases List.mem_append.mp hsplit with h | h
  · exact h
  · rw [← hk] at h
    exact absurd ht (hinv.fresh.not_table t h h0)

/-- C13. The leaf/interior invariant of tables built by `vm_map`.  Start from
a page-aligned root without valid entries, with `V_P_DIFF` page-aligned and an
allocator that hands out fresh frames, and run any finite sequence of
`vm_map` calls (returning 0 or -1, each with a `perm` that has at least one
of `R|W|X`) and `vm_unmap` calls.  Then, for the `k` frames `kalloc` has
handed out: every valid entry of the root and of every level-1 table has
`R|W|X` all clear and points at one of these `k` frames, and every valid
entry of a level-0 table has at least one of `R|W|X` set. -/
theorem leaf_interior_invariant (D root : Nat) (s : KState) (ops : List PtOp)
    (hD : D % PGSIZE = 0) (hroot : root % PGSIZE = 0)
    (hempty : ∀ i, i < 512 → s.mem (root + 8 * i) &&& PTE_V = 0)
    (hfresh : FreshFrames D s.mem root s.pending)
    (hops : ∀ op, op ∈ ops → PermOk op) :
    ∃ k, (run_ops D root s ops).pending = s.pending.drop k ∧
      (∀ i, i < 512 → (run_ops D root s ops).mem (root + 8 * i) &&& PTE_V ≠ 0 →
        (run_ops D root s ops).mem (root + 8 * i) &&& (PTE_R ||| PTE_W ||| PTE_X) = 0 ∧
        table1 D (run_ops D root s ops).mem root i ∈ s.pending.take k) ∧
      (∀ i j, i < 512 → j < 512 → (run_ops D root s ops).mem (root + 8 * i) &&& PTE_V ≠ 0 →
        (run_ops D root s ops).mem (table1 D (run_ops D root s ops).mem root i + 8 * j)
          &&& PTE_V ≠ 0 →
        (run_ops D root s ops).mem (table1 D (run_ops D root s ops).mem root i + 8 * j)
          &&& (PTE_R ||| PTE_W ||| PTE_X) = 0 ∧
        table0 D (run_ops D root s ops).mem root i j ∈ s.pending.take k) ∧
      (∀ i j l, i < 512 → j < 512 → l < 512 →
        (run_ops D root s ops).mem (root + 8 * i) &&& PTE_V ≠ 0 →
        (run_ops D root s ops).mem (table1 D (run_ops D root s ops).mem root i + 8 * j)
          &&& PTE_V ≠ 0 →
        (run_ops D root s ops).mem (table0 D (run_ops D root s ops).mem root i j + 8 * l)
          &&& PTE_V ≠ 0 →
        (run_ops D root s ops).mem (table0 D (run_ops D root s ops).mem root i j + 8 * l)
          &&& (PTE_R ||| PTE_W ||| PTE_X) ≠ 0) := by
  have hinv : PtInv D root s := ⟨hD, tree_of_empty_root D s.mem root hroot hempty, hfresh⟩
  obtain ⟨hI, ⟨k, hk⟩, hF⟩ := run_ops_inv D root s.pending ops s hinv ⟨0, rfl⟩
    (flagInv_of_empty_root D s.mem root s.pending hempty) hops
  refine ⟨k, hk, ?_, ?_, hF.level0⟩
  · intro i hi hv
    obtain ⟨h1, h2, h3⟩ := hF.level2 i hi hv
    exact ⟨h1, mem_take_of_table hI hk (isTable_table1 D _ root i hi hv) h2 h3⟩
  · intro i j hi hj hv hv1
    obtain ⟨h1, h2, h3⟩ := hF.level1 i j hi hj hv hv1
    exact ⟨h1, mem_take_of_table hI hk (isTable_table0 D _ root i j hi hj hv hv1) h2 h3⟩

theorem scenario_ops_ok : ∀ op, op ∈ scenario_ops → PermOk op := by
  intro op h
  simp only [scenario_ops, List.mem_cons, List.mem_singleton, List.not_mem_nil, or_false] at h
  rcases h with rfl | rfl | rfl
  · show RWU &&& (PTE_R ||| PTE_W ||| PTE_X) ≠ 0
    decide
  · show RWU &&& (PTE_R ||| PTE_W ||| PTE_X) ≠ 0
    decide
  · trivial

/-- Witness of C13: on the empty root of the scenarios, after two maps and
one unmap, the valid root entries have `R|W|X` clear and point at frames the
allocator handed out. -/
theorem leaf_interior_invariant_witness :
    ∃ k, (run_ops D0 root0 (empty_state [frameA, frameB]) scenario_ops).pending
        = (empty_state [frameA, frameB]).pending.drop k ∧
      ∀ i, i < 512 →
        (run_ops D0 root0 (empty_state [frameA, frameB]) scenario_ops).mem (root0 + 8 * i)
          &&& PTE_V ≠ 0 →
        (run_ops D0 root0 (empty_state [frameA, frameB]) scenario_ops).mem (root0 + 8 * i)
          &&& (PTE_R ||| PTE_W ||| PTE_X) = 0 ∧
        table1 D0 (run_ops D0 root0 (empty_state [frameA, frameB]) scenario_ops).mem root0 i
          ∈ (empty_state [frameA, frameB]).pending.take k :=
  (leaf_interior_invariant D0 root0 (empty_state [frameA, frameB]) scenario_ops (by decide)
    (by decide) (fun i _ => not_not.mp (empty_state_invalid _ _)) empty_state_fresh
    scenario_ops_ok).imp (fun _ h => ⟨h.1, h.2.1⟩)

/-! ## Cleanup of what `vm_map` installed -/

set_option maxRecDepth 100000 in
/-- C20, refuted as stated.  `vm_map(root, 0x1000, 0x80400000, U)` returns 0
and installs an entry with `V` set and `R|W|X` clear.  The recursive cleanup of
that entry does not treat it as a leaf: it needs a nested call (with nesting
bound 1 it does not finish), reads the data page as a table of 512 entries
and hands to `kfree` the frame `0xFFFFFFFFC0800000` named by the first word
of the data page, before the data page itself. -/
theorem cleanup_of_user_only_entry :
    (vm_map D0 data_page_state root0 0x1000 0x80400000 PTE_U).1 = 0 ∧
      user_only_state.mem (frameB + 8 * PX 0 0x1000) &&& PTE_V ≠ 0 ∧
      user_only_state.mem (frameB + 8 * PX 0 0x1000) &&& (PTE_X ||| PTE_R ||| PTE_W) = 0 ∧
      (vm_recursive_cleanup D0 1 user_only_state (frameB + 8 * PX 0 0x1000)).isNone = true ∧
      (vm_recursive_cleanup D0 2 user_only_state (frameB + 8 * PX 0 0x1000)).map KState.freed
        = some [0xFFFFFFFFC0800000, 0xFFFFFFFFC0400000] := by
  decide

/-- C20, amended.  For every `perm` within the flag bits that has at least
one of `R|W|X`: after a successful `vm_map(root, va, pa, perm)` on a
well-formed table with a fresh allocator, the recursive cleanup of the
level-0 entry of `va` hands `P2V(pa)` to `kfree`, once, and does nothing
else; it makes no nested call (any nesting bound of at least 1 will do), so
it does not read the data frame. -/
theorem cleanup_of_mapped_leaf (D : Nat) (s s1 : KState) (root va pa perm fuel : Nat)
    (hD : D % PGSIZE = 0) (hwf : WellFormed D s.mem root)
    (hfresh : FreshFrames D s.mem root s.pending)
    (hpa : pa % PGSIZE = 0) (hpa64 : pa < 2 ^ 64) (hperm : perm < 2 ^ 10)
    (hrwx : perm &&& (PTE_R ||| PTE_W ||| PTE_X) ≠ 0)
    (hmap : vm_map D s root va pa perm = (0, s1)) :
    ∃ t1 t0, PathTo D s1.mem root va t1 t0 ∧
      vm_recursive_cleanup D (fuel + 1) s1 (t0 + 8 * PX 0 va) = some (kfree s1 (P2V D pa)) := by
  obtain ⟨t1, t0, hpath, hleaf, _, _⟩ := vm_map_ok_path D s s1 root va pa perm hD hwf hfresh hmap
  refine ⟨t1, t0, hpath, ?_⟩
  have hv : ¬ s1.mem (t0 + 8 * PX 0 va) &&& PTE_V = 0 := by
    rw [hleaf]; exact leaf_valid pa perm
  have hx : ¬ s1.mem (t0 + 8 * PX 0 va) &&& (PTE_X ||| PTE_R ||| PTE_W) = 0 := by
    rw [hleaf]
    show ¬ ((PA2PTE pa ||| PTE_V ||| perm) % 2 ^ 64) &&& 14 = 0
    rw [leaf_rwx]
    exact hrwx
  rw [vm_recursive_cleanup_succ, if_neg hv, if_neg hx, hleaf, leaf_pa pa perm hpa64 hpa hperm]

/-- Witness of C20 (amended): the leaf of scenario 1, mapped with `R|W|U`. -/
theorem cleanup_of_mapped_leaf_witness :
    ∃ t1 t0, PathTo D0 mapped_state.mem root0 0x1000 t1 t0 ∧
      vm_recursive_cleanup D0 1 mapped_state (t0 + 8 * PX 0 0x1000)
        = some (kfree mapped_state (P2V D0 0x80400000)) :=
  cleanup_of_mapped_leaf D0 (empty_state [frameA, frameB]) mapped_state root0 0x1000 0x80400000
    RWU 0 (by decide) (empty_state_wellFormed _) empty_state_fresh (by decide) (by decide)
    (by decide) (by decide) (Prod.ext (by decide) rfl)

/-! ## User roots made from frames that are not zero -/

set_option maxRecDepth 100000 in
/-- C11, the code at the failing input.  The frame `kalloc` returns for the
new root holds in its slots 0 and 1 a stale copy of slot 511 of the kernel
root.  `vm_init_upgtbl` returns it without zeroing it; no `vm_map` or
`vm_unmap` follows.  `vm_delete_upgtbl` then walks the kernel's level-1 table
through the user slots 0 and 1 and hands to `kfree` the kernel's leaf frame,
its level-0 table and its level-1 table, each of them twice. -/
theorem vm_delete_upgtbl_stale_root :
    (vm_init_upgtbl D0 stale_root_state).1 = frameA ∧
      (vm_init_upgtbl D0 stale_root_state).2.mem (frameA + 8 * 511)
        = stale_root_state.mem (root0 + 8 * 511) ∧
      (vm_delete_upgtbl D0 3 (vm_init_upgtbl D0 stale_root_state).2 frameA).map KState.freed
        = some [0xFFFFFFFFC0000000, kernelL0, kernelL1, 0xFFFFFFFFC0000000, kernelL0, kernelL1] := by
  decide

theorem loop_root_entry :
    (vm_init_upgtbl D0 loop_root_state).2.mem (frameA + 8 * 0) = 0x20200401 := by
  decide

theorem cleanup_self_loop (fuel : Nat) (st : KState) (h : st.mem (frameA + 8 * 0) = 0x20200401) :
    vm_recursive_cleanup D0 fuel st (frameA + 8 * 0) = none := by
  induction fuel with
  | zero => rfl
  | succ fuel ih =>
    have e1 : ¬ (0x20200401 : Nat) &&& PTE_V = 0 := by decide
    have e2 : (0x20200401 : Nat) &&& (PTE_X ||| PTE_R ||| PTE_W) = 0 := by decide
    have e3 : P2V D0 (PTE2PA 0x20200401) = frameA := by decide
    rw [vm_recursive_cleanup_succ, h, if_neg e1, if_pos e2, e3,
      show List.range 512 = 0 :: (List.range 511).map Nat.succ from List.range_succ_eq_map 511,
      List.foldlM_cons, ih]
    rfl

/-- C18, the code at the failing input.  The frame `kalloc` returns for the
new root holds in slot 0 a word that reads as an interior entry pointing at
the frame itself.  `vm_init_upgtbl` returns it without zeroing it, and
`vm_recursive_cleanup(&root[0])` then never returns: it does not finish
within any nesting bound. -/
theorem vm_recursive_cleanup_stale_root (fuel : Nat) :
    (vm_init_upgtbl D0 loop_root_state).1 = frameA ∧ 0 < PX 2 D0 ∧
      vm_recursive_cleanup D0 fuel (vm_init_upgtbl D0 loop_root_state).2 (frameA + 8 * 0) = none :=
  ⟨by decide, by decide, cleanup_self_loop fuel _ loop_root_entry⟩

/-! ## The loop of `kvmmap` -/

theorem PX_eq (level va : Nat) : PX level va = va / 2 ^ (12 + 9 * level) % 512 := by
  unfold PX PXMASK PXSHIFT PGSHIFT
  rw [Nat.shiftRight_eq_div_pow]
  exact Nat.and_pow_two_sub_one_eq_mod _ 9

/-- Two pages less than `2 ^ 27` pages apart differ in one of the three
indices `PX(2)`, `PX(1)`, `PX(0)`. -/
theorem page_index_ne (va i j : Nat) (hij : i < j) (hj : j < i + 2 ^ 27) :
    ¬ (PX 2 ((va + j * PGSIZE) % 2 ^ 64) = PX 2 ((va + i * PGSIZE) % 2 ^ 64) ∧
      PX 1 ((va + j * PGSIZE) % 2 ^ 64) = PX 1 ((va + i * PGSIZE) % 2 ^ 64) ∧
      PX 0 ((va + j * PGSIZE) % 2 ^ 64) = PX 0 ((va + i * PGSIZE) % 2 ^ 64)) := by
  simp only [PX_eq, PGSIZE]
  norm_num
  omega

/-- The level-0 entry of an address depends on its three indices only. -/
theorem pte_of_same_index (D : Nat) (m : Mem) (root a b : Nat) (h2 : PX 2 a = PX 2 b)
    (h1 : PX 1 a = PX 1 b) (h0 : PX 0 a = PX 0 b) : pte_of D m root a = pte_of D m root b := by
  by_cases hv2 : m (root + 8 * PX 2 a) &&& PTE_V ≠ 0
  · by_cases hv1 : m (table1 D m root (PX 2 a) + 8 * PX 1 a) &&& PTE_V ≠ 0
    · rw [pte_of_valid D m root a hv2 hv1, h2, h1, h0]
      rw [h2] at hv2 hv1
      rw [h1] at hv1
      rw [pte_of_valid D m root b hv2 hv1]
    · rw [pte_of_invalid1 D m root a hv2 hv1]
      rw [h2] at hv2 hv1
      rw [h1] at hv1
      rw [pte_of_invalid1 D m root b hv2 hv1]
  · rw [pte_of_invalid2 D m root a hv2]
    rw [h2] at hv2
    rw [pte_of_invalid2 D m root b hv2]

theorem mem_take_of_drop {l : List Nat} {k n b p : Nat} (hb : k + n ≤ b)
    (h : p ∈ (l.drop k).take n) : p ∈ l.take b := by
  rw [List.take_drop] at h
  have h1 : p ∈ l.take (k + n) := List.mem_of_mem_drop h
  have e : l.take (k + n) = (l.take b).take (k + n) := by
    rw [List.take_take, Nat.min_eq_left hb]
  rw [e] at h1
  exact List.mem_of_mem_take h1

theorem kvmmap_loop_succ (D fuel : Nat) (s : KState) (pstart pend va perm : Nat) :
    kvmmap_loop D (fuel + 1) s pstart pend va perm =
      if (vm_map D s s.kernel_pgtbl va pstart perm).1 ≠ 0 then
        some (-1, (vm_map D s s.kernel_pgtbl va pstart perm).2)
      else if pstart = pend then some (0, (vm_map D s s.kernel_pgtbl va pstart perm).2)
      else kvmmap_loop D fuel (vm_map D s s.kernel_pgtbl va pstart perm).2
        ((pstart + PGSIZE) % 2 ^ 64) pend ((va + PGSIZE) % 2 ^ 64) perm := rfl

theorem run_ops_kmap_succ (D root : Nat) (s : KState) (va pa perm n : Nat) :
    run_ops D root s (kmap_calls va pa perm (n + 1))
      = run_ops D root (vm_map D s root va pa perm).2
          (kmap_calls ((va + PGSIZE) % 2 ^ 64) ((pa + PGSIZE) % 2 ^ 64) perm n) := rfl

theorem page_shift (a i : Nat) :
    ((a + PGSIZE) % 2 ^ 64 + i * PGSIZE) % 2 ^ 64 = (a + (i + 1) * PGSIZE) % 2 ^ 64 := by
  unfold PGSIZE
  omega

/-- The first `c` iterations of the loop of `kvmmap`, for `c` pages that are
not mapped, with two frames per page in the script: each call of `vm_map`
returns 0, and the loop goes on from the state the `c` calls leave. -/
theorem kvmmap_loop_first_calls (D root perm pend : Nat) : ∀ (c : Nat) (s : KState) (pstart va f : Nat),
    PtInv D root s → s.kernel_pgtbl = root → pstart < 2 ^ 64 → va < 2 ^ 64 → c ≤ 2 ^ 27 →
    (∀ i, i < c → pte_of D s.mem root ((va + i * PGSIZE) % 2 ^ 64) &&& PTE_V = 0) →
    2 * c ≤ s.pending.length → (∀ p, p ∈ s.pending.take (2 * c) → p ≠ NULL) →
    (∀ i, i < c → (pstart + i * PGSIZE) % 2 ^ 64 ≠ pend) →
    kvmmap_loop D (c + f) s pstart pend va perm
        = kvmmap_loop D f (run_ops D root s (kmap_calls va pstart perm c))
            ((pstart + c * PGSIZE) % 2 ^ 64) pend ((va + c * PGSIZE) % 2 ^ 64) perm ∧
      KmapEffect D root perm c s pstart va (run_ops D root s (kmap_calls va pstart perm c)) := by
  intro c
  induction c with
  | zero =>
    intro s pstart va f hinv hroot hps hva _ _ _ _ _
    have e1 : (pstart + 0 * PGSIZE) % 2 ^ 64 = pstart := by omega
    have e2 : (va + 0 * PGSIZE) % 2 ^ 64 = va := by omega
    rw [e1, e2, Nat.zero_add]
    refine ⟨rfl, ⟨hinv, hroot, rfl, ⟨0, Nat.le_refl _, rfl⟩, ?_, ?_, ?_⟩⟩
    · intro i hi
      exact absurd hi (Nat.not_lt_zero i)
    · intro i hi
      exact absurd hi (Nat.not_lt_zero i)
    · intro va2 _
      rfl
  | succ c ih =>
    intro s pstart va f hinv hroot hps hva hc hunm hlen hnn hne
    have e1 : (pstart + 0 * PGSIZE) % 2 ^ 64 = pstart := by omega
    have e2 : (va + 0 * PGSIZE) % 2 ^ 64 = va := by omega
    have E := vm_map_effect D root va pstart perm s hinv
    have hu0 : pte_of D s.mem root va &&& PTE_V = 0 := by
      have h := hunm 0 (Nat.succ_pos c)
      rw [e2] at h
      exact h
    have hr0 : (vm_map D s root va pstart perm).1 = 0 :=
      E.succeeds hu0 (by omega) (fun p hp => hnn p (mem_take_of_drop (k := 0) (by omega) hp))
    have hne0 : pstart ≠ pend := by
      have h := hne 0 (Nat.succ_pos c)
      rw [e1] at h
      exact h
    obtain ⟨k, hk, hpend⟩ := E.script
    have hstep : kvmmap_loop D (c + 1 + f) s pstart pend va perm
        = kvmmap_loop D (c + f) (vm_map D s root va pstart perm).2
            ((pstart + PGSIZE) % 2 ^ 64) pend ((va + PGSIZE) % 2 ^ 64) perm := by
      have ef : c + 1 + f = (c + f) + 1 := by omega
      rw [ef, kvmmap_loop_succ, hroot, if_neg (not_not.mpr hr0), if_neg hne0]
    have I := ih (vm_map D s root va pstart perm).2 ((pstart + PGSIZE) % 2 ^ 64)
      ((va + PGSIZE) % 2 ^ 64) f E.inv (E.kernel_eq.trans hroot)
      (Nat.mod_lt _ (by norm_num)) (Nat.mod_lt _ (by norm_num)) (by omega)
      (by
        intro i hi
        rw [page_shift, E.others _ (by
          have h := page_index_ne va 0 (i + 1) (Nat.succ_pos i) (by omega)
          rw [e2] at h
          exact h)]
        exact hunm (i + 1) (by omega))
      (by rw [hpend, List.length_drop]; omega)
      (by
        intro p hp
        rw [hpend] at hp
        exact hnn p (mem_take_of_drop (by omega) hp))
      (by
        intro i hi
        rw [page_shift]
        exact hne (i + 1) (by omega))
    obtain ⟨I1, I2⟩ := I
    rw [page_shift, page_shift] at I1
    refine ⟨by rw [hstep, run_ops_kmap_succ]; exact I1, ?_⟩
    rw [run_ops_kmap_succ]
    obtain ⟨k2, hk2, hpend2⟩ := I2.script
    refine ⟨I2.inv, I2.kernel_eq, I2.freed_eq.trans E.freed_eq, ⟨k + k2, by omega, ?_⟩, ?_, ?_, ?_⟩
    · rw [hpend2, hpend, List.drop_drop]
    · intro i hi
      cases i with
      | zero =>
        rw [e1, e2]
        exact hr0
      | succ i =>
        have h := I2.calls_ok i (by omega)
        rw [page_shift, page_shift] at h
        rw [run_ops_kmap_succ]
        exact h
    · intro i hi
      cases i with
      | zero =>
        rw [e1, e2, I2.others va (by
          intro i hi2
          rw [page_shift]
          have h := page_index_ne va 0 (i + 1) (Nat.succ_pos i) (by omega)
          rw [e2] at h
          intro hh
          exact h ⟨hh.1.symm, hh.2.1.symm, hh.2.2.symm⟩)]
        exact (E.ok hr0).2
      | succ i =>
        have h := I2.entries i (by omega)
        rw [page_shift, page_shift] at h
        exact h
    · intro va2 hva2
      rw [I2.others va2 (by
        intro i hi2
        rw [page_shift]
        exact hva2 (i + 1) (by omega))]
      exact E.others va2 (by
        have h := hva2 0 (Nat.succ_pos c)
        rw [e2] at h
        exact h)

theorem run_ops_kmap_last (D root perm : Nat) : ∀ (c : Nat) (s : KState) (va pa : Nat),
    va < 2 ^ 64 → pa < 2 ^ 64 →
    run_ops D root s (kmap_calls va pa perm (c + 1))
      = (vm_map D (run_ops D root s (kmap_calls va pa perm c)) root ((va + c * PGSIZE) % 2 ^ 64)
          ((pa + c * PGSIZE) % 2 ^ 64) perm).2 := by
  intro c
  induction c with
  | zero =>
    intro s va pa hva hpa
    have e1 : (pa + 0 * PGSIZE) % 2 ^ 64 = pa := by omega
    have e2 : (va + 0 * PGSIZE) % 2 ^ 64 = va := by omega
    rw [e1, e2]
    rfl
  | succ c ih =>
    intro s va pa _ _
    rw [run_ops_kmap_succ, ih _ _ _ (Nat.mod_lt _ (by norm_num)) (Nat.mod_lt _ (by norm_num)),
      page_shift, page_shift]
    rfl

/-- The script `frames_from base n` is fresh for an empty root that is not
one of its frames. -/
theorem frames_from_fresh (D : Nat) (m : Mem) (root base n : Nat) (hb : base % PGSIZE = 0)
    (hr : base + PGSIZE * n < 2 ^ 64) (hempty : ∀ i, i < 512 → m (root + 8 * i) &&& PTE_V = 0)
    (hroot : ∀ i, i < n → base + PGSIZE * (i + 1) ≠ root) :
    FreshFrames D m root (frames_from base n) := by
  have hmem : ∀ p, p ∈ frames_from base n → ∃ i, i < n ∧ p = base + PGSIZE * (i + 1) := by
    intro p hp
    unfold frames_from at hp
    obtain ⟨i, hi, e⟩ := List.mem_map.mp hp
    exact ⟨i, List.mem_range.mp hi, e.symm⟩
  refine ⟨?_, ?_, ?_, ?_⟩
  · intro p hp
    obtain ⟨i, _, e⟩ := hmem p hp
    rw [e]
    unfold PGSIZE at hb ⊢
    omega
  · intro p hp
    obtain ⟨i, hi, e⟩ := hmem p hp
    rw [e]
    unfold PGSIZE at hr ⊢
    have h1 : 4096 * (i + 1) ≤ 4096 * n := Nat.mul_le_mul_left _ hi
    omega
  · intro p hp _ htab
    obtain ⟨i, hi, e⟩ := hmem p hp
    rcases htab with h | ⟨k, hk, hv, _⟩ | ⟨k, _, hk, _, hv, _⟩
    · exact hroot i hi (e.symm.trans h)
    · exact hv (hempty k hk)
    · exact hv (hempty k hk)
  · unfold frames_from
    rw [List.pairwise_map]
    refine (List.pairwise_lt_range n).imp ?_
    intro a b hab _
    unfold PGSIZE
    omega

theorem frames_from_length (base n : Nat) : (frames_from base n).length = n := by
  unfold frames_from
  rw [List.length_map, List.length_range]

theorem frames_from_ne_null (base n p : Nat) (hp : p ∈ frames_from base n) : p ≠ NULL := by
  unfold frames_from at hp
  obtain ⟨i, _, e⟩ := List.mem_map.mp hp
  rw [← e]
  unfold PGSIZE NULL
  omega

theorem kmap_frames_length (base n : Nat) :
    (kmap_state (frames_from base n)).pending.length = n :=
  frames_from_length base n

theorem kmap_frames_ne_null (base n p : Nat)
    (hp : p ∈ (kmap_state (frames_from base n)).pending) : p ≠ NULL :=
  frames_from_ne_null base n p hp

theorem kmap_frames_take_ne_null (base n k p : Nat)
    (hp : p ∈ (kmap_state (frames_from base n)).pending.take k) : p ≠ NULL :=
  frames_from_ne_null base n p (List.mem_of_mem_take hp)

theorem kmap_state_unmapped (D : Nat) (script : List Nat) (root va : Nat) :
    pte_of D (kmap_state script).mem root va &&& PTE_V = 0 := by
  rw [pte_of_invalid2 D _ root va (by simp [kmap_state])]
  rfl

theorem kmap_state_inv (script : List Nat)
    (hfresh : FreshFrames D0 (fun _ => 0) root0 script) : PtInv D0 root0 (kmap_state script) :=
  ⟨by decide, tree_of_empty_root D0 _ root0 (by decide) (fun _ _ => by simp [kmap_state]), hfresh⟩

/-- C12 (amended with the bound on the number of pages).  `kvmmap` maps exactly
the pages of the range.  For every `pa` and `sz >= 1` with `pa + sz - 1` below
`2 ^ 64`, let `n = (PGROUNDDOWN(pa+sz-1) - PGROUNDDOWN(pa)) / 4096 + 1` and
suppose `n <= 2 ^ 27` (the pages of the range then have different index
triples under SV39).  On a tree-shaped kernel root in which none of the `n`
target pages is mapped, with an allocator that does not fail (the script holds
two fresh frames, none of them `NULL`, for each page), `kvmmap(pa, sz, perm)`
given `n` iterations returns 0 in the state that `n` successive calls of
`vm_map` leave; the call number `i` is made at virtual address
`P2V_WO(PGROUNDDOWN(pa)) + i * 4096` (on 64 bits) for the page
`PGROUNDDOWN(pa) + i * 4096`, returns 0, and its level-0 entry is
`PA2PTE(PGROUNDDOWN(pa) + i * 4096) | PTE_V | perm` in the final state; the
level-0 entry of every address outside the `n` pages is the one from before;
and `n = 1` when start and end fall in the same page. -/
theorem kvmmap_maps_range (D fuel n : Nat) (s : KState) (pa sz perm : Nat)
    (hinv : PtInv D s.kernel_pgtbl s) (hsz : 1 ≤ sz) (hov : pa + sz - 1 < 2 ^ 64)
    (hn : n = (PGROUNDDOWN (pa + sz - 1) - PGROUNDDOWN pa) / PGSIZE + 1) (hmax : n ≤ 2 ^ 27)
    (hunm : ∀ i, i < n → pte_of D s.mem s.kernel_pgtbl
      ((P2V_WO D (PGROUNDDOWN pa) + i * PGSIZE) % 2 ^ 64) &&& PTE_V = 0)
    (hlen : 2 * n ≤ s.pending.length) (hnn : ∀ p, p ∈ s.pending.take (2 * n) → p ≠ NULL)
    (hfuel : n ≤ fuel) :
    kvmmap D fuel s pa sz perm = some (0, run_ops D s.kernel_pgtbl s
        (kmap_calls (P2V_WO D (PGROUNDDOWN pa)) (PGROUNDDOWN pa) perm n)) ∧
      (∀ i, i < n →
        (vm_map D (run_ops D s.kernel_pgtbl s
            (kmap_calls (P2V_WO D (PGROUNDDOWN pa)) (PGROUNDDOWN pa) perm i)) s.kernel_pgtbl
          ((P2V_WO D (PGROUNDDOWN pa) + i * PGSIZE) % 2 ^ 64)
          (PGROUNDDOWN pa + i * PGSIZE) perm).1 = 0 ∧
        pte_of D (run_ops D s.kernel_pgtbl s
            (kmap_calls (P2V_WO D (PGROUNDDOWN pa)) (PGROUNDDOWN pa) perm n)).mem s.kernel_pgtbl
          ((P2V_WO D (PGROUNDDOWN pa) + i * PGSIZE) % 2 ^ 64)
          = (PA2PTE (PGROUNDDOWN pa + i * PGSIZE) ||| PTE_V ||| perm) % 2 ^ 64) ∧
      (∀ va2, (∀ i, i < n →
          ¬ (PX 2 va2 = PX 2 ((P2V_WO D (PGROUNDDOWN pa) + i * PGSIZE) % 2 ^ 64) ∧
            PX 1 va2 = PX 1 ((P2V_WO D (PGROUNDDOWN pa) + i * PGSIZE) % 2 ^ 64) ∧
            PX 0 va2 = PX 0 ((P2V_WO D (PGROUNDDOWN pa) + i * PGSIZE) % 2 ^ 64))) →
        pte_of D (run_ops D s.kernel_pgtbl s
            (kmap_calls (P2V_WO D (PGROUNDDOWN pa)) (PGROUNDDOWN pa) perm n)).mem s.kernel_pgtbl va2
          = pte_of D s.mem s.kernel_pgtbl va2) ∧
      (PGROUNDDOWN pa = PGROUNDDOWN (pa + sz - 1) → n = 1) := by
  have hps : PGROUNDDOWN pa < 2 ^ 64 := by
    unfold PGROUNDDOWN PGSIZE
    omega
  have hva : P2V_WO D (PGROUNDDOWN pa) < 2 ^ 64 := Nat.mod_lt _ (by norm_num)
  have hend : (pa + sz + (2 ^ 64 - 1)) % 2 ^ 64 = pa + sz - 1 := by omega
  have hpend : PGROUNDDOWN (pa + sz - 1) = PGROUNDDOWN pa + (n - 1) * PGSIZE := by
    rw [hn]
    unfold PGROUNDDOWN PGSIZE
    omega
  have hnomod : ∀ i, i < n → (PGROUNDDOWN pa + i * PGSIZE) % 2 ^ 64 = PGROUNDDOWN pa + i * PGSIZE := by
    intro i hi
    apply Nat.mod_eq_of_lt
    have h1 : PGROUNDDOWN (pa + sz - 1) < 2 ^ 64 := by
      unfold PGROUNDDOWN PGSIZE
      omega
    rw [hpend] at h1
    unfold PGSIZE at h1 ⊢
    omega
  have K := (kvmmap_loop_first_calls D s.kernel_pgtbl perm (2 ^ 64) n s (PGROUNDDOWN pa)
    (P2V_WO D (PGROUNDDOWN pa)) 0 hinv rfl hps hva hmax hunm hlen hnn
    (fun i _ => Nat.ne_of_lt (Nat.mod_lt _ (by norm_num)))).2
  have hn1 : 1 ≤ n := by
    rw [hn]
    exact Nat.le_add_left 1 _
  obtain ⟨c, rfl⟩ : ∃ c, n = c + 1 := ⟨n - 1, by omega⟩
  obtain ⟨f, rfl⟩ : ∃ f, fuel = c + (f + 1) := ⟨fuel - (c + 1), by omega⟩
  have P := (kvmmap_loop_first_calls D s.kernel_pgtbl perm (PGROUNDDOWN (pa + sz - 1)) c s
    (PGROUNDDOWN pa) (P2V_WO D (PGROUNDDOWN pa)) (f + 1) hinv rfl hps hva (by omega)
    (fun i hi => hunm i (by omega)) (by omega)
    (fun p hp => hnn p (mem_take_of_drop (k := 0) (by omega) hp))
    (by
      intro i hi
      rw [hnomod i (by omega), hpend]
      unfold PGSIZE
      have h1 : i * 4096 < c * 4096 := Nat.mul_lt_mul_of_pos_right hi (by norm_num)
      omega))
  have hlast := K.calls_ok c (Nat.lt_succ_self c)
  refine ⟨?_, ?_, K.others, ?_⟩
  · unfold kvmmap
    rw [hend, P.1, kvmmap_loop_succ, P.2.kernel_eq, if_neg (not_not.mpr hlast),
      if_pos (by rw [hnomod c (Nat.lt_succ_self c), hpend]; rfl),
      run_ops_kmap_last D s.kernel_pgtbl perm c s _ _ hva hps]
  · intro i hi
    have h1 := K.calls_ok i hi
    have h2 := K.entries i hi
    rw [hnomod i hi] at h1 h2
    exact ⟨h1, h2⟩
  · intro h
    rw [← h] at hpend
    unfold PGSIZE at hpend
    omega

/-- Witness of C12 (scenario 5): `kmap(0x80200000, 0x400000, R|W|X)` on an empty
kernel root returns 0 after 1024 calls of `vm_map`, and the level-0 entry of
each of the 1024 pages `P2V_WO(0x80200000) + i * 4096` holds the page
`0x80200000 + i * 4096` with `V`, `R`, `W`, `X`. -/
theorem kvmmap_maps_range_witness :
    kvmmap D0 1024 (kmap_state (frames_from root0 2048)) 0x80200000 0x400000
        (PTE_R ||| PTE_W ||| PTE_X)
      = some (0, run_ops D0 root0 (kmap_state (frames_from root0 2048))
          (kmap_calls (P2V_WO D0 (PGROUNDDOWN 0x80200000)) (PGROUNDDOWN 0x80200000)
            (PTE_R ||| PTE_W ||| PTE_X) 1024)) ∧
      P2V_WO D0 (PGROUNDDOWN 0x80200000) = 0xFFFFFFFFC0200000 ∧
      ∀ i, i < 1024 →
        pte_of D0 (run_ops D0 root0 (kmap_state (frames_from root0 2048))
            (kmap_calls (P2V_WO D0 (PGROUNDDOWN 0x80200000)) (PGROUNDDOWN 0x80200000)
              (PTE_R ||| PTE_W ||| PTE_X) 1024)).mem root0
          ((P2V_WO D0 (PGROUNDDOWN 0x80200000) + i * PGSIZE) % 2 ^ 64)
          = (PA2PTE (PGROUNDDOWN 0x80200000 + i * PGSIZE) ||| PTE_V
              ||| (PTE_R ||| PTE_W ||| PTE_X)) % 2 ^ 64 :=
  have h := kvmmap_maps_range D0 1024 1024 (kmap_state (frames_from root0 2048)) 0x80200000
    0x400000 (PTE_R ||| PTE_W ||| PTE_X)
    (kmap_state_inv _ (frames_from_fresh D0 _ root0 root0 2048 (by decide) (by decide)
      (fun _ _ => Nat.zero_and _) (fun i _ => by unfold PGSIZE; omega)))
    (by decide) (by decide) (by decide) (by decide)
    (fun i _ => kmap_state_unmapped D0 _ root0 _)
    (by rw [kmap_frames_length])
    (fun p hp => kmap_frames_take_ne_null root0 2048 _ p hp)
    (Nat.le_refl _)
  ⟨h.1, by decide, fun i hi => (h.2.1 i hi).2⟩

/-- C12, refuted as stated: a range of `2 ^ 27 + 1` pages.  On the empty kernel
root, with `2 ^ 28 + 2` fresh frames in the script (two for each page, none of
them `NULL`) and no target page mapped, `kvmmap(0, 2 ^ 39 + 1, R|W|X)` returns
-1: the page number `2 ^ 27` has the index triple of page 0, which the first
call mapped, so the call of `vm_map` for it finds a valid entry. -/
theorem kvmmap_wide_range_fails :
    PtInv D0 root0 (kmap_state (frames_from 0 (2 ^ 28 + 2))) ∧
      (∀ va, pte_of D0 (kmap_state (frames_from 0 (2 ^ 28 + 2))).mem root0 va &&& PTE_V = 0) ∧
      (PGROUNDDOWN (0 + (2 ^ 39 + 1) - 1) - PGROUNDDOWN 0) / PGSIZE + 1 = 2 ^ 27 + 1 ∧
      2 * (2 ^ 27 + 1) ≤ (kmap_state (frames_from 0 (2 ^ 28 + 2))).pending.length ∧
      (∀ p, p ∈ (kmap_state (frames_from 0 (2 ^ 28 + 2))).pending → p ≠ NULL) ∧
      ∀ f, (kvmmap D0 (2 ^ 27 + 1 + f) (kmap_state (frames_from 0 (2 ^ 28 + 2))) 0 (2 ^ 39 + 1)
        (PTE_R ||| PTE_W ||| PTE_X)).map Prod.fst = some (-1) := by
  have hinv : PtInv D0 root0 (kmap_state (frames_from 0 (2 ^ 28 + 2))) :=
    kmap_state_inv _ (frames_from_fresh D0 _ root0 0 (2 ^ 28 + 2) (by decide) (by decide)
      (fun _ _ => Nat.zero_and _) (fun i hi => by unfold PGSIZE root0; omega))
  have hlen : (kmap_state (frames_from 0 (2 ^ 28 + 2))).pending.length = 2 ^ 28 + 2 :=
    kmap_frames_length 0 (2 ^ 28 + 2)
  refine ⟨hinv, fun va => kmap_state_unmapped D0 _ root0 va, by decide, by rw [hlen]; decide,
    fun p hp => kmap_frames_ne_null 0 (2 ^ 28 + 2) p hp, ?_⟩
  intro f
  have hp : PGROUNDDOWN 0 = 0 := by decide
  have he : PGROUNDDOWN ((0 + (2 ^ 39 + 1) + (2 ^ 64 - 1)) % 2 ^ 64) = 2 ^ 39 := by decide
  have hv : P2V_WO D0 0 = D0 := by decide
  have hf : 2 ^ 27 + 1 + f = 2 ^ 27 + (f + 1) := by omega
  obtain ⟨P1, K⟩ := kvmmap_loop_first_calls D0 root0 (PTE_R ||| PTE_W ||| PTE_X) (2 ^ 39) (2 ^ 27)
    (kmap_state (frames_from 0 (2 ^ 28 + 2))) 0 D0 (f + 1) hinv rfl (by decide) (by decide)
    (Nat.le_refl _) (fun i _ => kmap_state_unmapped D0 _ root0 _) (by rw [hlen]; decide)
    (fun p hp => kmap_frames_take_ne_null 0 (2 ^ 28 + 2) _ p hp)
    (fun i hi => by unfold PGSIZE; omega)
  have E := vm_map_effect D0 root0 ((D0 + 2 ^ 27 * PGSIZE) % 2 ^ 64) ((0 + 2 ^ 27 * PGSIZE) % 2 ^ 64)
    (PTE_R ||| PTE_W ||| PTE_X) _ K.inv
  have hfail : (vm_map D0 (run_ops D0 root0 (kmap_state (frames_from 0 (2 ^ 28 + 2)))
      (kmap_calls D0 0 (PTE_R ||| PTE_W ||| PTE_X) (2 ^ 27))) root0
      ((D0 + 2 ^ 27 * PGSIZE) % 2 ^ 64) ((0 + 2 ^ 27 * PGSIZE) % 2 ^ 64)
      (PTE_R ||| PTE_W ||| PTE_X)).1 ≠ 0 := by
    intro h0
    have h1 := (E.ok h0).1
    rw [pte_of_same_index D0 _ root0 ((D0 + 2 ^ 27 * PGSIZE) % 2 ^ 64) ((D0 + 0 * PGSIZE) % 2 ^ 64)
      (by decide) (by decide) (by decide), K.entries 0 (by decide)] at h1
    exact leaf_valid _ _ h1
  unfold kvmmap
  rw [hp, he, hv, hf, P1, kvmmap_loop_succ, K.kernel_eq, if_pos hfail]
  rfl

/-- Two pages `2 ^ 27` pages apart have the same three indices. -/
theorem page_index_wrap (va : Nat) :
    PX 2 ((va + 2 ^ 27 * PGSIZE) % 2 ^ 64) = PX 2 ((va + 0 * PGSIZE) % 2 ^ 64) ∧
      PX 1 ((va + 2 ^ 27 * PGSIZE) % 2 ^ 64) = PX 1 ((va + 0 * PGSIZE) % 2 ^ 64) ∧
      PX 0 ((va + 2 ^ 27 * PGSIZE) % 2 ^ 64) = PX 0 ((va + 0 * PGSIZE) % 2 ^ 64) := by
  simp only [PX_eq, PGSIZE]
  norm_num
  omega

/-- A range of more than `2 ^ 27` pages, for any `pa` and `sz`: when the first
`2 ^ 27` target pages are not mapped and the script holds two frames for each
of them, none `NULL`, `kvmmap(pa, sz, perm)` returns -1, after `2 ^ 27` calls
of `vm_map` that returned 0: the next page has the indices of the first. -/
theorem kvmmap_range_beyond_sv39 (D fuel n : Nat) (s : KState) (pa sz perm : Nat)
    (hinv : PtInv D s.kernel_pgtbl s) (hsz : 1 ≤ sz) (hov : pa + sz - 1 < 2 ^ 64)
    (hn : n = (PGROUNDDOWN (pa + sz - 1) - PGROUNDDOWN pa) / PGSIZE + 1) (hbig : 2 ^ 27 < n)
    (hunm : ∀ i, i < 2 ^ 27 → pte_of D s.mem s.kernel_pgtbl
      ((P2V_WO D (PGROUNDDOWN pa) + i * PGSIZE) % 2 ^ 64) &&& PTE_V = 0)
    (hlen : 2 * 2 ^ 27 ≤ s.pending.length)
    (hnn : ∀ p, p ∈ s.pending.take (2 * 2 ^ 27) → p ≠ NULL) (hfuel : 2 ^ 27 < fuel) :
    (kvmmap D fuel s pa sz perm).map Prod.fst = some (-1) ∧
      ∀ i, i < 2 ^ 27 →
        (vm_map D (run_ops D s.kernel_pgtbl s
            (kmap_calls (P2V_WO D (PGROUNDDOWN pa)) (PGROUNDDOWN pa) perm i)) s.kernel_pgtbl
          ((P2V_WO D (PGROUNDDOWN pa) + i * PGSIZE) % 2 ^ 64)
          ((PGROUNDDOWN pa + i * PGSIZE) % 2 ^ 64) perm).1 = 0 := by
  have hps : PGROUNDDOWN pa < 2 ^ 64 := by
    unfold PGROUNDDOWN PGSIZE
    omega
  have hva : P2V_WO D (PGROUNDDOWN pa) < 2 ^ 64 := Nat.mod_lt _ (by norm_num)
  have hend : (pa + sz + (2 ^ 64 - 1)) % 2 ^ 64 = pa + sz - 1 := by omega
  have hpend : PGROUNDDOWN (pa + sz - 1) = PGROUNDDOWN pa + (n - 1) * PGSIZE := by
    rw [hn]
    unfold PGROUNDDOWN PGSIZE
    omega
  have hpl : PGROUNDDOWN (pa + sz - 1) < 2 ^ 64 := by
    unfold PGROUNDDOWN PGSIZE
    omega
  obtain ⟨f, rfl⟩ : ∃ f, fuel = 2 ^ 27 + (f + 1) := ⟨fuel - (2 ^ 27 + 1), by omega⟩
  obtain ⟨P1, K⟩ := kvmmap_loop_first_calls D s.kernel_pgtbl perm (PGROUNDDOWN (pa + sz - 1))
    (2 ^ 27) s (PGROUNDDOWN pa) (P2V_WO D (PGROUNDDOWN pa)) (f + 1) hinv rfl hps hva
    (Nat.le_refl _) hunm hlen hnn
    (by
      intro i hi
      rw [hpend] at hpl ⊢
      unfold PGSIZE at hpl ⊢
      omega)
  refine ⟨?_, K.calls_ok⟩
  have E := vm_map_effect D s.kernel_pgtbl ((P2V_WO D (PGROUNDDOWN pa) + 2 ^ 27 * PGSIZE) % 2 ^ 64)
    ((PGROUNDDOWN pa + 2 ^ 27 * PGSIZE) % 2 ^ 64) perm _ K.inv
  have hw := page_index_wrap (P2V_WO D (PGROUNDDOWN pa))
  have hfail : (vm_map D (run_ops D s.kernel_pgtbl s
      (kmap_calls (P2V_WO D (PGROUNDDOWN pa)) (PGROUNDDOWN pa) perm (2 ^ 27))) s.kernel_pgtbl
      ((P2V_WO D (PGROUNDDOWN pa) + 2 ^ 27 * PGSIZE) % 2 ^ 64)
      ((PGROUNDDOWN pa + 2 ^ 27 * PGSIZE) % 2 ^ 64) perm).1 ≠ 0 := by
    intro h0
    have h1 := (E.ok h0).1
    rw [pte_of_same_index D _ s.kernel_pgtbl _ _ hw.1 hw.2.1 hw.2.2,
      K.entries 0 (by norm_num)] at h1
    exact leaf_valid _ _ h1
  unfold kvmmap
  rw [hend, P1, kvmmap_loop_succ, K.kernel_eq, if_pos hfail]
  rfl

/-! ## The invariant of the kernel page table under the public calls -/

end Xv6
